import Mathlib

/-!
# Fleet: a ship container organised as a BST, an AVL tree or a splay tree

A shallow embedding of `fleet.cpp`.  A `Ship*` owning a subtree is a value of
`Tree`; a pointer into the tree owned by `m_root` is the path (`List Dir`) that
leads from the root to it; machine integers are `Int`.  Code whose behaviour is
undefined in C++ (a null dereference, or links rewritten so that the pointer
structure stops being a tree) returns `none`, as does a loop that runs out of
fuel.
-/

namespace FleetTree

/-- Modelled from the spec: the enumeration `TREETYPE` is declared in `fleet.h`,
which is not among the sources; `fleet.cpp` uses exactly these four tags. -/
inductive TREETYPE
  | BST
  | AVL
  | SPLAY
  | NONE
  deriving DecidableEq, Repr

/-- Modelled from the spec: the category tag `SHIPTYPE` of `fleet.h` (absent).  The tree
code only copies it, so a tag is represented by its integer value. -/
abbrev SHIPTYPE := Nat

/-- Modelled from the spec: the status tag `STATE` of `fleet.h` (absent), represented by its
integer value. -/
abbrev STATE := Nat

/-- Modelled from the spec: the height a freshly constructed `Ship` carries (`fleet.h`,
absent); a leaf has height 0.  Every path that creates a node recomputes all heights
before a height is read. -/
def DEFAULT_HEIGHT : Int := 0

/-- The value part of a `Ship`: what `getID`, `getType` and `getState` return. -/
structure Ship where
  m_id : Int
  m_type : SHIPTYPE
  m_state : STATE
  deriving DecidableEq, Repr

/-- A `Ship*`: `nil` is `nullptr`, `node l s h r` a ship with value `s`, cached height
`h` (`m_height`), left child `l` (`m_left`) and right child `r` (`m_right`). -/
inductive Tree
  | nil
  | node (m_left : Tree) (ship : Ship) (m_height : Int) (m_right : Tree)
  deriving DecidableEq, Repr

/-- One step of a descent: to the left or to the right child. -/
inductive Dir
  | L
  | R
  deriving DecidableEq, Repr

/-- A pointer to a node of the tree, as the descent from the root that reaches it. -/
abbrev Path := List Dir

/-- The container: the root pointer and the tree type. -/
structure Fleet where
  m_root : Tree
  m_type : TREETYPE
  deriving DecidableEq, Repr

open Tree Dir TREETYPE

/-- The expression `p != nullptr ? p->getHeight() : -1`. -/
def cachedHeight : Tree → Int
  | nil => -1
  | node _ _ h _ => h

/-- The subtree a pointer designates. -/
def subtreeAt : Tree → Path → Tree
  | t, [] => t
  | nil, _ :: _ => nil
  | node l _ _ _, L :: p => subtreeAt l p
  | node _ _ _ r, R :: p => subtreeAt r p

/-- Source `Fleet::updateHeights`: post-order recomputation of every cached height. -/
def updateHeights : Tree → Tree
  | nil => nil
  | node l s _ r =>
    let l1 := updateHeights l
    let r1 := updateHeights r
    let leftHeight := cachedHeight l1
    let rightHeight := cachedHeight r1
    node l1 s ((if leftHeight > rightHeight then leftHeight else rightHeight) + 1) r1

/-- Source `Fleet::imbalance`: the first node, in the order node, left subtree, right
subtree, whose cached balance factor exceeds 1 in absolute value. -/
def imbalance : Tree → Option Path
  | nil => none
  | node l _ _ r =>
    let balanceFactor := cachedHeight l - cachedHeight r
    if balanceFactor.natAbs > 1 then some []
    else
      match imbalance l with
      | some p => some (L :: p)
      | none =>
        match imbalance r with
        | some p => some (R :: p)
        | none => none

/-- Source `Fleet::rotationAVL`, the left-heavy branch at `node = node l s h r`: the
optional left-right rotation of the left child, then the left-left rotation.  The result
is the new root of the rotated subtree (`leftChildNow`); `none` when `node->getLeft()`
is null. -/
def rotateLeftHeavy (l : Tree) (s : Ship) (h : Int) (r : Tree) : Option Tree :=
  let l1 :=
    match l with
    | node ll ls lh (node lrl lrs lrh lrr) =>
      if lrh > cachedHeight ll then node (node ll ls lh lrl) lrs lrh lrr else l
    | _ => l
  match l1 with
  | nil => none
  | node a ls lh b => some (node a ls lh (node b s h r))

/-- Source `Fleet::rotationAVL`, the right-heavy branch: the optional right-left rotation
of the right child, then the right-right rotation. -/
def rotateRightHeavy (l : Tree) (s : Ship) (h : Int) (r : Tree) : Option Tree :=
  let r1 :=
    match r with
    | node (node rll rls rlh rlr) rs rh rr =>
      if rlh > cachedHeight rr then node rll rls rlh (node rlr rs rh rr) else r
    | _ => r
  match r1 with
  | nil => none
  | node a rs rh b => some (node (node l s h a) rs rh b)

/-- Source `Fleet::rotationAVL`, the parent search and the relink, `p` being the pointer
`node` and `sub` the new root of the rotated subtree.  The descent from the root is
directed by `node->getID() < current->getID()` and stops at `node` or at a null pointer;
`parent` is the last node it left.  When it reaches `node`, the link that held `node`
receives `sub`.  When it ends at a null pointer, `parent->getLeft() == node` decides which
link of `parent` receives `sub`: the result is again a tree when `parent` is the parent of
`node`, and when `node` lies in the right subtree of `parent` (that subtree is then
replaced by `sub`, and the nodes between are no longer linked).  In the other cases `node`
would be linked twice: `none`. -/
def relinkAt (nid : Int) (sub : Tree) : Tree → Path → Option Tree
  | _, [] => some sub
  | nil, _ :: _ => none
  | node l s h r, L :: p =>
    if nid < s.m_id then (relinkAt nid sub l p).map (fun l1 => node l1 s h r)
    else
      match r, p with
      | nil, [] => some (node sub s h nil)
      | _, _ => none
  | node l s h r, R :: p =>
    if nid < s.m_id then
      match l with
      | nil => some (node nil s h sub)
      | _ => none
    else (relinkAt nid sub r p).map (fun r1 => node l s h r1)

/-- One pass of the loop of `Fleet::rotationAVL` for the imbalanced node at `p`, without
the final `updateHeights`: the balance factor from the cached heights, the rotation it
selects, the relink. -/
def rotationAVLPass (root : Tree) (p : Path) : Option Tree :=
  match subtreeAt root p with
  | nil => none
  | node l s h r =>
    let balanceFactor := cachedHeight l - cachedHeight r
    if balanceFactor > 1 then
      match rotateLeftHeavy l s h r with
      | none => none
      | some leftChildNow => relinkAt s.m_id leftChildNow root p
    else if balanceFactor < -1 then
      match rotateRightHeavy l s h r with
      | none => none
      | some rightChildNow => relinkAt s.m_id rightChildNow root p
    else some root

/-- Source `Fleet::rotationAVL`: the `do ... while (imbalance(m_root) != nullptr)` loop;
`fuel` bounds the number of passes, and each pass ends with `updateHeights(m_root)`. -/
def rotationAVL : Nat → Tree → Option Tree
  | fuel, root =>
    match imbalance root with
    | none => some root
    | some p =>
      match fuel with
      | 0 => none
      | fuel + 1 =>
        match rotationAVLPass root p with
        | none => none
        | some t =>
          let t1 := updateHeights t
          if (imbalance t1).isSome then rotationAVL fuel t1 else some t1

/-- Source `Fleet::rotationSPLAY`, the zig case: `parent == m_root`, the target is the
child of the root in direction `d`.  The guard is the descent `shipNode->getID() <
child->getID()`, which must lead to the target. -/
def zig (nid : Int) : Tree → Dir → Option Tree
  | node (node a x hx b) ps ph c, L =>
    if nid < ps.m_id then some (node a x hx (node b ps ph c)) else none
  | node a ps ph (node b x hx c), R =>
    if nid < ps.m_id then none else some (node (node a ps ph b) x hx c)
  | _, _ => none

/-- Source `Fleet::rotationSPLAY`, the four double rotations at the grandparent; the
result is the target, new root of the rotated subtree. -/
def zigzig (nid : Int) : Tree → Dir → Dir → Option Tree
  | node (node (node a x hx b) ps ph c) gs gh d, L, L =>
    if nid < gs.m_id ∧ nid < ps.m_id then
      some (node a x hx (node b ps ph (node c gs gh d)))
    else none
  | node (node a ps ph (node b x hx c)) gs gh d, L, R =>
    if nid < gs.m_id ∧ ¬ nid < ps.m_id then
      some (node (node a ps ph b) x hx (node c gs gh d))
    else none
  | node a gs gh (node b ps ph (node c x hx d)), R, R =>
    if ¬ nid < gs.m_id ∧ ¬ nid < ps.m_id then
      some (node (node (node a gs gh b) ps ph c) x hx d)
    else none
  | node a gs gh (node (node b x hx c) ps ph d), R, L =>
    if ¬ nid < gs.m_id ∧ nid < ps.m_id then
      some (node (node a gs gh b) x hx (node c ps ph d))
    else none
  | _, _, _ => none

/-- Source `Fleet::rotationSPLAY`, one iteration outside the zig case: the descent from
the root to the grandparent of the target, the double rotation there, and the relink
under the great-grandparent (or as the root). -/
def splayDouble (nid : Int) : Tree → Path → Option Tree
  | t, [d1, d2] => zigzig nid t d1 d2
  | node l s h r, L :: d2 :: d3 :: p =>
    if nid < s.m_id then
      (splayDouble nid l (d2 :: d3 :: p)).map (fun l1 => node l1 s h r)
    else none
  | node l s h r, R :: d2 :: d3 :: p =>
    if nid < s.m_id then none
    else (splayDouble nid r (d2 :: d3 :: p)).map (fun r1 => node l s h r1)
  | _, _ => none

/-- Source `Fleet::rotationSPLAY`: the loop `while (m_root != shipNode)`, the target
being at `p`. -/
def splayLoop (nid : Int) : Nat → Tree → Path → Option Tree
  | _, t, [] => some t
  | 0, _, _ :: _ => none
  | _ + 1, t, [d] => zig nid t d
  | fuel + 1, t, d1 :: d2 :: p =>
    match splayDouble nid t (d1 :: d2 :: p) with
    | none => none
    | some t1 => splayLoop nid fuel t1 (d1 :: d2 :: p).dropLast.dropLast

/-- Source `Fleet::rotationSPLAY` for the node at `p` (never null here), whose identifier
is `nid`: nothing when it is the root, otherwise the loop and one `updateHeights`. -/
def rotationSPLAY (nid : Int) (root : Tree) (p : Path) : Option Tree :=
  match p with
  | [] => some root
  | _ :: _ => (splayLoop nid p.length root p).map updateHeights

/-- Source `Fleet::insert`, lines 33-62: the descent and the link of the new node.  The
result is the new tree and the pointer to the new node; `none` stands for the early
return at an equal identifier. -/
def insertWalk (ship : Ship) : Tree → Option (Tree × Path)
  | nil => some (node nil ⟨ship.m_id, ship.m_type, ship.m_state⟩ DEFAULT_HEIGHT nil, [])
  | node l s h r =>
    if s.m_id = ship.m_id then none
    else if s.m_id > ship.m_id then
      (insertWalk ship l).map (fun q => (node q.1 s h r, L :: q.2))
    else
      (insertWalk ship r).map (fun q => (node l s h q.1, R :: q.2))

/-- Source `Fleet::insert`. -/
def Fleet.insert (MINID MAXID : Int) (fuel : Nat) (f : Fleet) (ship : Ship) : Option Fleet :=
  if f.m_type = NONE ∨ ship.m_id < MINID ∨ ship.m_id > MAXID then some f
  else
    match insertWalk ship f.m_root with
    | none => some f
    | some (t, newShip) =>
      let t1 := updateHeights t
      match f.m_type with
      | AVL => (rotationAVL fuel t1).map (fun t2 => { f with m_root := t2 })
      | SPLAY => (rotationSPLAY ship.m_id t1 newShip).map (fun t2 => { f with m_root := t2 })
      | _ => some { f with m_root := t1 }

/-- Source `Fleet::remove`, the predecessor loop: the tree `node l s h r` without its
rightmost node, and that node's value and cached height. -/
def detachMax (l : Tree) (s : Ship) (h : Int) : Tree → Tree × Ship × Int
  | nil => (l, s, h)
  | node rl rs rh rr =>
    let q := detachMax rl rs rh rr
    (node l s h q.1, q.2)

/-- Source `Fleet::remove`, the successor loop: the tree `node l s h r` without its
leftmost node, and that node's value and cached height. -/
def detachMin (s : Ship) (h : Int) (r : Tree) : Tree → Tree × Ship × Int
  | nil => (r, s, h)
  | node ll ls lh lr =>
    let q := detachMin ls lh lr ll
    (node q.1 s h r, q.2)

/-- Source `Fleet::remove`, lines 97-168: what the link that held `temp` holds after
the leaf case, the one-child case or the two-children case. -/
def removeNode : Tree → Tree
  | nil => nil
  | node nil _ _ nil => nil
  | node (node ll ls lh lr) _ _ nil => node ll ls lh lr
  | node nil _ _ (node rl rs rh rr) => node rl rs rh rr
  | node (node ll ls lh lr) _ _ (node rl rs rh rr) =>
    if lh < rh then
      let q := detachMax ll ls lh lr
      node q.1 q.2.1 q.2.2 (node rl rs rh rr)
    else
      let q := detachMin rs rh rr rl
      node (node ll ls lh lr) q.2.1 q.2.2 q.1

/-- Source `Fleet::remove`, lines 82-168: the search for `id` and the unlinking; `none`
when the search ends at a null pointer. -/
def removeWalk (id : Int) : Tree → Option Tree
  | nil => none
  | node l s h r =>
    if s.m_id = id then some (removeNode (node l s h r))
    else if s.m_id > id then (removeWalk id l).map (fun l1 => node l1 s h r)
    else (removeWalk id r).map (fun r1 => node l s h r1)

/-- Source `Fleet::remove`. -/
def Fleet.remove (MINID MAXID : Int) (fuel : Nat) (f : Fleet) (id : Int) : Option Fleet :=
  if f.m_root ≠ nil ∧ f.m_type ≠ NONE ∧ f.m_type ≠ SPLAY then
    if id < MINID ∨ id > MAXID then some f
    else
      match removeWalk id f.m_root with
      | none => some f
      | some t =>
        let t1 := updateHeights t
        if f.m_type = AVL then (rotationAVL fuel t1).map (fun t2 => { f with m_root := t2 })
        else some { f with m_root := t1 }
  else some f

/-- Source `Fleet::clear`: `clearHelper` releases every node of the tree, then `m_root`
is null; `m_type` is not written. -/
def Fleet.clear (f : Fleet) : Fleet :=
  { f with m_root := nil }

/-- Source `Fleet::assignmentOperatorHelper`: a fresh node per node, same value, same
children; the copy carries the height of a new `Ship`. -/
def assignmentOperatorHelper : Tree → Tree
  | nil => nil
  | node l s _ r =>
    node (assignmentOperatorHelper l) ⟨s.m_id, s.m_type, s.m_state⟩ DEFAULT_HEIGHT
      (assignmentOperatorHelper r)

/-- Source `Fleet::operator=`, on `self`; `aliased` is the truth of `this == &rhs` (then
`rhs` is `self`).  The dump written to the console is not part of the state. -/
def Fleet.assign (aliased : Bool) (self rhs : Fleet) : Fleet :=
  let f1 : Fleet :=
    if aliased then self
    else
      let cleared := self.clear
      match rhs.m_root with
      | nil => { m_root := cleared.m_root, m_type := rhs.m_type }
      | node l s h r => { m_root := assignmentOperatorHelper (node l s h r), m_type := rhs.m_type }
  { f1 with m_root := updateHeights f1.m_root }

/-- Source `Fleet::getType`. -/
def Fleet.getType (f : Fleet) : TREETYPE := f.m_type

/-- Source `Fleet::setType`. -/
def Fleet.setType (fuel : Nat) (f : Fleet) (type : TREETYPE) : Option Fleet :=
  if type = NONE then some ({ f with m_type := type }).clear
  else if type = AVL then
    (rotationAVL fuel f.m_root).map (fun t => { m_root := t, m_type := type })
  else some { f with m_type := type }

/-- Source `Fleet::dump`: the text written to `cout` for the subtree, `out` being the text
written so far; `<<` of an `int` writes its decimal digits. -/
def dump : Tree → String → String
  | nil, out => out
  | node l s h r, out =>
    let out1 := out ++ "("
    let out2 := dump l out1
    let out3 := out2 ++ toString s.m_id ++ ":" ++ toString h
    let out4 := dump r out3
    out4 ++ ")"

/-- Source `Fleet::dumpTree`. -/
def Fleet.dumpTree (f : Fleet) (out : String) : String :=
  dump f.m_root out

/-! ## Specification vocabulary -/

/-- The height of a subtree: -1 for the empty one, else one more than the higher child. -/
def height : Tree → Int
  | nil => -1
  | node l _ _ r => 1 + max (height l) (height r)

/-- The in-order sequence of the entries (identifier, category, status). -/
def inorder : Tree → List Ship
  | nil => []
  | node l s _ r => inorder l ++ s :: inorder r

/-- The identifiers stored in a tree, in order. -/
def ids (t : Tree) : List Int := (inorder t).map Ship.m_id

/-- BST order invariant: at every node the identifiers of the left subtree are strictly
smaller, those of the right subtree strictly greater than the node's. -/
def BSTOrder : Tree → Prop
  | nil => True
  | node l s _ r =>
    (∀ x ∈ inorder l, x.m_id < s.m_id) ∧ (∀ x ∈ inorder r, s.m_id < x.m_id) ∧
      BSTOrder l ∧ BSTOrder r

/-- Height invariant: every cached height is one more than the larger of the heights of
the two subtrees, an empty subtree counting as -1. -/
def HeightInv : Tree → Prop
  | nil => True
  | node l _ h r => h = 1 + max (height l) (height r) ∧ HeightInv l ∧ HeightInv r

/-- AVL balance invariant: at every node the heights of the subtrees differ by at most 1. -/
def Balanced : Tree → Prop
  | nil => True
  | node l _ _ r => (height l - height r).natAbs ≤ 1 ∧ Balanced l ∧ Balanced r

/-- The tree without its cached heights: the shape and the entry at each position. -/
inductive Shape
  | nil
  | node (left : Shape) (ship : Ship) (right : Shape)
  deriving DecidableEq, Repr

/-- The shape of a tree. -/
def shape : Tree → Shape
  | nil => Shape.nil
  | node l s _ r => Shape.node (shape l) s (shape r)

/-- The number of levels of a tree: one more than its height. -/
def levels : Tree → Nat
  | nil => 0
  | node l _ _ r => 1 + max (levels l) (levels r)

/-- The sum, over the nodes of a tree, of the number of levels of the subtree at the
node; the first component of the measure of `rotationAVL`. -/
def hsum : Tree → Nat
  | nil => 0
  | node l _ _ r => hsum l + hsum r + (1 + max (levels l) (levels r))

/-- The sum, over the nodes of a tree, of the amount by which the balance factor exceeds 1
in absolute value; the second component of the measure of `rotationAVL`. -/
def excess : Tree → Nat
  | nil => 0
  | node l _ _ r => excess l + excess r + ((levels l - levels r - 1) + (levels r - levels l - 1))

/-- The order in which each pass of `rotationAVL` descends: the height does not grow, and
either `hsum` drops or height and `hsum` stay and `excess` drops. -/
def Smaller (u t : Tree) : Prop :=
  levels u ≤ levels t ∧
    (hsum u < hsum t ∨ (levels u = levels t ∧ hsum u = hsum t ∧ excess u < excess t))

/-- The descent from the root directed by `nid < current->getID()` runs along `p`. -/
def Follows (nid : Int) : Tree → Path → Prop
  | _, [] => True
  | nil, _ :: _ => False
  | node l s _ _, L :: p => nid < s.m_id ∧ Follows nid l p
  | node _ s _ r, R :: p => ¬ nid < s.m_id ∧ Follows nid r p

/-- A run of `insert` calls, in order, on a container. -/
def insertAll (MINID MAXID : Int) (fuel : Nat) : Fleet → List Ship → Option Fleet
  | f, [] => some f
  | f, s :: ss =>
    match Fleet.insert MINID MAXID fuel f s with
    | none => none
    | some f1 => insertAll MINID MAXID fuel f1 ss

/-- A call of `insert` or of `remove`. -/
inductive Op
  | insert (ship : Ship)
  | remove (id : Int)
  deriving DecidableEq, Repr

/-- The effect of one call. -/
def applyOp (MINID MAXID : Int) (fuel : Nat) (f : Fleet) : Op → Option Fleet
  | Op.insert ship => Fleet.insert MINID MAXID fuel f ship
  | Op.remove id => Fleet.remove MINID MAXID fuel f id

/-- A run of `insert` and `remove` calls, in order, on a container. -/
def runOps (MINID MAXID : Int) (fuel : Nat) : Fleet → List Op → Option Fleet
  | f, [] => some f
  | f, op :: ops =>
    match applyOp MINID MAXID fuel f op with
    | none => none
    | some f1 => runOps MINID MAXID fuel f1 ops

/-- The container states that the public operations produce, starting from a freshly
constructed (empty) container of any type. -/
inductive Reachable (MINID MAXID : Int) : Fleet → Prop
  | create (type : TREETYPE) : Reachable MINID MAXID ⟨nil, type⟩
  | insert {f g : Fleet} (fuel : Nat) (ship : Ship) :
      Reachable MINID MAXID f → Fleet.insert MINID MAXID fuel f ship = some g →
      Reachable MINID MAXID g
  | remove {f g : Fleet} (fuel : Nat) (id : Int) :
      Reachable MINID MAXID f → Fleet.remove MINID MAXID fuel f id = some g →
      Reachable MINID MAXID g
  | setType {f g : Fleet} (fuel : Nat) (type : TREETYPE) :
      Reachable MINID MAXID f → Fleet.setType fuel f type = some g →
      Reachable MINID MAXID g
  | clear {f : Fleet} : Reachable MINID MAXID f → Reachable MINID MAXID f.clear
  | assign {f g : Fleet} (aliased : Bool) :
      Reachable MINID MAXID f → Reachable MINID MAXID g → (aliased = true → f = g) →
      Reachable MINID MAXID (Fleet.assign aliased f g)

/-- The entry of the rightmost node of a tree: the last one in order. -/
def rightmost : Tree → Option Ship
  | nil => none
  | node _ s _ nil => some s
  | node _ _ _ (node rl rs rc rr) => rightmost (node rl rs rc rr)

/-- The entry of the leftmost node of a tree: the first one in order. -/
def leftmost : Tree → Option Ship
  | nil => none
  | node nil s _ _ => some s
  | node (node ll ls lc lr) _ _ _ => leftmost (node ll ls lc lr)

/-- A tree with its rightmost node spliced out: the left child of that node takes its
place. -/
def spliceRightmost : Tree → Tree
  | nil => nil
  | node l _ _ nil => l
  | node l s c (node rl rs rc rr) => node l s c (spliceRightmost (node rl rs rc rr))

/-- A tree with its leftmost node spliced out: the right child of that node takes its
place. -/
def spliceLeftmost : Tree → Tree
  | nil => nil
  | node nil _ _ r => r
  | node (node ll ls lc lr) s c r => node (spliceLeftmost (node ll ls lc lr)) s c r

/-- The tree `t` with the subtree at `p` replaced by `sub`. -/
def replaceAt (sub : Tree) : Tree → Path → Tree
  | _, [] => sub
  | nil, _ :: _ => nil
  | node l s h r, L :: p => node (replaceAt sub l p) s h r
  | node l s h r, R :: p => node l s h (replaceAt sub r p)

/-- The BST order invariant can be checked. -/
instance decBSTOrder : (t : Tree) → Decidable (BSTOrder t)
  | nil => isTrue trivial
  | node l s _ r =>
    let _ := decBSTOrder l
    let _ := decBSTOrder r
    (inferInstance : Decidable ((∀ x ∈ inorder l, x.m_id < s.m_id) ∧
      (∀ x ∈ inorder r, s.m_id < x.m_id) ∧ BSTOrder l ∧ BSTOrder r))

/-- The height invariant can be checked. -/
instance decHeightInv : (t : Tree) → Decidable (HeightInv t)
  | nil => isTrue trivial
  | node l _ h r =>
    let _ := decHeightInv l
    let _ := decHeightInv r
    (inferInstance : Decidable (h = 1 + max (height l) (height r) ∧ HeightInv l ∧ HeightInv r))

/-- The AVL balance invariant can be checked. -/
instance decBalanced : (t : Tree) → Decidable (Balanced t)
  | nil => isTrue trivial
  | node l _ _ r =>
    let _ := decBalanced l
    let _ := decBalanced r
    (inferInstance : Decidable ((height l - height r).natAbs ≤ 1 ∧ Balanced l ∧ Balanced r))

/-- Whether the descent by identifier runs along a path can be checked. -/
instance decFollows (nid : Int) : (t : Tree) → (p : Path) → Decidable (Follows nid t p)
  | _, [] => isTrue (by simp [Follows])
  | nil, _ :: _ => isFalse (by simp [Follows])
  | node l s _ _, L :: p =>
    let _ := decFollows nid l p
    (inferInstance : Decidable (nid < s.m_id ∧ Follows nid l p))
  | node _ s _ r, R :: p =>
    let _ := decFollows nid r p
    (inferInstance : Decidable (¬ nid < s.m_id ∧ Follows nid r p))

/-- The reference recursive BST insertion of the specification, on trees without cached
heights: descend left when the new identifier is smaller, right when it is greater, and
attach the new entry as a leaf at the empty position reached; an equal identifier leaves
the tree as it is. -/
def referenceInsert (ship : Ship) : Shape → Shape
  | Shape.nil => Shape.node Shape.nil ship Shape.nil
  | Shape.node l s r =>
    if ship.m_id < s.m_id then Shape.node (referenceInsert ship l) s r
    else if s.m_id < ship.m_id then Shape.node l s (referenceInsert ship r)
    else Shape.node l s r

/-- Whether the node at the root of a tree is imbalanced: its balance factor, cached height
of the left child minus cached height of the right child (-1 for an empty child), exceeds 1
in absolute value. -/
def isImbalanced : Tree → Bool
  | nil => false
  | node l _ _ r => decide ((cachedHeight l - cachedHeight r).natAbs > 1)

/-- The nodes of a tree in pre-order: the node itself, then its left subtree, then its right
subtree. -/
def preorder : Tree → List Path
  | nil => []
  | node l _ _ r => [] :: ((preorder l).map (fun p => L :: p) ++ (preorder r).map (fun p => R :: p))

/-- The rotation that a pass of `rotationAVL` applies at the imbalanced node: the new root
of the rotated subtree, before the relink. -/
def rotateAtNode : Tree → Option Tree
  | nil => none
  | node l s h r =>
    if cachedHeight l - cachedHeight r > 1 then rotateLeftHeavy l s h r
    else if cachedHeight l - cachedHeight r < -1 then rotateRightHeavy l s h r
    else some (node l s h r)

/-- The dump text of the specification: nothing for the empty tree, and for a node an
opening parenthesis, the text of the left subtree, identifier, colon, cached height, the
text of the right subtree, a closing parenthesis. -/
def dumpText : Tree → String
  | nil => ""
  | node l s h r =>
    "(" ++ dumpText l ++ toString s.m_id ++ ":" ++ toString h ++ dumpText r ++ ")"

/-- An entry put at its sorted position in a sequence of entries ordered by identifier:
before the first entry with a greater identifier. -/
def insertSorted (e : Ship) : List Ship → List Ship
  | [] => [e]
  | x :: xs => if e.m_id < x.m_id then e :: x :: xs else x :: insertSorted e xs

/-- The pieces of which the dump text is made. -/
inductive Piece
  | opening
  | closing
  | colon
  | ident (id : Int)
  | cached (h : Int)
  deriving DecidableEq, Repr

/-- The text of a piece. -/
def Piece.text : Piece → String
  | Piece.opening => "("
  | Piece.closing => ")"
  | Piece.colon => ":"
  | Piece.ident id => toString id
  | Piece.cached h => toString h

/-- The text of a sequence of pieces. -/
def piecesText : List Piece → String
  | [] => ""
  | p :: ps => p.text ++ piecesText ps

/-- The dump of the specification, piece by piece. -/
def dumpPieces : Tree → List Piece
  | nil => []
  | node l s h r =>
    Piece.opening :: (dumpPieces l ++ Piece.ident s.m_id :: Piece.colon :: Piece.cached h ::
      (dumpPieces r ++ [Piece.closing]))

/-- The identifier a piece shows, if it is one. -/
def Piece.ident? : Piece → Option Int
  | Piece.ident id => some id
  | _ => none

/-- The trees on which the loop of `rotationAVL` runs a pass: the tree of a reachable
container when `setType` calls the loop; that tree after the descent of `insert`, or after
the removal of `remove`, and `updateHeights`, when these call the loop; and, while the loop
goes on, the tree after a pass and `updateHeights`.  The type and range tests that guard
the calls are left out, so that these are all trees of the calls the code makes. -/
inductive PassTree (MINID MAXID : Int) : Tree → Prop
  | setType {f : Fleet} : Reachable MINID MAXID f → PassTree MINID MAXID f.m_root
  | insert {f : Fleet} {t : Tree} {p : Path} (ship : Ship) :
      Reachable MINID MAXID f → insertWalk ship f.m_root = some (t, p) →
      PassTree MINID MAXID (updateHeights t)
  | remove {f : Fleet} {t : Tree} (id : Int) :
      Reachable MINID MAXID f → removeWalk id f.m_root = some t →
      PassTree MINID MAXID (updateHeights t)
  | pass {t u : Tree} {p : Path} :
      PassTree MINID MAXID t → imbalance t = some p → rotationAVLPass t p = some u →
      PassTree MINID MAXID (updateHeights u)

/-! ## Heights, shapes and the in-order sequence -/

theorem height_ge (t : Tree) : -1 ≤ height t := by
  induction t with
  | nil => simp [height]
  | node l s c r ihl ihr => simp only [height]; omega

theorem height_eq_levels (t : Tree) : height t = (levels t : Int) - 1 := by
  induction t with
  | nil => simp [height, levels]
  | node l s c r ihl ihr =>
    simp only [height, levels, ihl, ihr]
    omega

theorem cachedHeight_eq_height {t : Tree} (h : HeightInv t) : cachedHeight t = height t := by
  cases t with
  | nil => rfl
  | node l s c r => simp [cachedHeight, height, h.1]

theorem shape_updateHeights (t : Tree) : shape (updateHeights t) = shape t := by
  induction t with
  | nil => rfl
  | node l s h r ihl ihr => simp [updateHeights, shape, ihl, ihr]

theorem height_of_shape {t u : Tree} (h : shape t = shape u) : height t = height u := by
  induction t generalizing u with
  | nil => cases u <;> simp_all [shape]
  | node l s c r ihl ihr =>
    cases u with
    | nil => simp [shape] at h
    | node l2 s2 c2 r2 =>
      simp only [shape, Shape.node.injEq] at h
      simp [height, ihl h.1, ihr h.2.2]

theorem inorder_of_shape {t u : Tree} (h : shape t = shape u) : inorder t = inorder u := by
  induction t generalizing u with
  | nil => cases u <;> simp_all [shape]
  | node l s c r ihl ihr =>
    cases u with
    | nil => simp [shape] at h
    | node l2 s2 c2 r2 =>
      simp only [shape, Shape.node.injEq] at h
      simp [inorder, ihl h.1, ihr h.2.2, h.2.1]

theorem height_updateHeights (t : Tree) : height (updateHeights t) = height t :=
  height_of_shape (shape_updateHeights t)

theorem inorder_updateHeights (t : Tree) : inorder (updateHeights t) = inorder t :=
  inorder_of_shape (shape_updateHeights t)

theorem heightInv_updateHeights (t : Tree) : HeightInv (updateHeights t) := by
  induction t with
  | nil => trivial
  | node l s h r ihl ihr =>
    simp only [updateHeights, HeightInv]
    refine ⟨?_, ihl, ihr⟩
    rw [cachedHeight_eq_height ihl, cachedHeight_eq_height ihr]
    split <;> omega

theorem updateHeights_of_heightInv {t : Tree} (h : HeightInv t) : updateHeights t = t := by
  induction t with
  | nil => rfl
  | node l s c r ihl ihr =>
    obtain ⟨hc, hl, hr⟩ := h
    simp only [updateHeights, ihl hl, ihr hr]
    rw [cachedHeight_eq_height hl, cachedHeight_eq_height hr, hc]
    congr 1
    split <;> omega

theorem bstOrder_of_shape {t u : Tree} (h : shape t = shape u) : BSTOrder t ↔ BSTOrder u := by
  induction t generalizing u with
  | nil => cases u <;> simp_all [shape]
  | node l s c r ihl ihr =>
    cases u with
    | nil => simp [shape] at h
    | node l2 s2 c2 r2 =>
      simp only [shape, Shape.node.injEq] at h
      simp [BSTOrder, ihl h.1, ihr h.2.2, h.2.1, inorder_of_shape h.1, inorder_of_shape h.2.2]

theorem bstOrder_iff_pairwise (t : Tree) : BSTOrder t ↔ (ids t).Pairwise (· < ·) := by
  induction t with
  | nil => simp [BSTOrder, ids, inorder]
  | node l s c r ihl ihr =>
    simp only [ids] at ihl ihr
    simp only [BSTOrder, ids, inorder, List.map_append, List.map_cons, List.pairwise_append,
      List.pairwise_cons, ihl, ihr, List.mem_map, List.mem_cons]
    constructor
    · rintro ⟨h1, h2, h3, h4⟩
      refine ⟨h3, ⟨?_, h4⟩, ?_⟩
      · rintro a ⟨x, hx, rfl⟩; exact h2 x hx
      · rintro a ⟨x, hx, rfl⟩ b (rfl | ⟨y, hy, rfl⟩)
        · exact h1 x hx
        · exact lt_trans (h1 x hx) (h2 y hy)
    · rintro ⟨h3, ⟨h2, h4⟩, h1⟩
      refine ⟨fun x hx => h1 _ ⟨x, hx, rfl⟩ _ (Or.inl rfl), fun x hx => h2 _ ⟨x, hx, rfl⟩, h3, h4⟩

theorem bstOrder_of_inorder {t u : Tree} (h : inorder t = inorder u) (hb : BSTOrder t) :
    BSTOrder u := by
  rw [bstOrder_iff_pairwise] at hb ⊢
  simpa [ids, h] using hb


/-! ## The imbalance search -/

theorem heightInv_subtreeAt {t : Tree} (h : HeightInv t) (p : Path) :
    HeightInv (subtreeAt t p) := by
  induction p generalizing t with
  | nil => simpa [subtreeAt] using h
  | cons d p ih =>
    cases t with
    | nil => simp [subtreeAt, HeightInv]
    | node l s c r =>
      cases d
      · exact ih h.2.1
      · exact ih h.2.2

theorem mem_inorder_of_subtreeAt {t : Tree} {p : Path} {l r : Tree} {s : Ship} {c : Int}
    (h : subtreeAt t p = node l s c r) : s ∈ inorder t := by
  induction p generalizing t with
  | nil =>
    simp only [subtreeAt] at h
    subst h
    simp [inorder]
  | cons d p ih =>
    cases t with
    | nil => simp [subtreeAt] at h
    | node l2 s2 c2 r2 =>
      cases d
      · have := ih (t := l2) h
        simp [inorder, this]
      · have := ih (t := r2) h
        simp [inorder, this]

theorem imbalance_some {t : Tree} {p : Path} (h : imbalance t = some p) :
    ∃ l s c r, subtreeAt t p = node l s c r ∧
      (cachedHeight l - cachedHeight r).natAbs > 1 := by
  induction t generalizing p with
  | nil => simp [imbalance] at h
  | node l s c r ihl ihr =>
    simp only [imbalance] at h
    split at h
    · cases h
      exact ⟨l, s, c, r, rfl, by assumption⟩
    · cases hl : imbalance l with
      | some q =>
        rw [hl] at h
        cases h
        exact ihl hl
      | none =>
        rw [hl] at h
        cases hr : imbalance r with
        | some q =>
          rw [hr] at h
          cases h
          exact ihr hr
        | none => rw [hr] at h; cases h

theorem imbalance_none_iff {t : Tree} (h : HeightInv t) : imbalance t = none ↔ Balanced t := by
  induction t with
  | nil => simp [imbalance, Balanced]
  | node l s c r ihl ihr =>
    obtain ⟨_, hl, hr⟩ := h
    simp only [imbalance, Balanced, cachedHeight_eq_height hl, cachedHeight_eq_height hr]
    rw [← ihl hl, ← ihr hr]
    by_cases hb : (height l - height r).natAbs > 1
    · simp [hb]
    · simp only [hb, if_false]
      cases hl2 : imbalance l <;> cases hr2 : imbalance r <;> simp
      omega


/-! ## One pass of the AVL loop -/

theorem rotateLeftHeavy_spec {l r : Tree} {s : Ship} {c : Int}
    (hl : HeightInv l) (hbf : height l - height r > 1) :
    ∃ sub, rotateLeftHeavy l s c r = some sub ∧
      inorder sub = inorder (node l s c r) ∧ Smaller sub (node l s c r) := by
  cases l with
  | nil => have := height_ge r; simp [height] at hbf; omega
  | node ll ls lh lr =>
    rw [height_eq_levels, height_eq_levels] at hbf
    cases lr with
    | nil =>
      refine ⟨_, rfl, by simp [inorder], ?_, Or.inl ?_⟩ <;>
        simp only [levels, hsum] at hbf ⊢ <;> omega
    | node lrl lrs lrh lrr =>
      have hc : lrh = height (node lrl lrs lrh lrr) := cachedHeight_eq_height hl.2.2
      have hc2 : cachedHeight ll = height ll := cachedHeight_eq_height hl.2.1
      rw [height_eq_levels] at hc hc2
      by_cases hgt : lrh > cachedHeight ll
      · refine ⟨node (node ll ls lh lrl) lrs lrh (node lrr s c r), ?_, by simp [inorder],
          ?_, Or.inl ?_⟩
        · simp [rotateLeftHeavy, hgt]
        all_goals
          rw [hc2, hc] at hgt
          simp only [levels, hsum] at hbf hgt ⊢
          omega
      · refine ⟨node ll ls lh (node (node lrl lrs lrh lrr) s c r), ?_, by simp [inorder], ?_⟩
        · simp [rotateLeftHeavy, hgt]
        · rw [hc2, hc] at hgt
          simp only [levels] at hbf hgt
          rcases Nat.lt_or_ge (1 + max (levels lrl) (levels lrr)) (levels ll) with h1 | h1
          · refine ⟨?_, Or.inl ?_⟩ <;> simp only [levels, hsum] <;> omega
          · have h2 : 1 + max (levels lrl) (levels lrr) = levels ll := by omega
            refine ⟨?_, Or.inr ⟨?_, ?_, ?_⟩⟩ <;> simp only [levels, hsum, excess] <;> omega

theorem rotateRightHeavy_spec {l r : Tree} {s : Ship} {c : Int}
    (hr : HeightInv r) (hbf : height l - height r < -1) :
    ∃ sub, rotateRightHeavy l s c r = some sub ∧
      inorder sub = inorder (node l s c r) ∧ Smaller sub (node l s c r) := by
  cases r with
  | nil => have := height_ge l; simp [height] at hbf; omega
  | node rl rs rh rr =>
    rw [height_eq_levels, height_eq_levels] at hbf
    cases rl with
    | nil =>
      refine ⟨_, rfl, by simp [inorder], ?_, Or.inl ?_⟩ <;>
        simp only [levels, hsum] at hbf ⊢ <;> omega
    | node rll rls rlh rlr =>
      have hc : rlh = height (node rll rls rlh rlr) := cachedHeight_eq_height hr.2.1
      have hc2 : cachedHeight rr = height rr := cachedHeight_eq_height hr.2.2
      rw [height_eq_levels] at hc hc2
      by_cases hgt : rlh > cachedHeight rr
      · refine ⟨node (node l s c rll) rls rlh (node rlr rs rh rr), ?_, by simp [inorder],
          ?_, Or.inl ?_⟩
        · simp [rotateRightHeavy, hgt]
        all_goals
          rw [hc2, hc] at hgt
          simp only [levels, hsum] at hbf hgt ⊢
          omega
      · refine ⟨node (node l s c (node rll rls rlh rlr)) rs rh rr, ?_, by simp [inorder], ?_⟩
        · simp [rotateRightHeavy, hgt]
        · rw [hc2, hc] at hgt
          simp only [levels] at hbf hgt
          rcases Nat.lt_or_ge (1 + max (levels rll) (levels rlr)) (levels rr) with h1 | h1
          · refine ⟨?_, Or.inl ?_⟩ <;> simp only [levels, hsum] <;> omega
          · have h2 : 1 + max (levels rll) (levels rlr) = levels rr := by omega
            refine ⟨?_, Or.inr ⟨?_, ?_, ?_⟩⟩ <;> simp only [levels, hsum, excess] <;> omega

theorem relinkAt_of_bstOrder {t : Tree} {p : Path} {l r : Tree} {s : Ship} {c : Int}
    (hb : BSTOrder t) (h : subtreeAt t p = node l s c r) (sub : Tree) :
    relinkAt s.m_id sub t p = some (replaceAt sub t p) := by
  induction p generalizing t with
  | nil => simp [relinkAt, replaceAt]
  | cons d p ih =>
    cases t with
    | nil => simp [subtreeAt] at h
    | node l2 s2 c2 r2 =>
      cases d
      · have hm := hb.1 s (mem_inorder_of_subtreeAt (t := l2) h)
        simp [relinkAt, replaceAt, hm, ih hb.2.2.1 h]
      · have hm := hb.2.1 s (mem_inorder_of_subtreeAt (t := r2) h)
        simp [relinkAt, replaceAt, not_lt.mpr (le_of_lt hm), ih hb.2.2.2 h]

theorem replaceAt_inorder {sub t : Tree} {p : Path} {l r : Tree} {s : Ship} {c : Int}
    (h : subtreeAt t p = node l s c r) (hs : inorder sub = inorder (node l s c r)) :
    inorder (replaceAt sub t p) = inorder t := by
  induction p generalizing t with
  | nil =>
    simp only [subtreeAt] at h
    subst h
    simpa [replaceAt] using hs
  | cons d p ih =>
    cases t with
    | nil => simp [subtreeAt] at h
    | node l2 s2 c2 r2 =>
      cases d
      · simp [replaceAt, inorder, ih (t := l2) h]
      · simp [replaceAt, inorder, ih (t := r2) h]

theorem replaceAt_smaller {sub t : Tree} {p : Path} {l r : Tree} {s : Ship} {c : Int}
    (h : subtreeAt t p = node l s c r) (hs : Smaller sub (node l s c r)) :
    Smaller (replaceAt sub t p) t := by
  induction p generalizing t with
  | nil =>
    simp only [subtreeAt] at h
    subst h
    simpa [replaceAt] using hs
  | cons d p ih =>
    cases t with
    | nil => simp [subtreeAt] at h
    | node l2 s2 c2 r2 =>
      cases d
      · obtain ⟨h1, h2 | ⟨h2, h3, h4⟩⟩ := ih (t := l2) h
        · refine ⟨?_, Or.inl ?_⟩ <;> simp only [replaceAt, levels, hsum] <;> omega
        · refine ⟨?_, Or.inr ⟨?_, ?_, ?_⟩⟩ <;>
            simp only [replaceAt, levels, hsum, excess, h2] <;> omega
      · obtain ⟨h1, h2 | ⟨h2, h3, h4⟩⟩ := ih (t := r2) h
        · refine ⟨?_, Or.inl ?_⟩ <;> simp only [replaceAt, levels, hsum] <;> omega
        · refine ⟨?_, Or.inr ⟨?_, ?_, ?_⟩⟩ <;>
            simp only [replaceAt, levels, hsum, excess, h2] <;> omega

/-- A pass of the loop at the node that `imbalance` returns succeeds on an ordered tree
with exact heights, keeps the in-order sequence and descends in the measure. -/
theorem rotationAVLPass_spec {t : Tree} {p : Path} (hb : BSTOrder t) (hh : HeightInv t)
    (hp : imbalance t = some p) :
    ∃ u, rotationAVLPass t p = some u ∧ inorder u = inorder t ∧ Smaller u t := by
  obtain ⟨l, s, c, r, hsub, hbf⟩ := imbalance_some hp
  have hn : HeightInv (node l s c r) := hsub ▸ heightInv_subtreeAt hh p
  obtain ⟨_, hl, hr⟩ := hn
  rw [cachedHeight_eq_height hl, cachedHeight_eq_height hr] at hbf
  simp only [rotationAVLPass, hsub, cachedHeight_eq_height hl, cachedHeight_eq_height hr]
  by_cases h1 : height l - height r > 1
  · obtain ⟨sub, e1, e2, e3⟩ := rotateLeftHeavy_spec (s := s) (c := c) hl h1
    simp only [h1, if_true, e1, relinkAt_of_bstOrder hb hsub sub]
    exact ⟨_, rfl, replaceAt_inorder hsub e2, replaceAt_smaller hsub e3⟩
  · have h2 : height l - height r < -1 := by omega
    obtain ⟨sub, e1, e2, e3⟩ := rotateRightHeavy_spec (s := s) (c := c) hr h2
    simp only [h1, if_false, h2, if_true, e1, relinkAt_of_bstOrder hb hsub sub]
    exact ⟨_, rfl, replaceAt_inorder hsub e2, replaceAt_smaller hsub e3⟩


/-! ## Termination and result of the AVL loop -/

theorem levels_of_shape {t u : Tree} (h : shape t = shape u) : levels t = levels u := by
  have := height_of_shape h
  rw [height_eq_levels, height_eq_levels] at this
  omega

theorem hsum_of_shape {t u : Tree} (h : shape t = shape u) : hsum t = hsum u := by
  induction t generalizing u with
  | nil => cases u <;> simp_all [shape]
  | node l s c r ihl ihr =>
    cases u with
    | nil => simp [shape] at h
    | node l2 s2 c2 r2 =>
      simp only [shape, Shape.node.injEq] at h
      simp [hsum, ihl h.1, ihr h.2.2, levels_of_shape h.1, levels_of_shape h.2.2]

theorem excess_of_shape {t u : Tree} (h : shape t = shape u) : excess t = excess u := by
  induction t generalizing u with
  | nil => cases u <;> simp_all [shape]
  | node l s c r ihl ihr =>
    cases u with
    | nil => simp [shape] at h
    | node l2 s2 c2 r2 =>
      simp only [shape, Shape.node.injEq] at h
      simp [excess, ihl h.1, ihr h.2.2, levels_of_shape h.1, levels_of_shape h.2.2]

theorem rotationAVL_of_none {fuel : Nat} {t : Tree} (h : imbalance t = none) :
    rotationAVL fuel t = some t := by
  rw [rotationAVL]
  simp only [h]

theorem rotationAVL_zero {t : Tree} {p : Path} (h : imbalance t = some p) :
    rotationAVL 0 t = none := by
  rw [rotationAVL]
  simp only [h]

theorem rotationAVL_succ_none {fuel : Nat} {t : Tree} {p : Path} (h : imbalance t = some p)
    (hp : rotationAVLPass t p = none) : rotationAVL (fuel + 1) t = none := by
  rw [rotationAVL]
  simp only [h, hp]

theorem rotationAVL_succ_some {fuel : Nat} {t v : Tree} {p : Path}
    (h : imbalance t = some p) (hp : rotationAVLPass t p = some v) :
    rotationAVL (fuel + 1) t =
      if (imbalance (updateHeights v)).isSome then rotationAVL fuel (updateHeights v)
      else some (updateHeights v) := by
  rw [rotationAVL]
  simp only [h, hp]

theorem rotationAVL_fuel_mono {n : Nat} {t u : Tree} (h : rotationAVL n t = some u) :
    ∀ m, n ≤ m → rotationAVL m t = some u := by
  induction n generalizing t with
  | zero =>
    intro m _
    cases hi : imbalance t with
    | none =>
      rw [rotationAVL_of_none hi] at h ⊢
      exact h
    | some p => rw [rotationAVL_zero hi] at h; cases h
  | succ n ih =>
    intro m hm
    obtain ⟨k, rfl⟩ : ∃ k, m = k + 1 := ⟨m - 1, by omega⟩
    cases hi : imbalance t with
    | none =>
      rw [rotationAVL_of_none hi] at h ⊢
      exact h
    | some p =>
      cases hp : rotationAVLPass t p with
      | none => rw [rotationAVL_succ_none hi hp] at h; cases h
      | some v =>
        rw [rotationAVL_succ_some hi hp] at h ⊢
        split at h
        · rename_i hs
          simp only [hs, if_true]
          exact ih h k (by omega)
        · rename_i hs
          simpa [hs] using h

theorem rotationAVL_measure (a b : Nat) :
    ∀ t, hsum t = a → excess t = b → BSTOrder t → HeightInv t →
      ∃ n u, rotationAVL n t = some u ∧ inorder u = inorder t ∧ HeightInv u ∧
        imbalance u = none := by
  induction a using Nat.strong_induction_on generalizing b with
  | _ a iha =>
    induction b using Nat.strong_induction_on with
    | _ b ihb =>
      intro t ha hb hbst hh
      cases hi : imbalance t with
      | none => exact ⟨0, t, rotationAVL_of_none hi, rfl, hh, hi⟩
      | some p =>
        obtain ⟨v, hv, hio, hsm⟩ := rotationAVLPass_spec hbst hh hi
        have hsh := shape_updateHeights v
        have hio1 : inorder (updateHeights v) = inorder t := by
          rw [inorder_updateHeights, hio]
        have hh1 := heightInv_updateHeights v
        have hb1 : BSTOrder (updateHeights v) := bstOrder_of_inorder hio1.symm hbst
        cases hi1 : imbalance (updateHeights v) with
        | none =>
          refine ⟨1, updateHeights v, ?_, hio1, hh1, hi1⟩
          rw [rotationAVL_succ_some hi hv]
          simp [hi1]
        | some q =>
          have key : ∃ n u, rotationAVL n (updateHeights v) = some u ∧
              inorder u = inorder (updateHeights v) ∧ HeightInv u ∧ imbalance u = none := by
            obtain ⟨_, h2 | ⟨_, h3, h4⟩⟩ := hsm
            · exact iha (hsum (updateHeights v)) (by rw [hsum_of_shape hsh]; omega) _ _ rfl rfl
                hb1 hh1
            · have e1 : hsum (updateHeights v) = a := by rw [hsum_of_shape hsh]; omega
              subst e1
              exact ihb (excess (updateHeights v)) (by rw [excess_of_shape hsh]; omega) _ rfl rfl
                hb1 hh1
          obtain ⟨n, u, h1, h2, h3, h4⟩ := key
          refine ⟨n + 1, u, ?_, h2.trans hio1, h3, h4⟩
          rw [rotationAVL_succ_some hi hv]
          simp [hi1, h1]

/-- On an ordered tree with exact heights the loop of `rotationAVL` ends: with enough fuel
it returns a tree with the same in-order sequence, exact heights and no imbalanced node. -/
theorem rotationAVL_spec {t : Tree} (hb : BSTOrder t) (hh : HeightInv t) :
    ∃ n u, (∀ fuel, n ≤ fuel → rotationAVL fuel t = some u) ∧ inorder u = inorder t ∧
      BSTOrder u ∧ HeightInv u ∧ Balanced u := by
  obtain ⟨n, u, h1, h2, h3, h4⟩ := rotationAVL_measure _ _ t rfl rfl hb hh
  exact ⟨n, u, rotationAVL_fuel_mono h1, h2, bstOrder_of_inorder h2.symm hb, h3,
    (imbalance_none_iff h3).mp h4⟩


/-! ## The descent of `insert` -/

theorem insertWalk_none {ship : Ship} {t : Tree} (h : insertWalk ship t = none) :
    ship.m_id ∈ ids t := by
  induction t with
  | nil => simp [insertWalk] at h
  | node l s c r ihl ihr =>
    simp only [insertWalk] at h
    simp only [ids, inorder, List.map_append, List.map_cons, List.mem_append, List.mem_cons]
    split at h
    · rename_i he
      exact Or.inr (Or.inl he.symm)
    · split at h
      · simp only [Option.map_eq_none'] at h
        exact Or.inl (ihl h)
      · simp only [Option.map_eq_none'] at h
        exact Or.inr (Or.inr (ihr h))

theorem insertWalk_of_mem {ship : Ship} {t : Tree} (hb : BSTOrder t) (h : ship.m_id ∈ ids t) :
    insertWalk ship t = none := by
  induction t with
  | nil => simp [ids, inorder] at h
  | node l s c r ihl ihr =>
    obtain ⟨h1, h2, hl, hr⟩ := hb
    simp only [ids, inorder, List.map_append, List.map_cons, List.mem_append, List.mem_cons,
      List.mem_map] at h
    simp only [insertWalk]
    rcases h with ⟨x, hx, hxe⟩ | he | ⟨x, hx, hxe⟩
    · have hlt := h1 x hx
      have hne : ¬ s.m_id = ship.m_id := by omega
      have hgt : s.m_id > ship.m_id := by omega
      simp only [hne, hgt, if_true, if_false, Option.map_eq_none']
      exact ihl hl (List.mem_map.mpr ⟨x, hx, hxe⟩)
    · simp [he]
    · have hlt := h2 x hx
      have hne : ¬ s.m_id = ship.m_id := by omega
      have hgt : ¬ s.m_id > ship.m_id := by omega
      simp only [hne, hgt, if_false, Option.map_eq_none']
      exact ihr hr (List.mem_map.mpr ⟨x, hx, hxe⟩)

/-- What the descent of `insert` builds: the new leaf sits at the returned pointer, the
descent by identifier leads to it, and the entries are the old ones and the new one. -/
theorem insertWalk_some {ship : Ship} {t u : Tree} {p : Path}
    (h : insertWalk ship t = some (u, p)) :
    subtreeAt u p = node nil ship DEFAULT_HEIGHT nil ∧ Follows ship.m_id u p ∧
      (∀ x, x ∈ inorder u ↔ x = ship ∨ x ∈ inorder t) ∧ (BSTOrder t → BSTOrder u) := by
  induction t generalizing u p with
  | nil =>
    simp only [insertWalk, Option.some.injEq, Prod.mk.injEq] at h
    obtain ⟨rfl, rfl⟩ := h
    simp [subtreeAt, Follows, inorder, BSTOrder]
  | node l s c r ihl ihr =>
    simp only [insertWalk] at h
    split at h
    · cases h
    · rename_i hne
      split at h
      · rename_i hgt
        cases hq : insertWalk ship l with
        | none => simp [hq] at h
        | some q =>
          obtain ⟨v, q2⟩ := q
          simp only [hq, Option.map_some', Option.some.injEq, Prod.mk.injEq] at h
          obtain ⟨rfl, rfl⟩ := h
          obtain ⟨h1, h2, h3, h4⟩ := ihl hq
          refine ⟨h1, ⟨by omega, h2⟩, ?_, ?_⟩
          · intro x
            simp only [inorder, List.mem_append, List.mem_cons, h3]
            tauto
          · rintro ⟨b1, b2, b3, b4⟩
            refine ⟨?_, b2, h4 b3, b4⟩
            intro x hx
            rcases (h3 x).mp hx with rfl | hx
            · omega
            · exact b1 x hx
      · rename_i hgt
        cases hq : insertWalk ship r with
        | none => simp [hq] at h
        | some q =>
          obtain ⟨v, q2⟩ := q
          simp only [hq, Option.map_some', Option.some.injEq, Prod.mk.injEq] at h
          obtain ⟨rfl, rfl⟩ := h
          obtain ⟨h1, h2, h3, h4⟩ := ihr hq
          refine ⟨h1, ⟨by omega, h2⟩, ?_, ?_⟩
          · intro x
            simp only [inorder, List.mem_append, List.mem_cons, h3]
            tauto
          · rintro ⟨b1, b2, b3, b4⟩
            refine ⟨b1, ?_, b3, h4 b4⟩
            intro x hx
            rcases (h3 x).mp hx with rfl | hx
            · omega
            · exact b2 x hx


/-! ## The splay loop -/

theorem zig_spec {nid : Int} {t a b : Tree} {d : Dir} {x : Ship} {hx : Int}
    (hf : Follows nid t [d]) (hs : subtreeAt t [d] = node a x hx b) :
    ∃ a1 b1, zig nid t d = some (node a1 x hx b1) ∧
      inorder (node a1 x hx b1) = inorder t := by
  cases t with
  | nil => simp [Follows] at hf
  | node l s c r =>
    cases d
    · simp only [subtreeAt] at hs
      subst hs
      simp only [Follows] at hf
      simp only [zig, hf.1, if_true, if_false]
      exact ⟨_, _, rfl, by simp [inorder]⟩
    · simp only [subtreeAt] at hs
      subst hs
      simp only [Follows] at hf
      simp only [zig, hf.1, if_true, if_false]
      exact ⟨_, _, rfl, by simp [inorder]⟩

theorem zigzig_spec {nid : Int} {t a b : Tree} {d1 d2 : Dir} {x : Ship} {hx : Int}
    (hf : Follows nid t [d1, d2]) (hs : subtreeAt t [d1, d2] = node a x hx b) :
    ∃ a1 b1, zigzig nid t d1 d2 = some (node a1 x hx b1) ∧
      inorder (node a1 x hx b1) = inorder t := by
  cases t with
  | nil => simp [Follows] at hf
  | node l s c r =>
    cases d1
    · cases l with
      | nil => simp [Follows] at hf
      | node pl ps pc pr =>
        cases d2
        · simp only [subtreeAt] at hs
          subst hs
          simp only [Follows] at hf
          simp only [zigzig, hf.1, hf.2.1, and_self, not_false_eq_true, not_true_eq_false, and_true, true_and, if_true, if_false]
          exact ⟨_, _, rfl, by simp [inorder]⟩
        · simp only [subtreeAt] at hs
          subst hs
          simp only [Follows] at hf
          simp only [zigzig, hf.1, hf.2.1, and_self, not_false_eq_true, not_true_eq_false, and_true, true_and, if_true, if_false]
          exact ⟨_, _, rfl, by simp [inorder]⟩
    · cases r with
      | nil => simp [Follows] at hf
      | node pl ps pc pr =>
        cases d2
        · simp only [subtreeAt] at hs
          subst hs
          simp only [Follows] at hf
          simp only [zigzig, hf.1, hf.2.1, and_self, not_false_eq_true, not_true_eq_false, and_true, true_and, if_true, if_false]
          exact ⟨_, _, rfl, by simp [inorder]⟩
        · simp only [subtreeAt] at hs
          subst hs
          simp only [Follows] at hf
          simp only [zigzig, hf.1, hf.2.1, and_self, not_false_eq_true, not_true_eq_false, and_true, true_and, if_true, if_false]
          exact ⟨_, _, rfl, by simp [inorder]⟩

theorem splayDouble_spec {nid : Int} {a b : Tree} {x : Ship} {hx : Int} (p : Path) :
    ∀ (t : Tree) (d1 d2 : Dir), Follows nid t (d1 :: d2 :: p) →
      subtreeAt t (d1 :: d2 :: p) = node a x hx b →
      ∃ u a1 b1, splayDouble nid t (d1 :: d2 :: p) = some u ∧ inorder u = inorder t ∧
        Follows nid u (d1 :: d2 :: p).dropLast.dropLast ∧
        subtreeAt u (d1 :: d2 :: p).dropLast.dropLast = node a1 x hx b1 := by
  induction p with
  | nil =>
    intro t d1 d2 hf hs
    obtain ⟨a1, b1, h1, h2⟩ := zigzig_spec hf hs
    exact ⟨_, a1, b1, by simpa [splayDouble] using h1, h2, by simp [Follows],
      by simp [subtreeAt]⟩
  | cons d3 p ih =>
    intro t d1 d2 hf hs
    cases t with
    | nil => simp [Follows] at hf
    | node l s c r =>
      cases d1
      · simp only [Follows] at hf
        simp only [subtreeAt] at hs
        obtain ⟨u, a1, b1, h1, h2, h3, h4⟩ := ih l d2 d3 hf.2 hs
        refine ⟨node u s c r, a1, b1, by simp [splayDouble, hf.1, h1], by simp [inorder, h2],
          ?_, ?_⟩
        · simp only [List.dropLast_cons₂] at h3 ⊢
          exact ⟨hf.1, h3⟩
        · simp only [List.dropLast_cons₂] at h4 ⊢
          exact h4
      · simp only [Follows] at hf
        simp only [subtreeAt] at hs
        obtain ⟨u, a1, b1, h1, h2, h3, h4⟩ := ih r d2 d3 hf.2 hs
        refine ⟨node l s c u, a1, b1, by simp [splayDouble, hf.1, h1], by simp [inorder, h2],
          ?_, ?_⟩
        · simp only [List.dropLast_cons₂] at h3 ⊢
          exact ⟨hf.1, h3⟩
        · simp only [List.dropLast_cons₂] at h4 ⊢
          exact h4

theorem splayLoop_spec {nid : Int} {x : Ship} {hx : Int} (fuel : Nat) :
    ∀ (t : Tree) (p : Path) (a b : Tree), p.length ≤ fuel → Follows nid t p →
      subtreeAt t p = node a x hx b →
      ∃ a1 b1, splayLoop nid fuel t p = some (node a1 x hx b1) ∧
        inorder (node a1 x hx b1) = inorder t := by
  induction fuel using Nat.strong_induction_on with
  | _ fuel ih =>
    intro t p a b hlen hf hs
    match p, fuel, hlen with
    | [], fuel, _ =>
      simp only [subtreeAt] at hs
      subst hs
      exact ⟨a, b, by cases fuel <;> simp [splayLoop], rfl⟩
    | [d], fuel + 1, _ =>
      obtain ⟨a1, b1, h1, h2⟩ := zig_spec hf hs
      exact ⟨a1, b1, by simpa [splayLoop] using h1, h2⟩
    | d1 :: d2 :: q, fuel + 1, hlen =>
      obtain ⟨u, a1, b1, h1, h2, h3, h4⟩ := splayDouble_spec q t d1 d2 hf hs
      have hl : (d1 :: d2 :: q).dropLast.dropLast.length ≤ fuel := by
        simp only [List.length_dropLast, List.length_cons] at hlen ⊢
        omega
      obtain ⟨a2, b2, h5, h6⟩ := ih fuel (by omega) u _ a1 b1 hl h3 h4
      exact ⟨a2, b2, by simp only [splayLoop, h1, h5], h6.trans h2⟩

/-- The splay of the node at `p`, reached by the descent by identifier, ends with that
node at the root and keeps the in-order sequence; the heights are then exact. -/
theorem rotationSPLAY_spec {nid : Int} {t a b : Tree} {x : Ship} {hx : Int} {p : Path}
    (hh : HeightInv t) (hf : Follows nid t p) (hs : subtreeAt t p = node a x hx b) :
    ∃ a1 c1 b1, rotationSPLAY nid t p = some (node a1 x c1 b1) ∧
      inorder (node a1 x c1 b1) = inorder t ∧ HeightInv (node a1 x c1 b1) := by
  cases p with
  | nil =>
    simp only [subtreeAt] at hs
    subst hs
    exact ⟨a, hx, b, rfl, rfl, hh⟩
  | cons d q =>
    obtain ⟨a1, b1, h1, h2⟩ := splayLoop_spec (d :: q).length t (d :: q) a b le_rfl hf hs
    have e : rotationSPLAY nid t (d :: q) = some (updateHeights (node a1 x hx b1)) := by
      simp only [rotationSPLAY, h1, Option.map_some']
    have e2 := heightInv_updateHeights (node a1 x hx b1)
    have e3 := inorder_updateHeights (node a1 x hx b1)
    simp only [updateHeights] at e e2 e3
    exact ⟨_, _, _, e, e3.trans h2, e2⟩


/-! ## Removal -/

theorem detachMax_inorder (l : Tree) (s : Ship) (c : Int) (r : Tree) :
    inorder (node l s c r) =
      inorder (detachMax l s c r).1 ++ [(detachMax l s c r).2.1] := by
  induction r generalizing l s c with
  | nil => simp [detachMax, inorder]
  | node rl rs rc rr _ ih2 =>
    have := ih2 rl rs rc
    simp only [inorder] at this
    simp [detachMax, inorder, this]

theorem detachMin_inorder (l : Tree) (s : Ship) (c : Int) (r : Tree) :
    inorder (node l s c r) = (detachMin s c r l).2.1 :: inorder (detachMin s c r l).1 := by
  induction l generalizing s c r with
  | nil => simp [detachMin, inorder]
  | node ll ls lc lr ih1 _ =>
    have := ih1 ls lc lr
    simp only [inorder] at this
    simp [detachMin, inorder, this]

theorem removeNode_inorder (l : Tree) (s : Ship) (c : Int) (r : Tree) :
    inorder (removeNode (node l s c r)) = inorder l ++ inorder r := by
  cases l with
  | nil =>
    cases r with
    | nil => simp [removeNode, inorder]
    | node rl rs rc rr => simp [removeNode, inorder]
  | node ll ls lc lr =>
    cases r with
    | nil => simp [removeNode, inorder]
    | node rl rs rc rr =>
      simp only [removeNode]
      split
      · have := detachMax_inorder ll ls lc lr
        simp only [inorder] at this ⊢
        simp [this]
      · have := detachMin_inorder rl rs rc rr
        simp only [inorder] at this ⊢
        simp [this]

theorem filter_ne_of_lt {l : List Ship} {id : Int} (h : ∀ x ∈ l, x.m_id < id) :
    l.filter (fun x => decide (x.m_id ≠ id)) = l := by
  rw [List.filter_eq_self]
  intro x hx
  have := h x hx
  simp only [ne_eq, decide_not, Bool.not_eq_true', decide_eq_false_iff_not]
  omega

theorem filter_ne_of_gt {l : List Ship} {id : Int} (h : ∀ x ∈ l, id < x.m_id) :
    l.filter (fun x => decide (x.m_id ≠ id)) = l := by
  rw [List.filter_eq_self]
  intro x hx
  have := h x hx
  simp only [ne_eq, decide_not, Bool.not_eq_true', decide_eq_false_iff_not]
  omega

/-- The search of `remove` finds a stored identifier in an ordered tree, and the unlinking
erases exactly the entry that carries it from the in-order sequence. -/
theorem removeWalk_of_mem {id : Int} {t : Tree} (hb : BSTOrder t) (h : id ∈ ids t) :
    ∃ u, removeWalk id t = some u ∧
      inorder u = (inorder t).filter (fun x => decide (x.m_id ≠ id)) := by
  induction t with
  | nil => simp [ids, inorder] at h
  | node l s c r ihl ihr =>
    obtain ⟨h1, h2, hl, hr⟩ := hb
    simp only [ids, inorder, List.map_append, List.map_cons, List.mem_append, List.mem_cons,
      List.mem_map] at h
    simp only [removeWalk, inorder, List.filter_append, List.filter_cons]
    by_cases he : s.m_id = id
    · subst he
      simp only [if_true]
      refine ⟨_, rfl, ?_⟩
      rw [removeNode_inorder, filter_ne_of_lt h1, filter_ne_of_gt h2]
      simp
    · have hne : decide (s.m_id ≠ id) = true := by simpa using he
      simp only [he, if_false, hne, if_true]
      rcases h with ⟨x, hx, hxe⟩ | he2 | ⟨x, hx, hxe⟩
      · have hlt := h1 x hx
        have hgt : s.m_id > id := by omega
        obtain ⟨u, hu, hio⟩ := ihl hl (List.mem_map.mpr ⟨x, hx, hxe⟩)
        refine ⟨node u s c r, by simp [hgt, hu], ?_⟩
        rw [filter_ne_of_gt (l := inorder r) (fun y hy => by have := h2 y hy; omega)]
        simp [inorder, hio]
      · exact absurd he2.symm he
      · have hlt := h2 x hx
        have hgt : ¬ s.m_id > id := by omega
        obtain ⟨u, hu, hio⟩ := ihr hr (List.mem_map.mpr ⟨x, hx, hxe⟩)
        refine ⟨node l s c u, by simp [hgt, hu], ?_⟩
        rw [filter_ne_of_lt (l := inorder l) (fun y hy => by have := h1 y hy; omega)]
        simp [inorder, hio]

theorem removeWalk_sublist {id : Int} {t u : Tree} (h : removeWalk id t = some u) :
    (inorder u).Sublist (inorder t) := by
  induction t generalizing u with
  | nil => simp [removeWalk] at h
  | node l s c r ihl ihr =>
    simp only [removeWalk] at h
    split at h
    · simp only [Option.some.injEq] at h
      subst h
      rw [removeNode_inorder]
      simp only [inorder]
      exact List.Sublist.append_left (List.sublist_cons_self s (inorder r)) (inorder l)
    · split at h
      · cases hq : removeWalk id l with
        | none => simp [hq] at h
        | some v =>
          simp only [hq, Option.map_some', Option.some.injEq] at h
          subst h
          simp only [inorder]
          exact List.Sublist.append (ihl hq) (List.Sublist.refl _)
      · cases hq : removeWalk id r with
        | none => simp [hq] at h
        | some v =>
          simp only [hq, Option.map_some', Option.some.injEq] at h
          subst h
          simp only [inorder]
          exact List.Sublist.append (List.Sublist.refl _) ((ihr hq).cons₂ s)

theorem bstOrder_of_sublist {t u : Tree} (h : (inorder u).Sublist (inorder t))
    (hb : BSTOrder t) : BSTOrder u := by
  rw [bstOrder_iff_pairwise] at hb ⊢
  exact hb.sublist (h.map _)


/-! ## The public operations keep the invariants -/

theorem subtreeAt_updateHeights (t : Tree) (p : Path) :
    subtreeAt (updateHeights t) p = updateHeights (subtreeAt t p) := by
  induction p generalizing t with
  | nil => simp [subtreeAt]
  | cons d p ih =>
    cases t with
    | nil => simp [subtreeAt, updateHeights]
    | node l s c r => cases d <;> simp [subtreeAt, updateHeights, ih]

theorem follows_updateHeights {nid : Int} {t : Tree} {p : Path} (h : Follows nid t p) :
    Follows nid (updateHeights t) p := by
  induction p generalizing t with
  | nil => simp [Follows]
  | cons d p ih =>
    cases t with
    | nil => simp [Follows] at h
    | node l s c r =>
      cases d
      · exact ⟨h.1, ih h.2⟩
      · exact ⟨h.1, ih h.2⟩

theorem insert_of_guard {MINID MAXID : Int} {fuel : Nat} {f : Fleet} {ship : Ship}
    (hg : f.m_type = NONE ∨ ship.m_id < MINID ∨ ship.m_id > MAXID) :
    Fleet.insert MINID MAXID fuel f ship = some f := by
  rw [Fleet.insert, if_pos hg]

theorem insert_of_walk_none {MINID MAXID : Int} {fuel : Nat} {f : Fleet} {ship : Ship}
    (hw : insertWalk ship f.m_root = none) :
    Fleet.insert MINID MAXID fuel f ship = some f := by
  rw [Fleet.insert]
  split
  · rfl
  · simp only [hw]

theorem insert_of_walk_some {MINID MAXID : Int} {fuel : Nat} {f : Fleet} {ship : Ship}
    {t : Tree} {p : Path}
    (hg : ¬ (f.m_type = NONE ∨ ship.m_id < MINID ∨ ship.m_id > MAXID))
    (hw : insertWalk ship f.m_root = some (t, p)) :
    Fleet.insert MINID MAXID fuel f ship =
      match f.m_type with
      | AVL => (rotationAVL fuel (updateHeights t)).map (fun t2 => { f with m_root := t2 })
      | SPLAY =>
        (rotationSPLAY ship.m_id (updateHeights t) p).map (fun t2 => { f with m_root := t2 })
      | _ => some { f with m_root := updateHeights t } := by
  rw [Fleet.insert, if_neg hg]
  simp only [hw]

/-- After the descent of `insert` and `updateHeights`, the splay brings the new entry to
the root. -/
theorem splay_after_insertWalk {ship : Ship} {t0 t : Tree} {p : Path}
    (hw : insertWalk ship t0 = some (t, p)) :
    ∃ a c b, rotationSPLAY ship.m_id (updateHeights t) p = some (node a ship c b) ∧
      inorder (node a ship c b) = inorder t ∧ HeightInv (node a ship c b) := by
  obtain ⟨h1, h2, _, _⟩ := insertWalk_some hw
  have hsub : subtreeAt (updateHeights t) p = node nil ship (0 : Int) nil := by
    rw [subtreeAt_updateHeights, h1]
    simp [updateHeights, cachedHeight]
  obtain ⟨a, c, b, e1, e2, e3⟩ :=
    rotationSPLAY_spec (heightInv_updateHeights t) (follows_updateHeights h2) hsub
  exact ⟨a, c, b, e1, e2.trans (inorder_updateHeights t), e3⟩

/-- With enough fuel `insert` returns, keeps the type, the order and the exact heights,
and under AVL leaves a balanced tree. -/
theorem insert_spec (MINID MAXID : Int) (f : Fleet) (ship : Ship)
    (hb : BSTOrder f.m_root) (hh : HeightInv f.m_root) :
    ∃ n g, (∀ fuel, n ≤ fuel → Fleet.insert MINID MAXID fuel f ship = some g) ∧
      g.m_type = f.m_type ∧ BSTOrder g.m_root ∧ HeightInv g.m_root ∧
      (f.m_type = AVL → Balanced f.m_root → Balanced g.m_root) := by
  by_cases hg : f.m_type = NONE ∨ ship.m_id < MINID ∨ ship.m_id > MAXID
  · exact ⟨0, f, fun _ _ => insert_of_guard hg, rfl, hb, hh, fun _ h => h⟩
  · cases hw : insertWalk ship f.m_root with
    | none => exact ⟨0, f, fun _ _ => insert_of_walk_none hw, rfl, hb, hh, fun _ h => h⟩
    | some q =>
      obtain ⟨t, p⟩ := q
      obtain ⟨h1, h2, h3, h4⟩ := insertWalk_some hw
      have hb1 : BSTOrder (updateHeights t) :=
        (bstOrder_of_shape (shape_updateHeights t)).mpr (h4 hb)
      have hh1 := heightInv_updateHeights t
      cases hty : f.m_type with
      | NONE => exact absurd (Or.inl hty) hg
      | BST =>
        refine ⟨0, { f with m_root := updateHeights t }, fun fuel _ => ?_, by simp [hty], hb1,
          hh1, fun h => by simp [hty] at h⟩
        rw [insert_of_walk_some hg hw]
        simp only [hty]
      | AVL =>
        obtain ⟨n, u, hu, hio, hbu, hhu, hbal⟩ := rotationAVL_spec hb1 hh1
        refine ⟨n, { f with m_root := u }, fun fuel hf => ?_, by simp [hty], hbu, hhu,
          fun _ _ => hbal⟩
        rw [insert_of_walk_some hg hw]
        simp only [hty, hu fuel hf, Option.map_some']
      | SPLAY =>
        obtain ⟨a, c, b, e1, e2, e3⟩ := splay_after_insertWalk hw
        refine ⟨0, { f with m_root := node a ship c b }, fun fuel _ => ?_, by simp [hty],
          bstOrder_of_inorder e2.symm (h4 hb), e3, fun h => by simp [hty] at h⟩
        rw [insert_of_walk_some hg hw]
        simp only [hty, e1, Option.map_some']

theorem remove_of_guard {MINID MAXID : Int} {fuel : Nat} {f : Fleet} {id : Int}
    (hg : ¬ (f.m_root ≠ nil ∧ f.m_type ≠ NONE ∧ f.m_type ≠ SPLAY) ∨ id < MINID ∨ id > MAXID) :
    Fleet.remove MINID MAXID fuel f id = some f := by
  rw [Fleet.remove]
  split
  · rename_i h1
    rcases hg with hg | hg
    · exact absurd h1 hg
    · rw [if_pos hg]
  · rfl

theorem remove_of_walk_none {MINID MAXID : Int} {fuel : Nat} {f : Fleet} {id : Int}
    (hw : removeWalk id f.m_root = none) :
    Fleet.remove MINID MAXID fuel f id = some f := by
  rw [Fleet.remove]
  split
  · split
    · rfl
    · simp only [hw]
  · rfl

theorem remove_of_walk_some {MINID MAXID : Int} {fuel : Nat} {f : Fleet} {id : Int} {t : Tree}
    (hg : f.m_root ≠ nil ∧ f.m_type ≠ NONE ∧ f.m_type ≠ SPLAY)
    (hr : ¬ (id < MINID ∨ id > MAXID)) (hw : removeWalk id f.m_root = some t) :
    Fleet.remove MINID MAXID fuel f id =
      if f.m_type = AVL then
        (rotationAVL fuel (updateHeights t)).map (fun t2 => { f with m_root := t2 })
      else some { f with m_root := updateHeights t } := by
  rw [Fleet.remove, if_pos hg, if_neg hr]
  simp only [hw]

/-- With enough fuel `remove` returns, keeps the type, the order and the exact heights,
and under AVL leaves a balanced tree. -/
theorem remove_spec (MINID MAXID : Int) (f : Fleet) (id : Int)
    (hb : BSTOrder f.m_root) (hh : HeightInv f.m_root) :
    ∃ n g, (∀ fuel, n ≤ fuel → Fleet.remove MINID MAXID fuel f id = some g) ∧
      g.m_type = f.m_type ∧ BSTOrder g.m_root ∧ HeightInv g.m_root ∧
      (f.m_type = AVL → Balanced f.m_root → Balanced g.m_root) := by
  by_cases hg : f.m_root ≠ nil ∧ f.m_type ≠ NONE ∧ f.m_type ≠ SPLAY
  · by_cases hr : id < MINID ∨ id > MAXID
    · exact ⟨0, f, fun _ _ => remove_of_guard (Or.inr hr), rfl, hb, hh, fun _ h => h⟩
    · cases hw : removeWalk id f.m_root with
      | none => exact ⟨0, f, fun _ _ => remove_of_walk_none hw, rfl, hb, hh, fun _ h => h⟩
      | some t =>
        have hb1 : BSTOrder (updateHeights t) :=
          (bstOrder_of_shape (shape_updateHeights t)).mpr
            (bstOrder_of_sublist (removeWalk_sublist hw) hb)
        have hh1 := heightInv_updateHeights t
        by_cases hty : f.m_type = AVL
        · obtain ⟨n, u, hu, hio, hbu, hhu, hbal⟩ := rotationAVL_spec hb1 hh1
          refine ⟨n, { f with m_root := u }, fun fuel hf => ?_, rfl, hbu, hhu,
            fun _ _ => hbal⟩
          rw [remove_of_walk_some hg hr hw, if_pos hty, hu fuel hf, Option.map_some']
        · refine ⟨0, { f with m_root := updateHeights t }, fun fuel _ => ?_, rfl, hb1, hh1,
            fun h => absurd h hty⟩
          rw [remove_of_walk_some hg hr hw, if_neg hty]
  · exact ⟨0, f, fun _ _ => remove_of_guard (Or.inl hg), rfl, hb, hh, fun _ h => h⟩


theorem insert_fuel_mono {MINID MAXID : Int} {n : Nat} {f g : Fleet} {ship : Ship}
    (h : Fleet.insert MINID MAXID n f ship = some g) :
    ∀ m, n ≤ m → Fleet.insert MINID MAXID m f ship = some g := by
  intro m hm
  by_cases hg : f.m_type = NONE ∨ ship.m_id < MINID ∨ ship.m_id > MAXID
  · rw [insert_of_guard hg] at h ⊢
    exact h
  · cases hw : insertWalk ship f.m_root with
    | none =>
      rw [insert_of_walk_none hw] at h ⊢
      exact h
    | some q =>
      obtain ⟨t, p⟩ := q
      rw [insert_of_walk_some hg hw] at h ⊢
      cases hty : f.m_type with
      | AVL =>
        simp only [hty] at h ⊢
        cases hr : rotationAVL n (updateHeights t) with
        | none => simp [hr] at h
        | some u =>
          rw [rotationAVL_fuel_mono hr m hm]
          simpa [hr] using h
      | BST => simpa [hty] using h
      | SPLAY => simpa [hty] using h
      | NONE => simpa [hty] using h

theorem remove_fuel_mono {MINID MAXID : Int} {n : Nat} {f g : Fleet} {id : Int}
    (h : Fleet.remove MINID MAXID n f id = some g) :
    ∀ m, n ≤ m → Fleet.remove MINID MAXID m f id = some g := by
  intro m hm
  by_cases hg : f.m_root ≠ nil ∧ f.m_type ≠ NONE ∧ f.m_type ≠ SPLAY
  · by_cases hr : id < MINID ∨ id > MAXID
    · rw [remove_of_guard (Or.inr hr)] at h ⊢
      exact h
    · cases hw : removeWalk id f.m_root with
      | none =>
        rw [remove_of_walk_none hw] at h ⊢
        exact h
      | some t =>
        rw [remove_of_walk_some hg hr hw] at h ⊢
        by_cases hty : f.m_type = AVL
        · rw [if_pos hty] at h ⊢
          cases hr : rotationAVL n (updateHeights t) with
          | none => simp [hr] at h
          | some u =>
            rw [rotationAVL_fuel_mono hr m hm]
            simpa [hr] using h
        · rw [if_neg hty] at h ⊢
          exact h
  · rw [remove_of_guard (Or.inl hg)] at h ⊢
    exact h

theorem setType_fuel_mono {n : Nat} {f g : Fleet} {type : TREETYPE}
    (h : Fleet.setType n f type = some g) :
    ∀ m, n ≤ m → Fleet.setType m f type = some g := by
  intro m hm
  cases type with
  | AVL =>
    simp only [Fleet.setType, reduceCtorEq, if_false, if_true] at h ⊢
    cases hr : rotationAVL n f.m_root with
    | none => simp [hr] at h
    | some u =>
      rw [rotationAVL_fuel_mono hr m hm]
      simpa [hr] using h
  | NONE => simpa [Fleet.setType] using h
  | BST => simpa [Fleet.setType] using h
  | SPLAY => simpa [Fleet.setType] using h

/-- With enough fuel `setType` returns; the result has the requested type, is ordered and
has exact heights, and after `setType(AVL)` it is balanced with the same in-order
sequence. -/
theorem setType_spec (f : Fleet) (type : TREETYPE)
    (hb : BSTOrder f.m_root) (hh : HeightInv f.m_root) :
    ∃ n g, (∀ fuel, n ≤ fuel → Fleet.setType fuel f type = some g) ∧
      g.m_type = type ∧ BSTOrder g.m_root ∧ HeightInv g.m_root ∧
      (type = AVL → Balanced g.m_root ∧ inorder g.m_root = inorder f.m_root) := by
  cases type with
  | NONE =>
    exact ⟨0, ⟨nil, NONE⟩, fun _ _ => by simp [Fleet.setType, Fleet.clear], rfl, trivial, trivial,
      fun h => by cases h⟩
  | AVL =>
    obtain ⟨n, u, hu, hio, hbu, hhu, hbal⟩ := rotationAVL_spec hb hh
    exact ⟨n, ⟨u, AVL⟩, fun fuel hf => by simp [Fleet.setType, hu fuel hf], rfl, hbu, hhu,
      fun _ => ⟨hbal, hio⟩⟩
  | BST =>
    exact ⟨0, ⟨f.m_root, BST⟩, fun _ _ => by simp [Fleet.setType], rfl, hb, hh,
      fun h => by cases h⟩
  | SPLAY =>
    exact ⟨0, ⟨f.m_root, SPLAY⟩, fun _ _ => by simp [Fleet.setType], rfl, hb, hh,
      fun h => by cases h⟩

theorem shape_assignmentOperatorHelper (t : Tree) :
    shape (assignmentOperatorHelper t) = shape t := by
  induction t with
  | nil => rfl
  | node l s c r ihl ihr => simp [assignmentOperatorHelper, shape, ihl, ihr]

/-- The result of `operator=`: the type of the source, the shape and entries of the source,
exact heights. -/
theorem assign_spec (aliased : Bool) (dst src : Fleet) (ha : aliased = true → dst = src) :
    (Fleet.assign aliased dst src).m_type = src.m_type ∧
      shape (Fleet.assign aliased dst src).m_root = shape src.m_root ∧
      HeightInv (Fleet.assign aliased dst src).m_root := by
  cases aliased with
  | true =>
    obtain rfl := ha rfl
    exact ⟨rfl, by simp [Fleet.assign, shape_updateHeights], heightInv_updateHeights _⟩
  | false =>
    cases hs : src.m_root with
    | nil =>
      simp [Fleet.assign, Fleet.clear, hs, updateHeights, shape, HeightInv]
    | node l s c r =>
      refine ⟨by simp [Fleet.assign, hs], ?_, ?_⟩
      · simp only [Fleet.assign, hs, Bool.false_eq_true, if_false]
        rw [shape_updateHeights, shape_assignmentOperatorHelper]
      · simp only [Fleet.assign, hs, Bool.false_eq_true, if_false]
        exact heightInv_updateHeights _

/-- Every reachable container is ordered and has exact heights. -/
theorem reachable_inv {MINID MAXID : Int} {f : Fleet} (h : Reachable MINID MAXID f) :
    BSTOrder f.m_root ∧ HeightInv f.m_root := by
  induction h with
  | create type => exact ⟨trivial, trivial⟩
  | @insert f g fuel ship _ he ih =>
    obtain ⟨n, g0, h1, _, h2, h3, _⟩ := insert_spec MINID MAXID f ship ih.1 ih.2
    have e1 := insert_fuel_mono he (max fuel n) (le_max_left _ _)
    have e2 := h1 (max fuel n) (le_max_right _ _)
    obtain rfl : g = g0 := by rw [e1] at e2; exact Option.some.inj e2
    exact ⟨h2, h3⟩
  | @remove f g fuel id _ he ih =>
    obtain ⟨n, g0, h1, _, h2, h3, _⟩ := remove_spec MINID MAXID f id ih.1 ih.2
    have e1 := remove_fuel_mono he (max fuel n) (le_max_left _ _)
    have e2 := h1 (max fuel n) (le_max_right _ _)
    obtain rfl : g = g0 := by rw [e1] at e2; exact Option.some.inj e2
    exact ⟨h2, h3⟩
  | @setType f g fuel type _ he ih =>
    obtain ⟨n, g0, h1, _, h2, h3, _⟩ := setType_spec f type ih.1 ih.2
    have e1 := setType_fuel_mono he (max fuel n) (le_max_left _ _)
    have e2 := h1 (max fuel n) (le_max_right _ _)
    obtain rfl : g = g0 := by rw [e1] at e2; exact Option.some.inj e2
    exact ⟨h2, h3⟩
  | clear _ _ => exact ⟨trivial, trivial⟩
  | @assign f g aliased _ _ ha _ ih2 =>
    obtain ⟨_, h2, h3⟩ := assign_spec aliased f g ha
    exact ⟨(bstOrder_of_shape h2).mpr ih2.1, h3⟩

theorem insertAll_spec (MINID MAXID : Int) (ships : List Ship) :
    ∀ f : Fleet, BSTOrder f.m_root → HeightInv f.m_root →
      ∃ n g, (∀ fuel, n ≤ fuel → insertAll MINID MAXID fuel f ships = some g) ∧
        g.m_type = f.m_type ∧ BSTOrder g.m_root ∧ HeightInv g.m_root := by
  induction ships with
  | nil => exact fun f hb hh => ⟨0, f, fun _ _ => rfl, rfl, hb, hh⟩
  | cons s ss ih =>
    intro f hb hh
    obtain ⟨n1, g1, h1, ht1, hb1, hh1, _⟩ := insert_spec MINID MAXID f s hb hh
    obtain ⟨n2, g2, h2, ht2, hb2, hh2⟩ := ih g1 hb1 hh1
    refine ⟨max n1 n2, g2, fun fuel hf => ?_, ht2.trans ht1, hb2, hh2⟩
    simp only [insertAll, h1 fuel (le_trans (le_max_left _ _) hf),
      h2 fuel (le_trans (le_max_right _ _) hf)]

theorem runOps_spec (MINID MAXID : Int) (ops : List Op) :
    ∀ f : Fleet, f.m_type = AVL → BSTOrder f.m_root → HeightInv f.m_root →
      Balanced f.m_root →
      ∃ n g, (∀ fuel, n ≤ fuel → runOps MINID MAXID fuel f ops = some g) ∧
        g.m_type = AVL ∧ BSTOrder g.m_root ∧ HeightInv g.m_root ∧ Balanced g.m_root := by
  induction ops with
  | nil => exact fun f ht hb hh hbal => ⟨0, f, fun _ _ => rfl, ht, hb, hh, hbal⟩
  | cons op ops ih =>
    intro f ht hb hh hbal
    have step : ∃ n g, (∀ fuel, n ≤ fuel → applyOp MINID MAXID fuel f op = some g) ∧
        g.m_type = f.m_type ∧ BSTOrder g.m_root ∧ HeightInv g.m_root ∧
        (f.m_type = AVL → Balanced f.m_root → Balanced g.m_root) := by
      cases op with
      | insert ship => exact insert_spec MINID MAXID f ship hb hh
      | remove id => exact remove_spec MINID MAXID f id hb hh
    obtain ⟨n1, g1, h1, ht1, hb1, hh1, hbal1⟩ := step
    obtain ⟨n2, g2, h2, ht2, hb2, hh2, hbal2⟩ := ih g1 (ht1.trans ht) hb1 hh1 (hbal1 ht hbal)
    refine ⟨max n1 n2, g2, fun fuel hf => ?_, ht2, hb2, hh2, hbal2⟩
    simp only [runOps, h1 fuel (le_trans (le_max_left _ _) hf),
      h2 fuel (le_trans (le_max_right _ _) hf)]


/-! ## The node that replaces a removed node -/

theorem detachMax_rightmost (l : Tree) (s : Ship) (c : Int) (r : Tree) :
    rightmost (node l s c r) = some (detachMax l s c r).2.1 ∧
      (detachMax l s c r).1 = spliceRightmost (node l s c r) := by
  induction r generalizing l s c with
  | nil => simp [detachMax, rightmost, spliceRightmost]
  | node rl rs rc rr _ ih2 =>
    have := ih2 rl rs rc
    simp [detachMax, rightmost, spliceRightmost, this.1, this.2]

theorem detachMin_leftmost (l : Tree) (s : Ship) (c : Int) (r : Tree) :
    leftmost (node l s c r) = some (detachMin s c r l).2.1 ∧
      (detachMin s c r l).1 = spliceLeftmost (node l s c r) := by
  induction l generalizing s c r with
  | nil => simp [detachMin, leftmost, spliceLeftmost]
  | node ll ls lc lr ih1 _ =>
    have := ih1 ls lc lr
    simp [detachMin, leftmost, spliceLeftmost, this.1, this.2]

theorem rightmost_eq_getLast (t : Tree) : rightmost t = (inorder t).getLast? := by
  cases t with
  | nil => rfl
  | node l s c r =>
    rw [(detachMax_rightmost l s c r).1, detachMax_inorder l s c r]
    simp [List.getLast?_append]

theorem leftmost_eq_head (t : Tree) : leftmost t = (inorder t).head? := by
  cases t with
  | nil => rfl
  | node l s c r =>
    rw [(detachMin_leftmost l s c r).1, detachMin_inorder l s c r]
    simp

theorem shape_replaceAt {sub sub2 : Tree} (h : shape sub = shape sub2) (t : Tree) (p : Path) :
    shape (replaceAt sub t p) = shape (replaceAt sub2 t p) := by
  induction p generalizing t with
  | nil => simpa [replaceAt] using h
  | cons d p ih =>
    cases t with
    | nil => simp [replaceAt]
    | node l s c r => cases d <;> simp [replaceAt, shape, ih]

theorem subtreeAt_replaceAt {sub t l r : Tree} {s : Ship} {c : Int} {p : Path}
    (h : subtreeAt t p = node l s c r) : subtreeAt (replaceAt sub t p) p = sub := by
  induction p generalizing t with
  | nil => simp [replaceAt, subtreeAt]
  | cons d p ih =>
    cases t with
    | nil => simp [subtreeAt] at h
    | node l2 s2 c2 r2 =>
      cases d
      · simpa [replaceAt, subtreeAt] using ih (t := l2) h
      · simpa [replaceAt, subtreeAt] using ih (t := r2) h

/-- In an ordered tree the search of `remove` for the identifier of the node at `p` ends at
that node, and the unlinking rewrites the link that held it and nothing else. -/
theorem removeWalk_at {t l r : Tree} {x : Ship} {c : Int} {p : Path} (hb : BSTOrder t)
    (hs : subtreeAt t p = node l x c r) :
    removeWalk x.m_id t = some (replaceAt (removeNode (node l x c r)) t p) := by
  induction p generalizing t with
  | nil =>
    simp only [subtreeAt] at hs
    subst hs
    simp [removeWalk, replaceAt]
  | cons d p ih =>
    cases t with
    | nil => simp [subtreeAt] at hs
    | node l2 s2 c2 r2 =>
      cases d
      · have hm := hb.1 x (mem_inorder_of_subtreeAt (t := l2) hs)
        have hne : ¬ s2.m_id = x.m_id := by omega
        have hgt : s2.m_id > x.m_id := by omega
        simp [removeWalk, hne, hgt, ih hb.2.2.1 hs, replaceAt]
      · have hm := hb.2.1 x (mem_inorder_of_subtreeAt (t := r2) hs)
        have hne : ¬ s2.m_id = x.m_id := by omega
        have hgt : ¬ s2.m_id > x.m_id := by omega
        simp [removeWalk, hne, hgt, ih hb.2.2.2 hs, replaceAt]

/-- The two-children case of `remove` at a node with a shorter left subtree: the rightmost
entry of the left subtree replaces the node. -/
theorem removeNode_pred {l r : Tree} {x : Ship} {c : Int} (hl : l ≠ nil) (hr : r ≠ nil)
    (hlt : cachedHeight l < cachedHeight r) :
    ∃ y cy, rightmost l = some y ∧
      removeNode (node l x c r) = node (spliceRightmost l) y cy r := by
  cases l with
  | nil => exact absurd rfl hl
  | node ll ls lc lr =>
    cases r with
    | nil => exact absurd rfl hr
    | node rl rs rc rr =>
      obtain ⟨e1, e2⟩ := detachMax_rightmost ll ls lc lr
      simp only [cachedHeight] at hlt
      exact ⟨_, (detachMax ll ls lc lr).2.2, e1, by simp [removeNode, hlt, e2]⟩

/-- The two-children case of `remove` at a node whose left subtree is not shorter: the
leftmost entry of the right subtree replaces the node. -/
theorem removeNode_succ {l r : Tree} {x : Ship} {c : Int} (hl : l ≠ nil) (hr : r ≠ nil)
    (hlt : ¬ cachedHeight l < cachedHeight r) :
    ∃ y cy, leftmost r = some y ∧
      removeNode (node l x c r) = node l y cy (spliceLeftmost r) := by
  cases l with
  | nil => exact absurd rfl hl
  | node ll ls lc lr =>
    cases r with
    | nil => exact absurd rfl hr
    | node rl rs rc rr =>
      obtain ⟨e1, e2⟩ := detachMin_leftmost rl rs rc rr
      simp only [cachedHeight] at hlt
      exact ⟨_, (detachMin rs rc rr rl).2.2, e1, by simp [removeNode, hlt, e2]⟩



/-! ## Entries kept and added by the public operations -/

theorem removeWalk_some_mem {id : Int} {t u : Tree} (h : removeWalk id t = some u) :
    id ∈ ids t := by
  induction t generalizing u with
  | nil => simp [removeWalk] at h
  | node l s c r ihl ihr =>
    simp only [removeWalk] at h
    simp only [ids, inorder, List.map_append, List.map_cons, List.mem_append, List.mem_cons]
    split at h
    · rename_i he
      exact Or.inr (Or.inl he.symm)
    · split at h
      · cases hq : removeWalk id l with
        | none => simp [hq] at h
        | some v => exact Or.inl (ihl hq)
      · cases hq : removeWalk id r with
        | none => simp [hq] at h
        | some v => exact Or.inr (Or.inr (ihr hq))

theorem removeWalk_of_not_mem {id : Int} {t : Tree} (h : id ∉ ids t) :
    removeWalk id t = none := by
  cases hq : removeWalk id t with
  | none => rfl
  | some u => exact absurd (removeWalk_some_mem hq) h

theorem insertWalk_reference {ship : Ship} {t : Tree} (h : ship.m_id ∉ ids t) :
    ∃ u p, insertWalk ship t = some (u, p) ∧ shape u = referenceInsert ship (shape t) := by
  induction t with
  | nil => exact ⟨_, _, rfl, rfl⟩
  | node l s c r ihl ihr =>
    simp only [ids, inorder, List.map_append, List.map_cons, List.mem_append, List.mem_cons,
      not_or] at h
    obtain ⟨h1, h2, h3⟩ := h
    have hne : ¬ s.m_id = ship.m_id := fun e => h2 e.symm
    by_cases hgt : s.m_id > ship.m_id
    · obtain ⟨u, p, e1, e2⟩ := ihl h1
      refine ⟨node u s c r, L :: p, by simp [insertWalk, hne, hgt, e1], ?_⟩
      have : ship.m_id < s.m_id := hgt
      simp [shape, referenceInsert, this, e2]
    · obtain ⟨u, p, e1, e2⟩ := ihr h3
      refine ⟨node l s c u, R :: p, by simp [insertWalk, hne, hgt, e1], ?_⟩
      have h4 : ¬ ship.m_id < s.m_id := hgt
      have h5 : s.m_id < ship.m_id := by omega
      simp [shape, referenceInsert, h4, h5, e2]

/-- The result of an `insert` that passes the tests and links a new node: with enough fuel
it returns, keeps the type, and the in-order sequence is that of the tree the descent
built. -/
theorem insert_inorder {MINID MAXID : Int} {f : Fleet} {ship : Ship} {t : Tree} {p : Path}
    (hg : ¬ (f.m_type = NONE ∨ ship.m_id < MINID ∨ ship.m_id > MAXID))
    (hw : insertWalk ship f.m_root = some (t, p))
    (hb : BSTOrder f.m_root) :
    ∃ n g, (∀ fuel, n ≤ fuel → Fleet.insert MINID MAXID fuel f ship = some g) ∧
      g.m_type = f.m_type ∧ inorder g.m_root = inorder t := by
  obtain ⟨_, _, _, h4⟩ := insertWalk_some hw
  have hb1 : BSTOrder (updateHeights t) :=
    (bstOrder_of_shape (shape_updateHeights t)).mpr (h4 hb)
  have hh1 := heightInv_updateHeights t
  cases hty : f.m_type with
  | NONE => exact absurd (Or.inl hty) hg
  | BST =>
    refine ⟨0, { f with m_root := updateHeights t }, fun fuel _ => ?_, by simp [hty],
      inorder_updateHeights t⟩
    rw [insert_of_walk_some hg hw]
    simp only [hty]
  | AVL =>
    obtain ⟨n, u, hu, hio, _, _, _⟩ := rotationAVL_spec hb1 hh1
    refine ⟨n, { f with m_root := u }, fun fuel hf => ?_, by simp [hty],
      hio.trans (inorder_updateHeights t)⟩
    rw [insert_of_walk_some hg hw]
    simp only [hty, hu fuel hf, Option.map_some']
  | SPLAY =>
    obtain ⟨a, c, b, e1, e2, _⟩ := splay_after_insertWalk hw
    refine ⟨0, { f with m_root := node a ship c b }, fun fuel _ => ?_, by simp [hty], e2⟩
    rw [insert_of_walk_some hg hw]
    simp only [hty, e1, Option.map_some']

/-- The entries after an `insert` are entries of the old tree or the new entry, whose
identifier then lies in `[MINID, MAXID]`. -/
theorem insert_entries {MINID MAXID : Int} {fuel : Nat} {f g : Fleet} {ship : Ship}
    (hb : BSTOrder f.m_root) (he : Fleet.insert MINID MAXID fuel f ship = some g) :
    ∀ x ∈ inorder g.m_root,
      x ∈ inorder f.m_root ∨ (x = ship ∧ MINID ≤ ship.m_id ∧ ship.m_id ≤ MAXID) := by
  by_cases hg : f.m_type = NONE ∨ ship.m_id < MINID ∨ ship.m_id > MAXID
  · rw [insert_of_guard hg] at he
    cases he
    exact fun x hx => Or.inl hx
  · cases hw : insertWalk ship f.m_root with
    | none =>
      rw [insert_of_walk_none hw] at he
      cases he
      exact fun x hx => Or.inl hx
    | some q =>
      obtain ⟨t, p⟩ := q
      obtain ⟨n, g0, h1, _, h2⟩ := insert_inorder hg hw hb
      have e1 := insert_fuel_mono he (max fuel n) (le_max_left _ _)
      have e2 := h1 (max fuel n) (le_max_right _ _)
      obtain rfl : g = g0 := by rw [e1] at e2; exact Option.some.inj e2
      obtain ⟨_, _, h3, _⟩ := insertWalk_some hw
      intro x hx
      rw [h2] at hx
      rcases (h3 x).mp hx with rfl | hx
      · exact Or.inr ⟨rfl, by omega, by omega⟩
      · exact Or.inl hx

/-- The entries after a `remove` are entries of the old tree, in the same order. -/
theorem remove_entries {MINID MAXID : Int} {fuel : Nat} {f g : Fleet} {id : Int}
    (hb : BSTOrder f.m_root) (he : Fleet.remove MINID MAXID fuel f id = some g) :
    (inorder g.m_root).Sublist (inorder f.m_root) := by
  by_cases hg : f.m_root ≠ nil ∧ f.m_type ≠ NONE ∧ f.m_type ≠ SPLAY
  · by_cases hr : id < MINID ∨ id > MAXID
    · rw [remove_of_guard (Or.inr hr)] at he
      cases he
      exact List.Sublist.refl _
    · cases hw : removeWalk id f.m_root with
      | none =>
        rw [remove_of_walk_none hw] at he
        cases he
        exact List.Sublist.refl _
      | some t =>
        have hsub := removeWalk_sublist hw
        have hb1 : BSTOrder (updateHeights t) :=
          (bstOrder_of_shape (shape_updateHeights t)).mpr (bstOrder_of_sublist hsub hb)
        rw [remove_of_walk_some hg hr hw] at he
        by_cases hty : f.m_type = AVL
        · rw [if_pos hty] at he
          obtain ⟨n, u, hu, hio, _, _, _⟩ := rotationAVL_spec hb1 (heightInv_updateHeights t)
          cases hr2 : rotationAVL fuel (updateHeights t) with
          | none => simp [hr2] at he
          | some v =>
            have e1 := rotationAVL_fuel_mono hr2 (max fuel n) (le_max_left _ _)
            have e2 := hu (max fuel n) (le_max_right _ _)
            obtain rfl : v = u := by rw [e1] at e2; exact Option.some.inj e2
            simp only [hr2, Option.map_some', Option.some.injEq] at he
            subst he
            simp only [hio, inorder_updateHeights]
            exact hsub
        · rw [if_neg hty] at he
          cases he
          simp only [inorder_updateHeights]
          exact hsub
  · rw [remove_of_guard (Or.inl hg)] at he
    cases he
    exact List.Sublist.refl _

/-- What `setType` returns has the requested type and the entries of the old tree, none of
them under NONE. -/
theorem setType_entries {fuel : Nat} {f g : Fleet} {type : TREETYPE}
    (hb : BSTOrder f.m_root) (hh : HeightInv f.m_root)
    (he : Fleet.setType fuel f type = some g) :
    g.m_type = type ∧ (type = NONE → g.m_root = nil) ∧
      ∀ x ∈ inorder g.m_root, x ∈ inorder f.m_root := by
  obtain ⟨n, g0, h1, h2, _, _, h5⟩ := setType_spec f type hb hh
  have e1 := setType_fuel_mono he (max fuel n) (le_max_left _ _)
  have e2 := h1 (max fuel n) (le_max_right _ _)
  obtain rfl : g = g0 := by rw [e1] at e2; exact Option.some.inj e2
  cases type with
  | NONE =>
    simp only [Fleet.setType, Fleet.clear, if_true, Option.some.injEq] at he
    subst he
    exact ⟨rfl, fun _ => rfl, fun x hx => by simp [inorder] at hx⟩
  | AVL =>
    refine ⟨h2, (fun h => by cases h), fun x hx => ?_⟩
    rw [(h5 rfl).2] at hx
    exact hx
  | BST =>
    simp only [Fleet.setType, reduceCtorEq, if_false, Option.some.injEq] at he
    subst he
    exact ⟨rfl, (fun h => by cases h), fun x hx => hx⟩
  | SPLAY =>
    simp only [Fleet.setType, reduceCtorEq, if_false, Option.some.injEq] at he
    subst he
    exact ⟨rfl, (fun h => by cases h), fun x hx => hx⟩

theorem shape_eq_nil {t : Tree} (h : shape t = Shape.nil) : t = nil := by
  cases t with
  | nil => rfl
  | node l s c r => simp [shape] at h

/-- Every identifier stored in a reachable container lies in `[MINID, MAXID]`. -/
theorem reachable_range {MINID MAXID : Int} {f : Fleet} (h : Reachable MINID MAXID f) :
    ∀ x ∈ inorder f.m_root, MINID ≤ x.m_id ∧ x.m_id ≤ MAXID := by
  induction h with
  | create type => exact fun x hx => by simp [inorder] at hx
  | @insert f g fuel ship hf he ih =>
    intro x hx
    rcases insert_entries (reachable_inv hf).1 he x hx with h1 | ⟨rfl, h2⟩
    · exact ih x h1
    · exact h2
  | @remove f g fuel id hf he ih =>
    exact fun x hx => ih x ((remove_entries (reachable_inv hf).1 he).subset hx)
  | @setType f g fuel type hf he ih =>
    exact fun x hx =>
      ih x ((setType_entries (reachable_inv hf).1 (reachable_inv hf).2 he).2.2 x hx)
  | clear _ _ => exact fun x hx => by simp [Fleet.clear, inorder] at hx
  | @assign f g aliased _ _ ha _ ih2 =>
    obtain ⟨_, h2, _⟩ := assign_spec aliased f g ha
    intro x hx
    rw [inorder_of_shape h2] at hx
    exact ih2 x hx

/-- A reachable container of type NONE is empty. -/
theorem reachable_none {MINID MAXID : Int} {f : Fleet} (h : Reachable MINID MAXID f) :
    f.m_type = NONE → f.m_root = nil := by
  induction h with
  | create type => exact fun _ => rfl
  | @insert f g fuel ship hf he ih =>
    intro hty
    obtain ⟨n, g0, h1, h2, _⟩ :=
      insert_spec MINID MAXID f ship (reachable_inv hf).1 (reachable_inv hf).2
    have e1 := insert_fuel_mono he (max fuel n) (le_max_left _ _)
    have e2 := h1 (max fuel n) (le_max_right _ _)
    obtain rfl : g = g0 := by rw [e1] at e2; exact Option.some.inj e2
    have hf2 : f.m_type = NONE := h2 ▸ hty
    rw [insert_of_guard (Or.inl hf2)] at he
    cases he
    exact ih hf2
  | @remove f g fuel id hf he ih =>
    intro hty
    obtain ⟨n, g0, h1, h2, _⟩ :=
      remove_spec MINID MAXID f id (reachable_inv hf).1 (reachable_inv hf).2
    have e1 := remove_fuel_mono he (max fuel n) (le_max_left _ _)
    have e2 := h1 (max fuel n) (le_max_right _ _)
    obtain rfl : g = g0 := by rw [e1] at e2; exact Option.some.inj e2
    have hf2 : f.m_type = NONE := h2 ▸ hty
    rw [remove_of_guard (Or.inl (fun h => h.2.1 hf2))] at he
    cases he
    exact ih hf2
  | @setType f g fuel type hf he _ =>
    intro hty
    obtain ⟨h1, h2, _⟩ := setType_entries (reachable_inv hf).1 (reachable_inv hf).2 he
    exact h2 (h1 ▸ hty)
  | clear _ _ => exact fun _ => rfl
  | @assign f g aliased _ _ ha _ ih2 =>
    intro hty
    obtain ⟨h1, h2, _⟩ := assign_spec aliased f g ha
    rw [ih2 (h1 ▸ hty)] at h2
    exact shape_eq_nil h2

/-- For an identifier inside the range, `insert` does not depend on the bounds. -/
theorem insert_range_irrelevant {A B C D : Int} {fuel : Nat} {f : Fleet} {ship : Ship}
    (h1 : A ≤ ship.m_id ∧ ship.m_id ≤ B) (h2 : C ≤ ship.m_id ∧ ship.m_id ≤ D) :
    Fleet.insert A B fuel f ship = Fleet.insert C D fuel f ship := by
  have e1 : ¬ ship.m_id < A := by omega
  have e2 : ¬ ship.m_id > B := by omega
  have e3 : ¬ ship.m_id < C := by omega
  have e4 : ¬ ship.m_id > D := by omega
  simp only [Fleet.insert, e1, e2, e3, e4]

theorem insertAll_range_irrelevant {A B C D : Int} {fuel : Nat} (ships : List Ship) :
    ∀ f : Fleet, (∀ s ∈ ships, A ≤ s.m_id ∧ s.m_id ≤ B) →
      (∀ s ∈ ships, C ≤ s.m_id ∧ s.m_id ≤ D) →
      insertAll A B fuel f ships = insertAll C D fuel f ships := by
  induction ships with
  | nil => exact fun _ _ _ => rfl
  | cons s ss ih =>
    intro f h1 h2
    simp only [insertAll]
    rw [insert_range_irrelevant (h1 s (List.mem_cons_self _ _)) (h2 s (List.mem_cons_self _ _))]
    cases Fleet.insert C D fuel f s with
    | none => rfl
    | some g =>
      exact ih g (fun x hx => h1 x (List.mem_cons_of_mem _ hx))
        (fun x hx => h2 x (List.mem_cons_of_mem _ hx))

theorem insertAll_fuel_mono {MINID MAXID : Int} {n : Nat} (ships : List Ship) :
    ∀ f g : Fleet, insertAll MINID MAXID n f ships = some g →
      ∀ m, n ≤ m → insertAll MINID MAXID m f ships = some g := by
  induction ships with
  | nil => exact fun f g h m _ => h
  | cons s ss ih =>
    intro f g h m hm
    simp only [insertAll] at h ⊢
    cases h1 : Fleet.insert MINID MAXID n f s with
    | none => simp [h1] at h
    | some f1 =>
      rw [insert_fuel_mono h1 m hm]
      simp only [h1] at h
      exact ih f1 g h m hm

/-- The descent of `insert` changes one link: the empty position it reaches receives the
new leaf. -/
theorem insertWalk_replaceAt {ship : Ship} {t u : Tree} {p : Path}
    (h : insertWalk ship t = some (u, p)) :
    subtreeAt t p = nil ∧ Follows ship.m_id t p ∧
      u = replaceAt (node nil ship DEFAULT_HEIGHT nil) t p := by
  induction t generalizing u p with
  | nil =>
    simp only [insertWalk, Option.some.injEq, Prod.mk.injEq] at h
    obtain ⟨rfl, rfl⟩ := h
    simp [subtreeAt, Follows, replaceAt]
  | node l s c r ihl ihr =>
    simp only [insertWalk] at h
    split at h
    · cases h
    · split at h
      · rename_i hgt
        cases hq : insertWalk ship l with
        | none => simp [hq] at h
        | some q =>
          obtain ⟨v, q2⟩ := q
          simp only [hq, Option.map_some', Option.some.injEq, Prod.mk.injEq] at h
          obtain ⟨rfl, rfl⟩ := h
          obtain ⟨h1, h2, h3⟩ := ihl hq
          exact ⟨h1, ⟨by omega, h2⟩, by simp [replaceAt, ← h3]⟩
      · rename_i hgt
        cases hq : insertWalk ship r with
        | none => simp [hq] at h
        | some q =>
          obtain ⟨v, q2⟩ := q
          simp only [hq, Option.map_some', Option.some.injEq, Prod.mk.injEq] at h
          obtain ⟨rfl, rfl⟩ := h
          obtain ⟨h1, h2, h3⟩ := ihr hq
          exact ⟨h1, ⟨by omega, h2⟩, by simp [replaceAt, ← h3]⟩


/-! ## The imbalance search, in pre-order -/

theorem imbalance_eq_find (t : Tree) :
    imbalance t = (preorder t).find? (fun p => isImbalanced (subtreeAt t p)) := by
  induction t with
  | nil => rfl
  | node l s c r ihl ihr =>
    have hd : isImbalanced (subtreeAt (node l s c r) []) =
        decide ((cachedHeight l - cachedHeight r).natAbs > 1) := rfl
    have e1 : ((fun p => isImbalanced (subtreeAt (node l s c r) p)) ∘ fun p => L :: p) =
        fun p => isImbalanced (subtreeAt l p) := by
      funext p; simp [subtreeAt]
    have e2 : ((fun p => isImbalanced (subtreeAt (node l s c r) p)) ∘ fun p => R :: p) =
        fun p => isImbalanced (subtreeAt r p) := by
      funext p; simp [subtreeAt]
    simp only [imbalance, preorder, List.find?_cons, hd, List.find?_append, List.find?_map,
      e1, e2, ← ihl, ← ihr]
    by_cases hb : (cachedHeight l - cachedHeight r).natAbs > 1
    · simp [hb]
    · simp only [hb, if_false, decide_False]
      cases imbalance l <;> cases imbalance r <;> rfl

theorem imbalance_none_iff_all (t : Tree) :
    imbalance t = none ↔ ∀ p : Path, isImbalanced (subtreeAt t p) = false := by
  induction t with
  | nil =>
    simp only [imbalance, true_iff]
    intro p
    cases p <;> rfl
  | node l s c r ihl ihr =>
    constructor
    · intro h p
      simp only [imbalance] at h
      split at h
      · cases h
      · rename_i hb
        cases hl : imbalance l with
        | some q => simp [hl] at h
        | none =>
          cases hr : imbalance r with
          | some q => simp [hl, hr] at h
          | none =>
            cases p with
            | nil => simpa [subtreeAt, isImbalanced] using hb
            | cons d p =>
              cases d
              · exact (ihl.mp hl) p
              · exact (ihr.mp hr) p
    · intro h
      have h0 := h []
      simp only [subtreeAt, isImbalanced, decide_eq_false_iff_not] at h0
      have hl := ihl.mpr (fun p => h (L :: p))
      have hr := ihr.mpr (fun p => h (R :: p))
      simp [imbalance, h0, hl, hr]

theorem imbalance_ancestors {t : Tree} {p : Path} (h : imbalance t = some p) :
    isImbalanced (subtreeAt t p) = true ∧
      ∀ q : Path, q <+: p → q ≠ p → isImbalanced (subtreeAt t q) = false := by
  induction t generalizing p with
  | nil => simp [imbalance] at h
  | node l s c r ihl ihr =>
    simp only [imbalance] at h
    split at h
    · rename_i hb
      cases h
      refine ⟨by simpa [subtreeAt, isImbalanced] using hb, fun q hq hne => ?_⟩
      exact absurd (List.prefix_nil.mp hq) hne
    · rename_i hb
      have h0 : isImbalanced (subtreeAt (node l s c r) []) = false := by
        simpa [subtreeAt, isImbalanced] using hb
      cases hl : imbalance l with
      | some p1 =>
        simp only [hl, Option.some.injEq] at h
        subst h
        obtain ⟨e1, e2⟩ := ihl hl
        refine ⟨e1, fun q hq hne => ?_⟩
        cases q with
        | nil => exact h0
        | cons d q =>
          obtain ⟨rfl, hq2⟩ := List.cons_prefix_cons.mp hq
          exact e2 q hq2 (fun e => hne (by rw [e]))
      | none =>
        cases hr : imbalance r with
        | some p1 =>
          simp only [hl, hr, Option.some.injEq] at h
          subst h
          obtain ⟨e1, e2⟩ := ihr hr
          refine ⟨e1, fun q hq hne => ?_⟩
          cases q with
          | nil => exact h0
          | cons d q =>
            obtain ⟨rfl, hq2⟩ := List.cons_prefix_cons.mp hq
            exact e2 q hq2 (fun e => hne (by rw [e]))
        | none => simp [hl, hr] at h


/-! ## One pass of the AVL loop, in detail -/

theorem follows_of_bstOrder {t : Tree} {p : Path} {l r : Tree} {s : Ship} {c : Int}
    (hb : BSTOrder t) (h : subtreeAt t p = node l s c r) : Follows s.m_id t p := by
  induction p generalizing t with
  | nil => simp [Follows]
  | cons d p ih =>
    cases t with
    | nil => simp [subtreeAt] at h
    | node l2 s2 c2 r2 =>
      cases d
      · have hm := hb.1 s (mem_inorder_of_subtreeAt (t := l2) h)
        exact ⟨hm, ih hb.2.2.1 h⟩
      · have hm := hb.2.1 s (mem_inorder_of_subtreeAt (t := r2) h)
        exact ⟨not_lt.mpr (le_of_lt hm), ih hb.2.2.2 h⟩

theorem subtreeAt_prefix_ne_nil {t : Tree} {p q : Path} {l r : Tree} {s : Ship} {c : Int}
    (h : subtreeAt t p = node l s c r) (hq : q <+: p) : subtreeAt t q ≠ nil := by
  induction q generalizing t p with
  | nil =>
    intro h0
    simp only [subtreeAt] at h0
    subst h0
    cases p <;> simp [subtreeAt] at h
  | cons d q ih =>
    cases p with
    | nil => simp at hq
    | cons d2 p =>
      obtain ⟨rfl, hq2⟩ := List.cons_prefix_cons.mp hq
      cases t with
      | nil => simp [subtreeAt] at h
      | node l2 s2 c2 r2 =>
        cases d
        · exact ih (t := l2) h hq2
        · exact ih (t := r2) h hq2

/-- On an ordered tree a pass at an imbalanced node is the rotation at that node followed by
the replacement of the node's subtree by the rotated one. -/
theorem rotationAVLPass_eq {t : Tree} {p : Path} {l r : Tree} {s : Ship} {c : Int}
    (hb : BSTOrder t) (hs : subtreeAt t p = node l s c r)
    (hi : isImbalanced (node l s c r) = true) :
    rotationAVLPass t p =
      (rotateAtNode (node l s c r)).map (fun sub => replaceAt sub t p) := by
  simp only [isImbalanced, decide_eq_true_eq] at hi
  simp only [rotationAVLPass, hs, rotateAtNode]
  by_cases h1 : cachedHeight l - cachedHeight r > 1
  · simp only [h1, if_true]
    cases hrot : rotateLeftHeavy l s c r with
    | none => rfl
    | some sub => simp [relinkAt_of_bstOrder hb hs sub]
  · have h2 : cachedHeight l - cachedHeight r < -1 := by omega
    simp only [h1, if_false, h2, if_true]
    cases hrot : rotateRightHeavy l s c r with
    | none => rfl
    | some sub => simp [relinkAt_of_bstOrder hb hs sub]

theorem rotateLeftHeavy_double {ll lrl lrr r : Tree} {ls lrs s : Ship} {lh lrh c : Int}
    (h : lrh > cachedHeight ll) :
    rotateLeftHeavy (node ll ls lh (node lrl lrs lrh lrr)) s c r =
      some (node (node ll ls lh lrl) lrs lrh (node lrr s c r)) := by
  simp [rotateLeftHeavy, h]

theorem rotateLeftHeavy_single {ll lr r : Tree} {ls s : Ship} {lh c : Int}
    (h : lr = nil ∨ ¬ cachedHeight lr > cachedHeight ll) :
    rotateLeftHeavy (node ll ls lh lr) s c r = some (node ll ls lh (node lr s c r)) := by
  cases lr with
  | nil => rfl
  | node lrl lrs lrh lrr =>
    rcases h with h | h
    · cases h
    · have h2 : ¬ lrh > cachedHeight ll := h
      simp [rotateLeftHeavy, h2]

theorem rotateRightHeavy_double {l rll rlr rr : Tree} {rls rs s : Ship} {rlh rh c : Int}
    (h : rlh > cachedHeight rr) :
    rotateRightHeavy l s c (node (node rll rls rlh rlr) rs rh rr) =
      some (node (node l s c rll) rls rlh (node rlr rs rh rr)) := by
  simp [rotateRightHeavy, h]

theorem rotateRightHeavy_single {l rl rr : Tree} {rs s : Ship} {rh c : Int}
    (h : rl = nil ∨ ¬ cachedHeight rl > cachedHeight rr) :
    rotateRightHeavy l s c (node rl rs rh rr) = some (node (node l s c rl) rs rh rr) := by
  cases rl with
  | nil => rfl
  | node rll rls rlh rlr =>
    rcases h with h | h
    · cases h
    · have h2 : ¬ rlh > cachedHeight rr := h
      simp [rotateRightHeavy, h2]

/-- The height of the subtree after the left-heavy rotation: less than before, except that
it is the same when the two subtrees of the left child have equal height. -/
theorem rotateLeftHeavy_height {l r : Tree} {s : Ship} {c : Int}
    (hl : HeightInv l) (hbf : height l - height r > 1) :
    ∃ ll ls lh lr sub, l = node ll ls lh lr ∧ rotateLeftHeavy l s c r = some sub ∧
      (height ll ≠ height lr → height sub < height (node l s c r)) ∧
      (height ll = height lr → height sub = height (node l s c r)) := by
  cases l with
  | nil => have := height_ge r; simp [height] at hbf; omega
  | node ll ls lh lr =>
    have hc2 : cachedHeight ll = height ll := cachedHeight_eq_height hl.2.1
    have hc3 : cachedHeight lr = height lr := cachedHeight_eq_height hl.2.2
    have g1 := height_ge ll
    have g2 := height_ge lr
    have g3 := height_ge r
    by_cases hgt : cachedHeight lr > cachedHeight ll
    · cases lr with
      | nil =>
        have hgt2 : (-1 : Int) > cachedHeight ll := hgt
        omega
      | node lrl lrs lrh lrr =>
        have g4 := height_ge lrl
        have g5 := height_ge lrr
        have hgt2 : lrh > cachedHeight ll := hgt
        have hc4 : lrh = height (node lrl lrs lrh lrr) := hc3
        refine ⟨ll, ls, lh, _, _, rfl, rotateLeftHeavy_double hgt2, ?_, ?_⟩
        · intro _
          rw [hc2, hc4] at hgt2
          simp only [height] at hbf hgt2 ⊢
          omega
        · intro he
          rw [hc2, hc4] at hgt2
          omega
    · refine ⟨ll, ls, lh, lr, _, rfl, rotateLeftHeavy_single (Or.inr hgt), ?_, ?_⟩
      · intro hne
        rw [hc2, hc3] at hgt
        simp only [height] at hbf ⊢
        omega
      · intro he
        simp only [height] at hbf ⊢
        omega

/-- The height of the subtree after the right-heavy rotation: less than before, except that
it is the same when the two subtrees of the right child have equal height. -/
theorem rotateRightHeavy_height {l r : Tree} {s : Ship} {c : Int}
    (hr : HeightInv r) (hbf : height l - height r < -1) :
    ∃ rl rs rh rr sub, r = node rl rs rh rr ∧ rotateRightHeavy l s c r = some sub ∧
      (height rl ≠ height rr → height sub < height (node l s c r)) ∧
      (height rl = height rr → height sub = height (node l s c r)) := by
  cases r with
  | nil => have := height_ge l; simp [height] at hbf; omega
  | node rl rs rh rr =>
    have hc2 : cachedHeight rr = height rr := cachedHeight_eq_height hr.2.2
    have hc3 : cachedHeight rl = height rl := cachedHeight_eq_height hr.2.1
    have g1 := height_ge rr
    have g2 := height_ge rl
    have g3 := height_ge l
    by_cases hgt : cachedHeight rl > cachedHeight rr
    · cases rl with
      | nil =>
        have hgt2 : (-1 : Int) > cachedHeight rr := hgt
        omega
      | node rll rls rlh rlr =>
        have g4 := height_ge rll
        have g5 := height_ge rlr
        have hgt2 : rlh > cachedHeight rr := hgt
        have hc4 : rlh = height (node rll rls rlh rlr) := hc3
        refine ⟨_, rs, rh, rr, _, rfl, rotateRightHeavy_double hgt2, ?_, ?_⟩
        · intro _
          rw [hc2, hc4] at hgt2
          simp only [height] at hbf hgt2 ⊢
          omega
        · intro he
          rw [hc2, hc4] at hgt2
          omega
    · refine ⟨rl, rs, rh, rr, _, rfl, rotateRightHeavy_single (Or.inr hgt), ?_, ?_⟩
      · intro hne
        rw [hc2, hc3] at hgt
        simp only [height] at hbf ⊢
        omega
      · intro he
        simp only [height] at hbf ⊢
        omega


/-! ## One iteration of the splay loop, in detail -/

theorem splayDouble_frame {nid : Int} {a b : Tree} {x : Ship} {hx : Int} (p : Path) :
    ∀ (t : Tree) (d1 d2 : Dir), Follows nid t (d1 :: d2 :: p) →
      subtreeAt t (d1 :: d2 :: p) = node a x hx b →
      ∃ a1 b1, splayDouble nid t (d1 :: d2 :: p) =
          some (replaceAt (node a1 x hx b1) t (d1 :: d2 :: p).dropLast.dropLast) ∧
        (∃ g, subtreeAt t (d1 :: d2 :: p).dropLast.dropLast = g ∧ g ≠ nil ∧
          inorder (node a1 x hx b1) = inorder g) := by
  induction p with
  | nil =>
    intro t d1 d2 hf hs
    obtain ⟨a1, b1, h1, h2⟩ := zigzig_spec hf hs
    refine ⟨a1, b1, by simpa [splayDouble, replaceAt] using h1, t, by simp [subtreeAt], ?_, h2⟩
    intro h0
    subst h0
    simp [Follows] at hf
  | cons d3 p ih =>
    intro t d1 d2 hf hs
    cases t with
    | nil => simp [Follows] at hf
    | node l s c r =>
      cases d1
      · simp only [Follows] at hf
        simp only [subtreeAt] at hs
        obtain ⟨a1, b1, h1, g, h2, h3, h4⟩ := ih l d2 d3 hf.2 hs
        refine ⟨a1, b1, ?_, g, ?_, h3, h4⟩
        · simp only [List.dropLast_cons₂] at h1 ⊢
          simp [splayDouble, hf.1, h1, replaceAt]
        · simp only [List.dropLast_cons₂] at h2 ⊢
          simpa [subtreeAt] using h2
      · simp only [Follows] at hf
        simp only [subtreeAt] at hs
        obtain ⟨a1, b1, h1, g, h2, h3, h4⟩ := ih r d2 d3 hf.2 hs
        refine ⟨a1, b1, ?_, g, ?_, h3, h4⟩
        · simp only [List.dropLast_cons₂] at h1 ⊢
          simp [splayDouble, hf.1, h1, replaceAt]
        · simp only [List.dropLast_cons₂] at h2 ⊢
          simpa [subtreeAt] using h2

/-- The splay loop needs one iteration for every two levels of the target, rounded up. -/
theorem splayLoop_exact {nid : Int} {x : Ship} {hx : Int} (fuel : Nat) :
    ∀ (t : Tree) (p : Path) (a b : Tree), (p.length + 1) / 2 ≤ fuel → Follows nid t p →
      subtreeAt t p = node a x hx b →
      ∃ a1 b1, splayLoop nid fuel t p = some (node a1 x hx b1) ∧
        inorder (node a1 x hx b1) = inorder t := by
  induction fuel using Nat.strong_induction_on with
  | _ fuel ih =>
    intro t p a b hlen hf hs
    match p, fuel, hlen with
    | [], fuel, _ =>
      simp only [subtreeAt] at hs
      subst hs
      exact ⟨a, b, by cases fuel <;> simp [splayLoop], rfl⟩
    | [d], 0, hlen => simp at hlen
    | [d], fuel + 1, _ =>
      obtain ⟨a1, b1, h1, h2⟩ := zig_spec hf hs
      exact ⟨a1, b1, by simpa [splayLoop] using h1, h2⟩
    | d1 :: d2 :: q, 0, hlen =>
      simp only [List.length_cons] at hlen
      omega
    | d1 :: d2 :: q, fuel + 1, hlen =>
      obtain ⟨u, a1, b1, h1, h2, h3, h4⟩ := splayDouble_spec q t d1 d2 hf hs
      have hl : ((d1 :: d2 :: q).dropLast.dropLast.length + 1) / 2 ≤ fuel := by
        simp only [List.length_dropLast, List.length_cons] at hlen ⊢
        omega
      obtain ⟨a2, b2, h5, h6⟩ := ih fuel (by omega) u _ a1 b1 hl h3 h4
      exact ⟨a2, b2, by simp only [splayLoop, h1, h5], h6.trans h2⟩

theorem splayLoop_short {nid : Int} {x : Ship} {hx : Int} (fuel : Nat) :
    ∀ (t : Tree) (p : Path) (a b : Tree), fuel < (p.length + 1) / 2 → Follows nid t p →
      subtreeAt t p = node a x hx b → splayLoop nid fuel t p = none := by
  induction fuel with
  | zero =>
    intro t p a b hlen _ _
    cases p with
    | nil => simp at hlen
    | cons d q => rfl
  | succ fuel ih =>
    intro t p a b hlen hf hs
    match p, hlen with
    | [], hlen => simp at hlen
    | [d], hlen => simp at hlen
    | d1 :: d2 :: q, hlen =>
      obtain ⟨u, a1, b1, h1, h2, h3, h4⟩ := splayDouble_spec q t d1 d2 hf hs
      have hl : fuel < ((d1 :: d2 :: q).dropLast.dropLast.length + 1) / 2 := by
        simp only [List.length_dropLast, List.length_cons] at hlen ⊢
        omega
      simp only [splayLoop, h1]
      exact ih u _ a1 b1 hl h3 h4


/-! ## The in-order sequence after an insert, and the dump -/

theorem insertSorted_append_lt {e s : Ship} (h : e.m_id < s.m_id) (l ys : List Ship) :
    insertSorted e (l ++ s :: ys) = insertSorted e l ++ s :: ys := by
  induction l with
  | nil => simp [insertSorted, h]
  | cons x l ih =>
    simp only [List.cons_append, insertSorted]
    split
    · rfl
    · exact congrArg (List.cons x) ih

theorem insertSorted_append_gt {e s : Ship} (h : s.m_id < e.m_id) (l ys : List Ship)
    (hl : ∀ x ∈ l, x.m_id < e.m_id) :
    insertSorted e (l ++ s :: ys) = l ++ s :: insertSorted e ys := by
  induction l with
  | nil =>
    have : ¬ e.m_id < s.m_id := by omega
    simp [insertSorted, this]
  | cons x l ih =>
    have hx := hl x (List.mem_cons_self _ _)
    have : ¬ e.m_id < x.m_id := by omega
    simp only [List.cons_append, insertSorted, this, if_false]
    exact congrArg (List.cons x) (ih (fun y hy => hl y (List.mem_cons_of_mem _ hy)))

theorem insertSorted_length (e : Ship) (l : List Ship) :
    (insertSorted e l).length = l.length + 1 := by
  induction l with
  | nil => rfl
  | cons x l ih =>
    simp only [insertSorted]
    split <;> simp [ih]

/-- On an ordered tree the descent of `insert` puts the new entry at its sorted position of
the in-order sequence. -/
theorem insertWalk_inorder {ship : Ship} {t u : Tree} {p : Path} (hb : BSTOrder t)
    (h : insertWalk ship t = some (u, p)) : inorder u = insertSorted ship (inorder t) := by
  induction t generalizing u p with
  | nil =>
    simp only [insertWalk, Option.some.injEq, Prod.mk.injEq] at h
    obtain ⟨rfl, rfl⟩ := h
    rfl
  | node l s c r ihl ihr =>
    obtain ⟨b1, b2, b3, b4⟩ := hb
    simp only [insertWalk] at h
    split at h
    · cases h
    · rename_i hne
      split at h
      · rename_i hgt
        cases hq : insertWalk ship l with
        | none => simp [hq] at h
        | some q =>
          obtain ⟨v, q2⟩ := q
          simp only [hq, Option.map_some', Option.some.injEq, Prod.mk.injEq] at h
          obtain ⟨rfl, rfl⟩ := h
          simp only [inorder]
          rw [insertSorted_append_lt hgt, ihl b3 hq]
      · rename_i hgt
        cases hq : insertWalk ship r with
        | none => simp [hq] at h
        | some q =>
          obtain ⟨v, q2⟩ := q
          simp only [hq, Option.map_some', Option.some.injEq, Prod.mk.injEq] at h
          obtain ⟨rfl, rfl⟩ := h
          have hlt : s.m_id < ship.m_id := by omega
          simp only [inorder]
          rw [insertSorted_append_gt hlt _ _ (fun x hx => lt_trans (b1 x hx) hlt), ihr b4 hq]

theorem dump_eq (t : Tree) : ∀ out : String, dump t out = out ++ dumpText t := by
  induction t with
  | nil => intro out; simp [dump, dumpText]
  | node l s c r ihl ihr =>
    intro out
    simp only [dump, dumpText, ihl, ihr, String.append_assoc]


theorem piecesText_append (l ys : List Piece) :
    piecesText (l ++ ys) = piecesText l ++ piecesText ys := by
  induction l with
  | nil => simp [piecesText]
  | cons p l ih =>
    simp only [List.cons_append, piecesText, String.append_assoc]
    exact congrArg (fun z => p.text ++ z) ih

theorem dumpText_eq_pieces (t : Tree) : dumpText t = piecesText (dumpPieces t) := by
  induction t with
  | nil => rfl
  | node l s c r ihl ihr =>
    simp only [dumpText, dumpPieces, piecesText, piecesText_append, Piece.text, ihl, ihr,
      String.append_assoc, String.append_empty]

theorem dumpPieces_ids (t : Tree) : (dumpPieces t).filterMap Piece.ident? = ids t := by
  induction t with
  | nil => rfl
  | node l s c r ihl ihr =>
    simp only [ids] at ihl ihr
    simp [dumpPieces, List.filterMap_cons, List.filterMap_append, Piece.ident?, ids, inorder,
      ihl, ihr]

/-! ## The operations on ordered trees, and the trees the AVL loop is run on -/

theorem cachedHeight_subtreeAt {t : Tree} (h : HeightInv t) (q : Path) :
    cachedHeight (subtreeAt t q) = height (subtreeAt t q) :=
  cachedHeight_eq_height (heightInv_subtreeAt h q)

/-- On a tree that is ordered, under BST or AVL, `remove` of a stored identifier of
`[MINID, MAXID]` returns, given enough fuel; the identifier is then no longer stored, the
in-order sequence of entries is the old one without the entry of that identifier, and the
tree is ordered. -/
theorem remove_of_stored (MINID MAXID : Int) (f : Fleet) (id : Int)
    (ht : f.m_type = BST ∨ f.m_type = AVL) (hb : BSTOrder f.m_root)
    (hm : id ∈ ids f.m_root) (hr : MINID ≤ id ∧ id ≤ MAXID) :
    ∃ n g, (∀ fuel, n ≤ fuel → Fleet.remove MINID MAXID fuel f id = some g) ∧
      id ∉ ids g.m_root ∧
      inorder g.m_root = (inorder f.m_root).filter (fun x => decide (x.m_id ≠ id)) ∧
      BSTOrder g.m_root := by
  have hg : f.m_root ≠ nil ∧ f.m_type ≠ NONE ∧ f.m_type ≠ SPLAY := by
    refine ⟨?_, ?_, ?_⟩
    · intro h0
      rw [h0] at hm
      simp [ids, inorder] at hm
    · rcases ht with h | h <;> simp [h]
    · rcases ht with h | h <;> simp [h]
  have hr2 : ¬ (id < MINID ∨ id > MAXID) := by omega
  obtain ⟨t, hw, hio⟩ := removeWalk_of_mem hb hm
  have hio1 : inorder (updateHeights t) =
      (inorder f.m_root).filter (fun x => decide (x.m_id ≠ id)) := by
    rw [inorder_updateHeights, hio]
  have hb1 : BSTOrder (updateHeights t) :=
    (bstOrder_of_shape (shape_updateHeights t)).mpr
      (bstOrder_of_sublist (removeWalk_sublist hw) hb)
  have hnot : ∀ u : Tree,
      inorder u = (inorder f.m_root).filter (fun x => decide (x.m_id ≠ id)) →
      id ∉ ids u := by
    intro u hu
    simp only [ids, hu, List.mem_map, List.mem_filter, not_exists, not_and]
    rintro x ⟨_, hx⟩ rfl
    simp at hx
  by_cases hty : f.m_type = AVL
  · obtain ⟨n, u, hu, hio2, hbu, _, _⟩ := rotationAVL_spec hb1 (heightInv_updateHeights t)
    refine ⟨n, { f with m_root := u }, fun fuel hf => ?_, hnot u (hio2.trans hio1),
      hio2.trans hio1, hbu⟩
    rw [remove_of_walk_some hg hr2 hw, if_pos hty, hu fuel hf, Option.map_some']
  · refine ⟨0, { f with m_root := updateHeights t }, fun fuel _ => ?_, hnot _ hio1, hio1, hb1⟩
    rw [remove_of_walk_some hg hr2 hw, if_neg hty]

/-- Under BST, in an ordered tree, `remove` of the identifier of a node with two children
that lies in `[MINID, MAXID]` changes the tree only at the position of that node, where it
puts the in-order predecessor or successor as the cached heights of the two subtrees
direct. -/
theorem remove_of_two_children (MINID MAXID : Int) (fuel : Nat) (f : Fleet) (p : Path)
    (l r : Tree) (x : Ship) (c : Int)
    (ht : f.m_type = BST) (hb : BSTOrder f.m_root)
    (hs : subtreeAt f.m_root p = node l x c r) (hl : l ≠ nil) (hr : r ≠ nil)
    (hrange : MINID ≤ x.m_id ∧ x.m_id ≤ MAXID) :
    ∃ g y, Fleet.remove MINID MAXID fuel f x.m_id = some g ∧ g.m_type = BST ∧
      if cachedHeight l < cachedHeight r then
        rightmost l = some y ∧ (inorder l).getLast? = some y ∧
          shape (subtreeAt g.m_root p) = Shape.node (shape (spliceRightmost l)) y (shape r) ∧
          shape g.m_root = shape (replaceAt (node (spliceRightmost l) y c r) f.m_root p)
      else
        leftmost r = some y ∧ (inorder r).head? = some y ∧
          shape (subtreeAt g.m_root p) = Shape.node (shape l) y (shape (spliceLeftmost r)) ∧
          shape g.m_root = shape (replaceAt (node l y c (spliceLeftmost r)) f.m_root p) := by
  have hg : f.m_root ≠ nil ∧ f.m_type ≠ NONE ∧ f.m_type ≠ SPLAY := by
    refine ⟨?_, by simp [ht], by simp [ht]⟩
    intro h0
    rw [h0] at hs
    cases p <;> simp [subtreeAt] at hs
  have hr2 : ¬ (x.m_id < MINID ∨ x.m_id > MAXID) := by omega
  have hw := removeWalk_at hb hs
  have hres : Fleet.remove MINID MAXID fuel f x.m_id =
      some { f with m_root := updateHeights (replaceAt (removeNode (node l x c r)) f.m_root p) } := by
    rw [remove_of_walk_some hg hr2 hw, if_neg (by simp [ht])]
  have hsub : shape (subtreeAt (updateHeights
      (replaceAt (removeNode (node l x c r)) f.m_root p)) p) =
      shape (removeNode (node l x c r)) := by
    rw [subtreeAt_updateHeights, shape_updateHeights, subtreeAt_replaceAt hs]
  by_cases hlt : cachedHeight l < cachedHeight r
  · obtain ⟨y, cy, e1, e2⟩ := removeNode_pred (x := x) (c := c) hl hr hlt
    refine ⟨_, y, hres, ht, ?_⟩
    rw [if_pos hlt]
    refine ⟨e1, (rightmost_eq_getLast l).symm.trans e1, ?_, ?_⟩
    · rw [hsub, e2]
      simp [shape]
    · rw [shape_updateHeights, e2]
      exact shape_replaceAt (by simp [shape]) _ _
  · obtain ⟨y, cy, e1, e2⟩ := removeNode_succ (x := x) (c := c) hl hr hlt
    refine ⟨_, y, hres, ht, ?_⟩
    rw [if_neg hlt]
    refine ⟨e1, (leftmost_eq_head r).symm.trans e1, ?_, ?_⟩
    · rw [hsub, e2]
      simp [shape]
    · rw [shape_updateHeights, e2]
      exact shape_replaceAt (by simp [shape]) _ _

/-- In an ordered tree, the four shapes of a pass of `rotationAVL` at the node at `p`, as
the cached heights select them, and the in-order sequence after the pass. -/
theorem rotationAVLPass_shapes (t : Tree) (p : Path) (l r : Tree) (s : Ship) (h : Int)
    (hb : BSTOrder t) (hs : subtreeAt t p = node l s h r) :
    (∀ ll ls lh lrl lrs lrh lrr, l = node ll ls lh (node lrl lrs lrh lrr) →
      cachedHeight l - cachedHeight r > 1 →
      cachedHeight (node lrl lrs lrh lrr) > cachedHeight ll →
      rotationAVLPass t p =
          some (replaceAt (node (node ll ls lh lrl) lrs lrh (node lrr s h r)) t p) ∧
        inorder (replaceAt (node (node ll ls lh lrl) lrs lrh (node lrr s h r)) t p) =
          inorder t) ∧
    (∀ ll ls lh lr, l = node ll ls lh lr → cachedHeight l - cachedHeight r > 1 →
      (lr = nil ∨ ¬ cachedHeight lr > cachedHeight ll) →
      rotationAVLPass t p = some (replaceAt (node ll ls lh (node lr s h r)) t p) ∧
        inorder (replaceAt (node ll ls lh (node lr s h r)) t p) = inorder t) ∧
    (∀ rll rls rlh rlr rs rh rr, r = node (node rll rls rlh rlr) rs rh rr →
      cachedHeight l - cachedHeight r < -1 →
      cachedHeight (node rll rls rlh rlr) > cachedHeight rr →
      rotationAVLPass t p =
          some (replaceAt (node (node l s h rll) rls rlh (node rlr rs rh rr)) t p) ∧
        inorder (replaceAt (node (node l s h rll) rls rlh (node rlr rs rh rr)) t p) =
          inorder t) ∧
    (∀ rl rs rh rr, r = node rl rs rh rr → cachedHeight l - cachedHeight r < -1 →
      (rl = nil ∨ ¬ cachedHeight rl > cachedHeight rr) →
      rotationAVLPass t p = some (replaceAt (node (node l s h rl) rs rh rr) t p) ∧
        inorder (replaceAt (node (node l s h rl) rs rh rr) t p) = inorder t) ∧
    (HeightInv t → ∀ q : Path, cachedHeight (subtreeAt t q) = height (subtreeAt t q)) := by
  have himL : cachedHeight l - cachedHeight r > 1 → isImbalanced (node l s h r) = true := by
    intro h1
    simp only [isImbalanced, decide_eq_true_eq]
    omega
  have himR : cachedHeight l - cachedHeight r < -1 → isImbalanced (node l s h r) = true := by
    intro h1
    simp only [isImbalanced, decide_eq_true_eq]
    omega
  refine ⟨?_, ?_, ?_, ?_, fun hh q => cachedHeight_subtreeAt hh q⟩
  · intro ll ls lh lrl lrs lrh lrr e hbf hgt
    have h2 : lrh > cachedHeight ll := hgt
    refine ⟨?_, replaceAt_inorder hs (by subst e; simp [inorder])⟩
    rw [rotationAVLPass_eq hb hs (himL hbf)]
    simp only [rotateAtNode, if_pos hbf]
    rw [e, rotateLeftHeavy_double h2]
    rfl
  · intro ll ls lh lr e hbf hc
    refine ⟨?_, replaceAt_inorder hs (by subst e; simp [inorder])⟩
    rw [rotationAVLPass_eq hb hs (himL hbf)]
    simp only [rotateAtNode, if_pos hbf]
    rw [e, rotateLeftHeavy_single hc]
    rfl
  · intro rll rls rlh rlr rs rh rr e hbf hgt
    have h2 : rlh > cachedHeight rr := hgt
    have h3 : ¬ cachedHeight l - cachedHeight r > 1 := by omega
    refine ⟨?_, replaceAt_inorder hs (by subst e; simp [inorder])⟩
    rw [rotationAVLPass_eq hb hs (himR hbf)]
    simp only [rotateAtNode, if_neg h3, if_pos hbf]
    rw [e, rotateRightHeavy_double h2]
    rfl
  · intro rl rs rh rr e hbf hc
    have h3 : ¬ cachedHeight l - cachedHeight r > 1 := by omega
    refine ⟨?_, replaceAt_inorder hs (by subst e; simp [inorder])⟩
    rw [rotationAVLPass_eq hb hs (himR hbf)]
    simp only [rotateAtNode, if_neg h3, if_pos hbf]
    rw [e, rotateRightHeavy_single hc]
    rfl

/-- Every tree on which the loop runs a pass is ordered and has exact heights. -/
theorem passTree_inv {MINID MAXID : Int} {t : Tree} (h : PassTree MINID MAXID t) :
    BSTOrder t ∧ HeightInv t := by
  induction h with
  | setType hf => exact reachable_inv hf
  | @insert f t p ship hf hw =>
    exact ⟨(bstOrder_of_shape (shape_updateHeights t)).mpr
      ((insertWalk_some hw).2.2.2 (reachable_inv hf).1), heightInv_updateHeights t⟩
  | @remove f t id hf hw =>
    exact ⟨(bstOrder_of_shape (shape_updateHeights t)).mpr
      (bstOrder_of_sublist (removeWalk_sublist hw) (reachable_inv hf).1),
      heightInv_updateHeights t⟩
  | @pass t u p _ hi hp ih =>
    obtain ⟨v, hv, hio, _⟩ := rotationAVLPass_spec ih.1 ih.2 hi
    rw [hp] at hv
    obtain rfl := Option.some.inj hv
    exact ⟨(bstOrder_of_shape (shape_updateHeights u)).mpr (bstOrder_of_inorder hio.symm ih.1),
      heightInv_updateHeights u⟩


/-! ## The claims -/

/-- C1: for each of the types BST, AVL and SPLAY, a run of inserts of pairwise distinct
identifiers of `[MINID, MAXID]` on the empty container returns, given enough fuel, and the
tree it leaves satisfies the BST order invariant. -/
theorem insert_sequence_bstOrder (MINID MAXID : Int) (d : TREETYPE) (ships : List Ship)
    (_hd : d = BST ∨ d = AVL ∨ d = SPLAY)
    (_hnodup : (ships.map Ship.m_id).Nodup)
    (_hrange : ∀ s ∈ ships, MINID ≤ s.m_id ∧ s.m_id ≤ MAXID) :
    ∃ n g, (∀ fuel, n ≤ fuel → insertAll MINID MAXID fuel ⟨nil, d⟩ ships = some g) ∧
      BSTOrder g.m_root := by
  obtain ⟨n, g, h1, _, h2, _⟩ := insertAll_spec MINID MAXID ships ⟨nil, d⟩ trivial trivial
  exact ⟨n, g, h1, h2⟩

theorem insert_sequence_bstOrder_witness :
    ∃ n g, (∀ fuel, n ≤ fuel →
        insertAll 10000 99999 fuel ⟨nil, AVL⟩
          [⟨10003, 0, 0⟩, ⟨10002, 1, 0⟩, ⟨10001, 2, 1⟩] = some g) ∧
      BSTOrder g.m_root :=
  insert_sequence_bstOrder 10000 99999 AVL [⟨10003, 0, 0⟩, ⟨10002, 1, 0⟩, ⟨10001, 2, 1⟩]
    (by decide) (by decide) (by decide)

/-- C2: under AVL, after each call of a run of `insert` and `remove` calls on the empty
container (the first `k` calls of any run `ops`), the call has returned and every node has
subtrees whose heights differ by at most 1, the empty subtree having height -1; the cached
heights are these heights. -/
theorem avl_balanced_after_each_call (MINID MAXID : Int) (ops : List Op) (k : Nat) :
    ∃ n g, (∀ fuel, n ≤ fuel →
        runOps MINID MAXID fuel ⟨nil, AVL⟩ (ops.take k) = some g) ∧
      Balanced g.m_root ∧ HeightInv g.m_root := by
  obtain ⟨n, g, h1, _, _, h3, h2⟩ :=
    runOps_spec MINID MAXID (ops.take k) ⟨nil, AVL⟩ rfl trivial trivial trivial
  exact ⟨n, g, h1, h2, h3⟩

/-- C3: under SPLAY, on an ordered tree, the insert of an entry with an identifier of
`[MINID, MAXID]` that is not stored returns a tree whose root carries that entry. -/
theorem splay_insert_root (MINID MAXID : Int) (fuel : Nat) (f : Fleet) (ship : Ship)
    (ht : f.m_type = SPLAY) (_hb : BSTOrder f.m_root)
    (hr : MINID ≤ ship.m_id ∧ ship.m_id ≤ MAXID) (hn : ship.m_id ∉ ids f.m_root) :
    ∃ l c r, Fleet.insert MINID MAXID fuel f ship = some ⟨node l ship c r, SPLAY⟩ := by
  have hg : ¬ (f.m_type = NONE ∨ ship.m_id < MINID ∨ ship.m_id > MAXID) := by
    rw [ht]
    simp only [reduceCtorEq, false_or]
    omega
  cases hw : insertWalk ship f.m_root with
  | none => exact absurd (insertWalk_none hw) hn
  | some q =>
    obtain ⟨t, p⟩ := q
    obtain ⟨a, c, b, e1, _, _⟩ := splay_after_insertWalk hw
    refine ⟨a, c, b, ?_⟩
    rw [insert_of_walk_some hg hw]
    simp only [ht, e1, Option.map_some']

theorem splay_insert_root_witness :
    ∃ l c r, Fleet.insert 10000 99999 0
        ⟨node (node nil ⟨10010, 0, 0⟩ 0 nil) ⟨10020, 0, 0⟩ 1 nil, SPLAY⟩ ⟨10015, 3, 1⟩ =
      some ⟨node l ⟨10015, 3, 1⟩ c r, SPLAY⟩ :=
  splay_insert_root 10000 99999 0
    ⟨node (node nil ⟨10010, 0, 0⟩ 0 nil) ⟨10020, 0, 0⟩ 1 nil, SPLAY⟩ ⟨10015, 3, 1⟩ rfl
    (by decide) (by decide) (by decide)

/-- C4: in every container state reached from an empty container by `insert`, `remove`,
`setType`, `clear` and assignment, every cached height is one more than the larger of the
heights of the two subtrees, the empty subtree counting as -1; so every leaf has cached
height 0. -/
theorem reachable_heightInv (MINID MAXID : Int) (f : Fleet) (h : Reachable MINID MAXID f) :
    HeightInv f.m_root ∧
      ∀ (p : Path) (s : Ship) (c : Int), subtreeAt f.m_root p = node nil s c nil → c = 0 := by
  have hh := (reachable_inv h).2
  refine ⟨hh, fun p s c hs => ?_⟩
  have := heightInv_subtreeAt hh p
  rw [hs] at this
  simpa [height] using this.1

theorem reachable_heightInv_witness :
    HeightInv (node (node nil ⟨10001, 0, 0⟩ 0 nil) ⟨10002, 1, 0⟩ 1
        (node nil ⟨10003, 2, 1⟩ 0 nil)) ∧
      ∀ (p : Path) (s : Ship) (c : Int),
        subtreeAt (node (node nil ⟨10001, 0, 0⟩ 0 nil) ⟨10002, 1, 0⟩ 1
          (node nil ⟨10003, 2, 1⟩ 0 nil)) p = node nil s c nil → c = 0 :=
  reachable_heightInv 10000 99999
    ⟨node (node nil ⟨10001, 0, 0⟩ 0 nil) ⟨10002, 1, 0⟩ 1 (node nil ⟨10003, 2, 1⟩ 0 nil), AVL⟩
    (Reachable.insert 5 ⟨10003, 2, 1⟩
      (Reachable.insert 5 ⟨10002, 1, 0⟩
        (Reachable.insert 5 ⟨10001, 0, 0⟩ (Reachable.create AVL) rfl) rfl) rfl)

/-- C5: for every container with type BST or AVL that the public operations produce (its
tree then satisfies the BST order and height invariants), and every identifier stored in
it, `remove` returns, given enough fuel; the identifier is then no longer stored, the
in-order sequence of entries is the old one with the entry of that identifier erased, every
other entry keeping its category and status, and the tree is ordered. -/
theorem remove_stored (MINID MAXID : Int) (f : Fleet) (id : Int)
    (hf : Reachable MINID MAXID f) (ht : f.m_type = BST ∨ f.m_type = AVL)
    (hm : id ∈ ids f.m_root) :
    BSTOrder f.m_root ∧ HeightInv f.m_root ∧
    ∃ n g, (∀ fuel, n ≤ fuel → Fleet.remove MINID MAXID fuel f id = some g) ∧
      id ∉ ids g.m_root ∧
      inorder g.m_root = (inorder f.m_root).filter (fun x => decide (x.m_id ≠ id)) ∧
      BSTOrder g.m_root := by
  have hinv := reachable_inv hf
  have hr : MINID ≤ id ∧ id ≤ MAXID := by
    simp only [ids, List.mem_map] at hm
    obtain ⟨x, hx, rfl⟩ := hm
    exact reachable_range hf x hx
  exact ⟨hinv.1, hinv.2, remove_of_stored MINID MAXID f id ht hinv.1 hm hr⟩

theorem remove_stored_witness :
    BSTOrder (node (node nil ⟨10001, 0, 0⟩ 0 nil) ⟨10002, 1, 0⟩ 1
        (node nil ⟨10003, 2, 1⟩ 0 nil)) ∧
    HeightInv (node (node nil ⟨10001, 0, 0⟩ 0 nil) ⟨10002, 1, 0⟩ 1
        (node nil ⟨10003, 2, 1⟩ 0 nil)) ∧
    ∃ n g, (∀ fuel, n ≤ fuel →
        Fleet.remove 10000 99999 fuel
          ⟨node (node nil ⟨10001, 0, 0⟩ 0 nil) ⟨10002, 1, 0⟩ 1 (node nil ⟨10003, 2, 1⟩ 0 nil),
            AVL⟩ 10002 = some g) ∧
      (10002 : Int) ∉ ids g.m_root ∧
      inorder g.m_root =
        (inorder (node (node nil ⟨10001, 0, 0⟩ 0 nil) ⟨10002, 1, 0⟩ 1
          (node nil ⟨10003, 2, 1⟩ 0 nil))).filter (fun x => decide (x.m_id ≠ 10002)) ∧
      BSTOrder g.m_root :=
  remove_stored 10000 99999
    ⟨node (node nil ⟨10001, 0, 0⟩ 0 nil) ⟨10002, 1, 0⟩ 1 (node nil ⟨10003, 2, 1⟩ 0 nil), AVL⟩
    10002
    (Reachable.insert 5 ⟨10003, 2, 1⟩
      (Reachable.insert 5 ⟨10002, 1, 0⟩
        (Reachable.insert 5 ⟨10001, 0, 0⟩ (Reachable.create AVL) rfl) rfl) rfl)
    (by decide) (by decide)

/-- C6: for every container of type BST that the public operations produce and every
stored node X with two children, `remove(X.id)` returns a tree that differs from the old
one only at the position of X, where it holds the in-order predecessor of X, the rightmost
entry of the left subtree of X, when the cached height of that subtree is strictly less
than that of the right subtree, and otherwise the in-order successor, the leftmost entry of
the right subtree; the children of the replacement are the former subtrees of X with the
replacement spliced out. -/
theorem remove_two_children (MINID MAXID : Int) (fuel : Nat) (f : Fleet) (p : Path)
    (l r : Tree) (x : Ship) (c : Int)
    (hf : Reachable MINID MAXID f) (ht : f.m_type = BST)
    (hs : subtreeAt f.m_root p = node l x c r) (hl : l ≠ nil) (hr : r ≠ nil) :
    ∃ g y, Fleet.remove MINID MAXID fuel f x.m_id = some g ∧ g.m_type = BST ∧
      if cachedHeight l < cachedHeight r then
        rightmost l = some y ∧ (inorder l).getLast? = some y ∧
          shape (subtreeAt g.m_root p) = Shape.node (shape (spliceRightmost l)) y (shape r) ∧
          shape g.m_root = shape (replaceAt (node (spliceRightmost l) y c r) f.m_root p)
      else
        leftmost r = some y ∧ (inorder r).head? = some y ∧
          shape (subtreeAt g.m_root p) = Shape.node (shape l) y (shape (spliceLeftmost r)) ∧
          shape g.m_root = shape (replaceAt (node l y c (spliceLeftmost r)) f.m_root p) := by
  have hx : x ∈ inorder f.m_root := mem_inorder_of_subtreeAt hs
  exact remove_of_two_children MINID MAXID fuel f p l r x c ht (reachable_inv hf).1 hs hl hr
    (reachable_range hf x hx)

theorem remove_two_children_witness :
    ∃ g y, Fleet.remove 10000 99999 0
        ⟨node (node nil ⟨10010, 0, 0⟩ 0 nil) ⟨10020, 1, 0⟩ 2
          (node (node nil ⟨10025, 3, 0⟩ 0 nil) ⟨10030, 2, 1⟩ 1 nil), BST⟩
        (⟨10020, 1, 0⟩ : Ship).m_id = some g ∧ g.m_type = BST ∧
      if cachedHeight (node nil ⟨10010, 0, 0⟩ 0 nil) <
          cachedHeight (node (node nil ⟨10025, 3, 0⟩ 0 nil) ⟨10030, 2, 1⟩ 1 nil) then
        rightmost (node nil ⟨10010, 0, 0⟩ 0 nil) = some y ∧
          (inorder (node nil ⟨10010, 0, 0⟩ 0 nil)).getLast? = some y ∧
          shape (subtreeAt g.m_root []) =
            Shape.node (shape (spliceRightmost (node nil ⟨10010, 0, 0⟩ 0 nil))) y
              (shape (node (node nil ⟨10025, 3, 0⟩ 0 nil) ⟨10030, 2, 1⟩ 1 nil)) ∧
          shape g.m_root =
            shape (replaceAt
              (node (spliceRightmost (node nil ⟨10010, 0, 0⟩ 0 nil)) y 2
                (node (node nil ⟨10025, 3, 0⟩ 0 nil) ⟨10030, 2, 1⟩ 1 nil))
              (node (node nil ⟨10010, 0, 0⟩ 0 nil) ⟨10020, 1, 0⟩ 2
                (node (node nil ⟨10025, 3, 0⟩ 0 nil) ⟨10030, 2, 1⟩ 1 nil)) [])
      else
        leftmost (node (node nil ⟨10025, 3, 0⟩ 0 nil) ⟨10030, 2, 1⟩ 1 nil) = some y ∧
          (inorder (node (node nil ⟨10025, 3, 0⟩ 0 nil) ⟨10030, 2, 1⟩ 1 nil)).head? = some y ∧
          shape (subtreeAt g.m_root []) =
            Shape.node (shape (node nil ⟨10010, 0, 0⟩ 0 nil)) y
              (shape (spliceLeftmost
                (node (node nil ⟨10025, 3, 0⟩ 0 nil) ⟨10030, 2, 1⟩ 1 nil))) ∧
          shape g.m_root =
            shape (replaceAt
              (node (node nil ⟨10010, 0, 0⟩ 0 nil) y 2
                (spliceLeftmost (node (node nil ⟨10025, 3, 0⟩ 0 nil) ⟨10030, 2, 1⟩ 1 nil)))
              (node (node nil ⟨10010, 0, 0⟩ 0 nil) ⟨10020, 1, 0⟩ 2
                (node (node nil ⟨10025, 3, 0⟩ 0 nil) ⟨10030, 2, 1⟩ 1 nil)) []) :=
  remove_two_children 10000 99999 0
    ⟨node (node nil ⟨10010, 0, 0⟩ 0 nil) ⟨10020, 1, 0⟩ 2
      (node (node nil ⟨10025, 3, 0⟩ 0 nil) ⟨10030, 2, 1⟩ 1 nil), BST⟩ []
    (node nil ⟨10010, 0, 0⟩ 0 nil) (node (node nil ⟨10025, 3, 0⟩ 0 nil) ⟨10030, 2, 1⟩ 1 nil)
    ⟨10020, 1, 0⟩ 2
    (Reachable.insert 0 ⟨10025, 3, 0⟩
      (Reachable.insert 0 ⟨10030, 2, 1⟩
        (Reachable.insert 0 ⟨10010, 0, 0⟩
          (Reachable.insert 0 ⟨10020, 1, 0⟩ (Reachable.create BST) rfl) rfl) rfl) rfl)
    rfl rfl (by simp) (by simp)

/-- C7: on a tree that is ordered and has exact heights, however unbalanced, `setType(AVL)`
returns, given enough fuel; the type is then AVL, every node is balanced, the tree is
ordered and the in-order sequence of entries is the one before the call. -/
theorem setType_AVL_rebalances (f : Fleet) (hb : BSTOrder f.m_root)
    (hh : HeightInv f.m_root) :
    ∃ n g, (∀ fuel, n ≤ fuel → Fleet.setType fuel f AVL = some g) ∧
      g.getType = AVL ∧ Balanced g.m_root ∧ BSTOrder g.m_root ∧
      inorder g.m_root = inorder f.m_root := by
  obtain ⟨n, g, h1, h2, h3, _, h5⟩ := setType_spec f AVL hb hh
  exact ⟨n, g, h1, h2, (h5 rfl).1, h3, (h5 rfl).2⟩

theorem setType_AVL_rebalances_witness :
    ∃ n g, (∀ fuel, n ≤ fuel →
        Fleet.setType fuel
          ⟨node nil ⟨1, 0, 0⟩ 2 (node nil ⟨2, 0, 0⟩ 1 (node nil ⟨3, 0, 0⟩ 0 nil)), BST⟩ AVL =
          some g) ∧
      g.getType = AVL ∧ Balanced g.m_root ∧ BSTOrder g.m_root ∧
      inorder g.m_root =
        inorder (node nil ⟨1, 0, 0⟩ 2 (node nil ⟨2, 0, 0⟩ 1 (node nil ⟨3, 0, 0⟩ 0 nil))) :=
  setType_AVL_rebalances
    ⟨node nil ⟨1, 0, 0⟩ 2 (node nil ⟨2, 0, 0⟩ 1 (node nil ⟨3, 0, 0⟩ 0 nil)), BST⟩
    (by decide) (by decide)

/-- C8: assignment gives the destination, whatever it held, the type of the source and a
tree of the same shape with the same identifier, category and status at each position;
the cached heights of the copy are exact, and an empty source gives an empty
destination. -/
theorem assign_copies (aliased : Bool) (dst src : Fleet) (ha : aliased = true → dst = src) :
    (Fleet.assign aliased dst src).m_type = src.m_type ∧
      shape (Fleet.assign aliased dst src).m_root = shape src.m_root ∧
      HeightInv (Fleet.assign aliased dst src).m_root ∧
      (src.m_root = nil → (Fleet.assign aliased dst src).m_root = nil) := by
  obtain ⟨h1, h2, h3⟩ := assign_spec aliased dst src ha
  refine ⟨h1, h2, h3, fun hn => ?_⟩
  rw [hn] at h2
  cases hr : (Fleet.assign aliased dst src).m_root with
  | nil => rfl
  | node l s c r => rw [hr] at h2; simp [shape] at h2

theorem assign_copies_witness :
    (Fleet.assign false ⟨node nil ⟨7, 0, 0⟩ 0 nil, AVL⟩
        ⟨node nil ⟨1, 2, 1⟩ 9 (node nil ⟨2, 0, 0⟩ 9 nil), BST⟩).m_type = BST ∧
      shape (Fleet.assign false ⟨node nil ⟨7, 0, 0⟩ 0 nil, AVL⟩
        ⟨node nil ⟨1, 2, 1⟩ 9 (node nil ⟨2, 0, 0⟩ 9 nil), BST⟩).m_root =
        shape (node nil ⟨1, 2, 1⟩ 9 (node nil ⟨2, 0, 0⟩ 9 nil)) ∧
      HeightInv (Fleet.assign false ⟨node nil ⟨7, 0, 0⟩ 0 nil, AVL⟩
        ⟨node nil ⟨1, 2, 1⟩ 9 (node nil ⟨2, 0, 0⟩ 9 nil), BST⟩).m_root ∧
      ((node nil ⟨1, 2, 1⟩ 9 (node nil ⟨2, 0, 0⟩ 9 nil) : Tree) = nil →
        (Fleet.assign false ⟨node nil ⟨7, 0, 0⟩ 0 nil, AVL⟩
          ⟨node nil ⟨1, 2, 1⟩ 9 (node nil ⟨2, 0, 0⟩ 9 nil), BST⟩).m_root = nil) :=
  assign_copies false ⟨node nil ⟨7, 0, 0⟩ 0 nil, AVL⟩
    ⟨node nil ⟨1, 2, 1⟩ 9 (node nil ⟨2, 0, 0⟩ 9 nil), BST⟩ (by decide)

/-- C9: whatever the type, on an ordered tree the insert of an entry whose identifier is
stored returns the container unchanged: same tree (shape, entries, cached heights), same
type. -/
theorem insert_duplicate_unchanged (MINID MAXID : Int) (fuel : Nat) (f : Fleet) (ship : Ship)
    (hb : BSTOrder f.m_root) (hm : ship.m_id ∈ ids f.m_root) :
    Fleet.insert MINID MAXID fuel f ship = some f :=
  insert_of_walk_none (insertWalk_of_mem hb hm)

theorem insert_duplicate_unchanged_witness :
    Fleet.insert 10000 99999 0
        ⟨node (node nil ⟨10010, 0, 0⟩ 0 nil) ⟨10020, 0, 0⟩ 1 nil, SPLAY⟩ ⟨10010, 4, 1⟩ =
      some ⟨node (node nil ⟨10010, 0, 0⟩ 0 nil) ⟨10020, 0, 0⟩ 1 nil, SPLAY⟩ :=
  insert_duplicate_unchanged 10000 99999 0
    ⟨node (node nil ⟨10010, 0, 0⟩ 0 nil) ⟨10020, 0, 0⟩ 1 nil, SPLAY⟩ ⟨10010, 4, 1⟩
    (by decide) (by decide)

/-- C10: for an identifier below `MINID` or above `MAXID`, `insert` of an entry with that
identifier and `remove` of that identifier both return the container unchanged, tree and
type. -/
theorem out_of_range_noop (MINID MAXID : Int) (fuel : Nat) (f : Fleet) (id : Int)
    (type : SHIPTYPE) (state : STATE) (h : id < MINID ∨ id > MAXID) :
    Fleet.insert MINID MAXID fuel f ⟨id, type, state⟩ = some f ∧
      Fleet.remove MINID MAXID fuel f id = some f :=
  ⟨insert_of_guard (Or.inr h), remove_of_guard (Or.inr h)⟩

theorem out_of_range_noop_witness :
    Fleet.insert 10000 99999 3 ⟨node nil ⟨10010, 0, 0⟩ 0 nil, AVL⟩ ⟨100000, 1, 1⟩ =
        some ⟨node nil ⟨10010, 0, 0⟩ 0 nil, AVL⟩ ∧
      Fleet.remove 10000 99999 3 ⟨node nil ⟨10010, 0, 0⟩ 0 nil, AVL⟩ 100000 =
        some ⟨node nil ⟨10010, 0, 0⟩ 0 nil, AVL⟩ :=
  out_of_range_noop 10000 99999 3 ⟨node nil ⟨10010, 0, 0⟩ 0 nil, AVL⟩ 100000 1 1 (by decide)

/-- C11: under SPLAY, `remove` of any identifier, stored or not, returns the container
unchanged. -/
theorem splay_remove_noop (MINID MAXID : Int) (fuel : Nat) (f : Fleet) (id : Int)
    (ht : f.m_type = SPLAY) : Fleet.remove MINID MAXID fuel f id = some f :=
  remove_of_guard (Or.inl (fun h => h.2.2 ht))

theorem splay_remove_noop_witness :
    Fleet.remove 10000 99999 0
        ⟨node (node nil ⟨10010, 0, 0⟩ 0 nil) ⟨10020, 0, 0⟩ 1 nil, SPLAY⟩ 10010 =
      some ⟨node (node nil ⟨10010, 0, 0⟩ 0 nil) ⟨10020, 0, 0⟩ 1 nil, SPLAY⟩ :=
  splay_remove_noop 10000 99999 0
    ⟨node (node nil ⟨10010, 0, 0⟩ 0 nil) ⟨10020, 0, 0⟩ 1 nil, SPLAY⟩ 10010 rfl

/-- C12: under BST or AVL, on a non-empty ordered tree, `remove` of an identifier of
`[MINID, MAXID]` that is not stored returns the container unchanged: same shape, same
entries, same cached heights, and under AVL no rotation. -/
theorem remove_absent_unchanged (MINID MAXID : Int) (fuel : Nat) (f : Fleet) (id : Int)
    (_hne : f.m_root ≠ nil) (_ht : f.m_type = BST ∨ f.m_type = AVL)
    (_hb : BSTOrder f.m_root) (_hr : MINID ≤ id ∧ id ≤ MAXID) (hn : id ∉ ids f.m_root) :
    Fleet.remove MINID MAXID fuel f id = some f :=
  remove_of_walk_none (removeWalk_of_not_mem hn)

theorem remove_absent_unchanged_witness :
    Fleet.remove 10000 99999 0
        ⟨node nil ⟨10010, 0, 0⟩ 2 (node nil ⟨10020, 0, 0⟩ 1 (node nil ⟨10030, 0, 0⟩ 0 nil)),
          AVL⟩ 10025 =
      some ⟨node nil ⟨10010, 0, 0⟩ 2 (node nil ⟨10020, 0, 0⟩ 1 (node nil ⟨10030, 0, 0⟩ 0 nil)),
        AVL⟩ :=
  remove_absent_unchanged 10000 99999 0
    ⟨node nil ⟨10010, 0, 0⟩ 2 (node nil ⟨10020, 0, 0⟩ 1 (node nil ⟨10030, 0, 0⟩ 0 nil)), AVL⟩
    10025 (by decide) (by decide) (by decide) (by decide) (by decide)

/-- C13: under NONE `insert` of any entry returns the container unchanged; `setType(NONE)`
returns a container of type NONE with no entries; and a container of type NONE that is
reached from a constructed container by `insert`, `remove`, `setType`, `clear` and
assignment is empty. -/
theorem none_container_empty (MINID MAXID : Int) (f : Fleet) :
    (f.m_type = NONE → ∀ (fuel : Nat) (ship : Ship),
        Fleet.insert MINID MAXID fuel f ship = some f) ∧
      (∀ fuel : Nat, ∃ g, Fleet.setType fuel f NONE = some g ∧ g.getType = NONE ∧
        g.m_root = nil ∧ inorder g.m_root = []) ∧
      (Reachable MINID MAXID f → f.m_type = NONE → f.m_root = nil) := by
  refine ⟨fun ht fuel ship => insert_of_guard (Or.inl ht), fun fuel => ?_, reachable_none⟩
  exact ⟨⟨nil, NONE⟩, by simp [Fleet.setType, Fleet.clear], rfl, rfl, rfl⟩

theorem none_container_empty_witness :
    (∀ (fuel : Nat) (ship : Ship),
        Fleet.insert 10000 99999 fuel ⟨nil, NONE⟩ ship = some ⟨nil, NONE⟩) ∧
      (∀ fuel : Nat, ∃ g, Fleet.setType fuel ⟨nil, NONE⟩ NONE = some g ∧ g.getType = NONE ∧
        g.m_root = nil ∧ inorder g.m_root = []) ∧
      (⟨nil, NONE⟩ : Fleet).m_root = nil :=
  ⟨(none_container_empty 10000 99999 ⟨nil, NONE⟩).1 rfl,
    (none_container_empty 10000 99999 ⟨nil, NONE⟩).2.1,
    (none_container_empty 10000 99999 ⟨nil, NONE⟩).2.2
      (Reachable.setType 0 NONE
        (Reachable.insert 0 ⟨10001, 0, 0⟩ (Reachable.create BST) rfl) rfl) rfl⟩

/-- C14: for a target type BST or SPLAY, `setType` returns the container with the same
tree (shape, entries, cached heights) and the target type, which `getType` then
returns. -/
theorem setType_BST_SPLAY_frame (fuel : Nat) (f : Fleet) (d : TREETYPE)
    (hd : d = BST ∨ d = SPLAY) :
    Fleet.setType fuel f d = some ⟨f.m_root, d⟩ ∧ (⟨f.m_root, d⟩ : Fleet).getType = d := by
  rcases hd with rfl | rfl <;> exact ⟨by simp [Fleet.setType], rfl⟩

theorem setType_BST_SPLAY_frame_witness :
    Fleet.setType 0
        ⟨node nil ⟨10010, 0, 0⟩ 7 (node nil ⟨10020, 0, 0⟩ 1 (node nil ⟨10030, 0, 0⟩ 0 nil)),
          AVL⟩ SPLAY =
      some ⟨node nil ⟨10010, 0, 0⟩ 7 (node nil ⟨10020, 0, 0⟩ 1 (node nil ⟨10030, 0, 0⟩ 0 nil)),
        SPLAY⟩ ∧
      (⟨node nil ⟨10010, 0, 0⟩ 7 (node nil ⟨10020, 0, 0⟩ 1 (node nil ⟨10030, 0, 0⟩ 0 nil)),
        SPLAY⟩ : Fleet).getType = SPLAY :=
  setType_BST_SPLAY_frame 0
    ⟨node nil ⟨10010, 0, 0⟩ 7 (node nil ⟨10020, 0, 0⟩ 1 (node nil ⟨10030, 0, 0⟩ 0 nil)), AVL⟩
    SPLAY (by decide)

/-- C15: `clear` gives a container with no entries and the type it had before the call. -/
theorem clear_empties (f : Fleet) :
    f.clear.m_root = nil ∧ inorder f.clear.m_root = [] ∧ f.clear.getType = f.getType :=
  ⟨rfl, rfl, rfl⟩

/-- C16: in every container state reached from an empty container by `insert`, `remove`,
`setType`, `clear` and assignment between such containers, every stored identifier lies in
`[MINID, MAXID]` and no two nodes carry the same identifier. -/
theorem reachable_range_unique (MINID MAXID : Int) (f : Fleet)
    (h : Reachable MINID MAXID f) :
    (∀ id ∈ ids f.m_root, MINID ≤ id ∧ id ≤ MAXID) ∧ (ids f.m_root).Nodup := by
  constructor
  · intro id hid
    obtain ⟨x, hx, rfl⟩ := List.mem_map.mp hid
    exact reachable_range h x hx
  · have hb := (bstOrder_iff_pairwise f.m_root).mp (reachable_inv h).1
    exact hb.imp (fun hab => ne_of_lt hab)

theorem reachable_range_unique_witness :
    (∀ id ∈ ids (node (node nil ⟨10001, 0, 0⟩ 0 nil) ⟨10002, 1, 0⟩ 1 nil),
        (10000 : Int) ≤ id ∧ id ≤ 99999) ∧
      (ids (node (node nil ⟨10001, 0, 0⟩ 0 nil) ⟨10002, 1, 0⟩ 1 nil)).Nodup :=
  reachable_range_unique 10000 99999
    ⟨node (node nil ⟨10001, 0, 0⟩ 0 nil) ⟨10002, 1, 0⟩ 1 nil, BST⟩
    (Reachable.insert 0 ⟨10001, 5, 5⟩
      (Reachable.insert 0 ⟨7, 3, 0⟩
        (Reachable.insert 0 ⟨10001, 0, 0⟩
          (Reachable.insert 0 ⟨10002, 1, 0⟩ (Reachable.create BST) rfl) rfl) rfl) rfl)

/-- C17: under BST, on an ordered tree, the insert of an entry with an identifier of
`[MINID, MAXID]` that is not stored returns the tree of the reference recursive insertion.
The new entry is a leaf at the empty position `p` where the descent by identifier ends
(left when the new identifier is smaller, right otherwise); every other node keeps its
position, its children and its entry; the heights are recomputed. -/
theorem bst_insert_reference (MINID MAXID : Int) (fuel : Nat) (f : Fleet) (ship : Ship)
    (ht : f.m_type = BST) (_hb : BSTOrder f.m_root)
    (hr : MINID ≤ ship.m_id ∧ ship.m_id ≤ MAXID) (hn : ship.m_id ∉ ids f.m_root) :
    ∃ g p, Fleet.insert MINID MAXID fuel f ship = some g ∧ g.m_type = BST ∧
      shape g.m_root = referenceInsert ship (shape f.m_root) ∧
      subtreeAt f.m_root p = nil ∧ Follows ship.m_id f.m_root p ∧
      shape g.m_root = shape (replaceAt (node nil ship 0 nil) f.m_root p) ∧
      HeightInv g.m_root := by
  have hg : ¬ (f.m_type = NONE ∨ ship.m_id < MINID ∨ ship.m_id > MAXID) := by
    rw [ht]
    simp only [reduceCtorEq, false_or]
    omega
  obtain ⟨u, p, hw, hs⟩ := insertWalk_reference hn
  obtain ⟨h1, h2, h3⟩ := insertWalk_replaceAt hw
  refine ⟨{ f with m_root := updateHeights u }, p, ?_, ht, ?_, h1, h2, ?_,
    heightInv_updateHeights u⟩
  · rw [insert_of_walk_some hg hw]
    simp only [ht]
  · exact (shape_updateHeights u).trans hs
  · rw [shape_updateHeights, h3]
    rfl

theorem bst_insert_reference_witness :
    ∃ g p, Fleet.insert 10000 99999 0
        ⟨node (node nil ⟨10010, 0, 0⟩ 0 nil) ⟨10020, 0, 0⟩ 1 nil, BST⟩ ⟨10015, 3, 1⟩ = some g ∧
      g.m_type = BST ∧
      shape g.m_root =
        referenceInsert ⟨10015, 3, 1⟩
          (shape (node (node nil ⟨10010, 0, 0⟩ 0 nil) ⟨10020, 0, 0⟩ 1 nil)) ∧
      subtreeAt (node (node nil ⟨10010, 0, 0⟩ 0 nil) ⟨10020, 0, 0⟩ 1 nil) p = nil ∧
      Follows 10015 (node (node nil ⟨10010, 0, 0⟩ 0 nil) ⟨10020, 0, 0⟩ 1 nil) p ∧
      shape g.m_root =
        shape (replaceAt (node nil ⟨10015, 3, 1⟩ 0 nil)
          (node (node nil ⟨10010, 0, 0⟩ 0 nil) ⟨10020, 0, 0⟩ 1 nil) p) ∧
      HeightInv g.m_root :=
  bst_insert_reference 10000 99999 0
    ⟨node (node nil ⟨10010, 0, 0⟩ 0 nil) ⟨10020, 0, 0⟩ 1 nil, BST⟩ ⟨10015, 3, 1⟩ rfl
    (by decide) (by decide) (by decide)

/-- C18: for an identifier of `[MINID, MAXID]`, `insert` of an entry with that identifier
into the empty container of type BST followed by `remove` of the identifier gives the empty
container. -/
theorem insert_then_remove_empty (MINID MAXID : Int) (fuel1 fuel2 : Nat) (id : Int)
    (type : SHIPTYPE) (state : STATE) (hr : MINID ≤ id ∧ id ≤ MAXID) :
    ∃ g, Fleet.insert MINID MAXID fuel1 ⟨nil, BST⟩ ⟨id, type, state⟩ = some g ∧
      g.m_root ≠ nil ∧ Fleet.remove MINID MAXID fuel2 g id = some ⟨nil, BST⟩ := by
  have hg : ¬ ((⟨nil, BST⟩ : Fleet).m_type = NONE ∨ (⟨id, type, state⟩ : Ship).m_id < MINID ∨
      (⟨id, type, state⟩ : Ship).m_id > MAXID) := by
    simp only [reduceCtorEq, false_or]
    omega
  have hw : insertWalk ⟨id, type, state⟩ (⟨nil, BST⟩ : Fleet).m_root =
      some (node nil ⟨id, type, state⟩ DEFAULT_HEIGHT nil, []) := rfl
  refine ⟨⟨updateHeights (node nil ⟨id, type, state⟩ DEFAULT_HEIGHT nil), BST⟩, ?_, ?_, ?_⟩
  · rw [insert_of_walk_some hg hw]
  · simp [updateHeights]
  · have hg2 : (⟨updateHeights (node nil ⟨id, type, state⟩ DEFAULT_HEIGHT nil), BST⟩ :
        Fleet).m_root ≠ nil ∧ (⟨updateHeights (node nil ⟨id, type, state⟩ DEFAULT_HEIGHT nil),
        BST⟩ : Fleet).m_type ≠ NONE ∧ (⟨updateHeights (node nil ⟨id, type, state⟩
        DEFAULT_HEIGHT nil), BST⟩ : Fleet).m_type ≠ SPLAY := by
      simp [updateHeights]
    have hr2 : ¬ (id < MINID ∨ id > MAXID) := by omega
    have hw2 : removeWalk id (⟨updateHeights (node nil ⟨id, type, state⟩ DEFAULT_HEIGHT nil),
        BST⟩ : Fleet).m_root = some nil := by
      simp [updateHeights, removeWalk, removeNode]
    rw [remove_of_walk_some hg2 hr2 hw2]
    simp [updateHeights]

theorem insert_then_remove_empty_witness :
    ∃ g, Fleet.insert 10000 99999 0 ⟨nil, BST⟩ ⟨10000, 2, 1⟩ = some g ∧
      g.m_root ≠ nil ∧ Fleet.remove 10000 99999 0 g 10000 = some ⟨nil, BST⟩ :=
  insert_then_remove_empty 10000 99999 0 0 10000 2 1 (by decide)

/-- C19: under AVL, with 50, 30, 70, 20, 40, 60, 80 inside `[MINID, MAXID]`, the inserts of
entries with these identifiers, in this order, into the empty container all return; after
each of them (the first `k` of the run) the tree is balanced with exact heights, and after
the seventh the identifiers in order are 20, 30, 40, 50, 60, 70, 80. -/
theorem avl_example_run (MINID MAXID : Int) (fuel : Nat) (c : Int → SHIPTYPE)
    (s : Int → STATE) (k : Nat) (hlo : MINID ≤ 20) (hhi : 80 ≤ MAXID) :
    ∃ g, insertAll MINID MAXID fuel ⟨nil, AVL⟩
        (([50, 30, 70, 20, 40, 60, 80].map fun i => (⟨i, c i, s i⟩ : Ship)).take k) = some g ∧
      Balanced g.m_root ∧ HeightInv g.m_root ∧
      (7 ≤ k → ids g.m_root = [20, 30, 40, 50, 60, 70, 80]) := by
  have hall : ∀ x ∈ ([50, 30, 70, 20, 40, 60, 80].map fun i => (⟨i, c i, s i⟩ : Ship)).take k,
      (MINID ≤ x.m_id ∧ x.m_id ≤ MAXID) ∧ ((20 : Int) ≤ x.m_id ∧ x.m_id ≤ 80) := by
    intro x hx
    have hx2 := List.mem_of_mem_take hx
    simp only [List.map_cons, List.map_nil, List.mem_cons, List.mem_singleton,
      List.not_mem_nil, or_false] at hx2
    rcases hx2 with rfl | rfl | rfl | rfl | rfl | rfl | rfl <;> simp <;> omega
  rw [insertAll_range_irrelevant _ _ (fun x hx => (hall x hx).1) (fun x hx => (hall x hx).2)]
  have key : ∃ g, insertAll 20 80 0 ⟨nil, AVL⟩
        (([50, 30, 70, 20, 40, 60, 80].map fun i => (⟨i, c i, s i⟩ : Ship)).take k) = some g ∧
      Balanced g.m_root ∧ HeightInv g.m_root ∧
      (7 ≤ k → ids g.m_root = [20, 30, 40, 50, 60, 70, 80]) := by
    rcases k with _ | _ | _ | _ | _ | _ | _ | k
    · exact ⟨_, rfl, of_decide_eq_true rfl, of_decide_eq_true rfl, fun h => by omega⟩
    · exact ⟨_, rfl, of_decide_eq_true rfl, of_decide_eq_true rfl, fun h => by omega⟩
    · exact ⟨_, rfl, of_decide_eq_true rfl, of_decide_eq_true rfl, fun h => by omega⟩
    · exact ⟨_, rfl, of_decide_eq_true rfl, of_decide_eq_true rfl, fun h => by omega⟩
    · exact ⟨_, rfl, of_decide_eq_true rfl, of_decide_eq_true rfl, fun h => by omega⟩
    · exact ⟨_, rfl, of_decide_eq_true rfl, of_decide_eq_true rfl, fun h => by omega⟩
    · exact ⟨_, rfl, of_decide_eq_true rfl, of_decide_eq_true rfl, fun h => by omega⟩
    · rw [List.take_of_length_le (by simp)]
      exact ⟨_, rfl, of_decide_eq_true rfl, of_decide_eq_true rfl, fun _ => rfl⟩
  obtain ⟨g, h1, h2⟩ := key
  exact ⟨g, insertAll_fuel_mono _ _ _ h1 fuel (Nat.zero_le _), h2⟩

theorem avl_example_run_witness :
    ∃ g, insertAll 1 100 3 ⟨nil, AVL⟩
        (([⟨50, 2, 1⟩, ⟨30, 2, 1⟩, ⟨70, 2, 1⟩, ⟨20, 2, 1⟩, ⟨40, 2, 1⟩, ⟨60, 2, 1⟩,
          ⟨80, 2, 1⟩] : List Ship).take 7) = some g ∧
      Balanced g.m_root ∧ HeightInv g.m_root ∧
      (7 ≤ 7 → ids g.m_root = [20, 30, 40, 50, 60, 70, 80]) :=
  avl_example_run 1 100 3 (fun _ => 2) (fun _ => 1) 7 (by decide) (by decide)

/-- C20: under SPLAY, with 5, 10 and 20 inside `[MINID, MAXID]`, the inserts of 10 and then
20 into the empty container give the root 20 with the leaf 10 as left child and no right
child; the insert of 5 then gives a tree whose root is 5. -/
theorem splay_example_run (MINID MAXID : Int) (fuel : Nat) (c : Int → SHIPTYPE)
    (s : Int → STATE) (hlo : MINID ≤ 5) (hhi : 20 ≤ MAXID) :
    ∃ g1 g2 g3 h20 l h5 r,
      Fleet.insert MINID MAXID fuel ⟨nil, SPLAY⟩ ⟨10, c 10, s 10⟩ = some g1 ∧
      Fleet.insert MINID MAXID fuel g1 ⟨20, c 20, s 20⟩ = some g2 ∧
      g2.m_root = node (node nil ⟨10, c 10, s 10⟩ 0 nil) ⟨20, c 20, s 20⟩ h20 nil ∧
      Fleet.insert MINID MAXID fuel g2 ⟨5, c 5, s 5⟩ = some g3 ∧
      g3.m_root = node l ⟨5, c 5, s 5⟩ h5 r := by
  have r10 : Fleet.insert MINID MAXID fuel ⟨nil, SPLAY⟩ ⟨10, c 10, s 10⟩ =
      Fleet.insert 5 20 fuel ⟨nil, SPLAY⟩ ⟨10, c 10, s 10⟩ :=
    insert_range_irrelevant ⟨by show MINID ≤ 10; omega, by show (10 : Int) ≤ MAXID; omega⟩
      ⟨by simp, by simp⟩
  have r20 : ∀ f, Fleet.insert MINID MAXID fuel f ⟨20, c 20, s 20⟩ =
      Fleet.insert 5 20 fuel f ⟨20, c 20, s 20⟩ := fun f =>
    insert_range_irrelevant ⟨by show MINID ≤ 20; omega, by show (20 : Int) ≤ MAXID; omega⟩
      ⟨by simp, by simp⟩
  have r5 : ∀ f, Fleet.insert MINID MAXID fuel f ⟨5, c 5, s 5⟩ =
      Fleet.insert 5 20 fuel f ⟨5, c 5, s 5⟩ := fun f =>
    insert_range_irrelevant ⟨by show MINID ≤ 5; omega, by show (5 : Int) ≤ MAXID; omega⟩
      ⟨by simp, by simp⟩
  refine ⟨⟨node nil ⟨10, c 10, s 10⟩ 0 nil, SPLAY⟩,
    ⟨node (node nil ⟨10, c 10, s 10⟩ 0 nil) ⟨20, c 20, s 20⟩ 1 nil, SPLAY⟩,
    ⟨node nil ⟨5, c 5, s 5⟩ 2 (node nil ⟨10, c 10, s 10⟩ 1
      (node nil ⟨20, c 20, s 20⟩ 0 nil)), SPLAY⟩, 1, nil, 2, _, ?_, ?_, rfl, ?_, rfl⟩
  · rw [r10]; rfl
  · rw [r20]; rfl
  · rw [r5]; rfl

theorem splay_example_run_witness :
    ∃ g1 g2 g3 h20 l h5 r,
      Fleet.insert 1 100 0 ⟨nil, SPLAY⟩ ⟨10, 2, 1⟩ = some g1 ∧
      Fleet.insert 1 100 0 g1 ⟨20, 2, 1⟩ = some g2 ∧
      g2.m_root = node (node nil ⟨10, 2, 1⟩ 0 nil) ⟨20, 2, 1⟩ h20 nil ∧
      Fleet.insert 1 100 0 g2 ⟨5, 2, 1⟩ = some g3 ∧
      g3.m_root = node l ⟨5, 2, 1⟩ h5 r :=
  splay_example_run 1 100 0 (fun _ => 2) (fun _ => 1) (by decide) (by decide)


/-- C21: for every tree with cached heights, `imbalance` returns the first node in pre-order
(the node itself, then its left subtree, then its right subtree) whose balance factor, taken
from the cached heights, exceeds 1 in absolute value; it returns nothing exactly when no
node of the tree is imbalanced; and when the root itself is imbalanced the root is returned,
whatever lies below. -/
theorem imbalance_first_in_preorder (t : Tree) :
    imbalance t = (preorder t).find? (fun p => isImbalanced (subtreeAt t p)) ∧
      (imbalance t = none ↔ ∀ p : Path, isImbalanced (subtreeAt t p) = false) ∧
      (isImbalanced t = true → imbalance t = some []) := by
  refine ⟨imbalance_eq_find t, imbalance_none_iff_all t, ?_⟩
  intro h
  cases t with
  | nil => simp [isImbalanced] at h
  | node l s c r =>
    simp only [isImbalanced, decide_eq_true_eq] at h
    simp only [imbalance, if_pos h]

theorem imbalance_first_in_preorder_witness :
    imbalance (node nil ⟨10001, 0, 0⟩ 3 (node nil ⟨10002, 0, 0⟩ 2
        (node nil ⟨10003, 0, 0⟩ 1 (node nil ⟨10004, 0, 0⟩ 0 nil)))) = some [] ∧
      isImbalanced (subtreeAt (node nil ⟨10001, 0, 0⟩ 3 (node nil ⟨10002, 0, 0⟩ 2
        (node nil ⟨10003, 0, 0⟩ 1 (node nil ⟨10004, 0, 0⟩ 0 nil)))) [R]) = true :=
  ⟨(imbalance_first_in_preorder _).2.2 (by decide), by decide⟩

/-- C22 as stated fails: the tree 10004(10003(10002), 10005) is balanced, ordered and has
exact heights; the insert of 10001 links the new node below 10002, and after
`updateHeights` both 10004 (the root) and 10003 (its left child) are imbalanced.  The search
of the first pass returns the root, which has the imbalanced node 10003 among its proper
descendants, and the pass rotates at the root. -/
theorem avl_pass_selects_first_counterexample :
    Balanced (node (node (node nil ⟨10002, 0, 0⟩ 0 nil) ⟨10003, 0, 0⟩ 1 nil) ⟨10004, 0, 0⟩ 2
        (node nil ⟨10005, 0, 0⟩ 0 nil)) ∧
      HeightInv (node (node (node nil ⟨10002, 0, 0⟩ 0 nil) ⟨10003, 0, 0⟩ 1 nil) ⟨10004, 0, 0⟩ 2
        (node nil ⟨10005, 0, 0⟩ 0 nil)) ∧
      BSTOrder (node (node (node nil ⟨10002, 0, 0⟩ 0 nil) ⟨10003, 0, 0⟩ 1 nil) ⟨10004, 0, 0⟩ 2
        (node nil ⟨10005, 0, 0⟩ 0 nil)) ∧
      insertWalk ⟨10001, 0, 0⟩
          (node (node (node nil ⟨10002, 0, 0⟩ 0 nil) ⟨10003, 0, 0⟩ 1 nil) ⟨10004, 0, 0⟩ 2
            (node nil ⟨10005, 0, 0⟩ 0 nil)) =
        some (node (node (node (node nil ⟨10001, 0, 0⟩ 0 nil) ⟨10002, 0, 0⟩ 0 nil)
            ⟨10003, 0, 0⟩ 1 nil) ⟨10004, 0, 0⟩ 2 (node nil ⟨10005, 0, 0⟩ 0 nil), [L, L, L]) ∧
      updateHeights (node (node (node (node nil ⟨10001, 0, 0⟩ 0 nil) ⟨10002, 0, 0⟩ 0 nil)
            ⟨10003, 0, 0⟩ 1 nil) ⟨10004, 0, 0⟩ 2 (node nil ⟨10005, 0, 0⟩ 0 nil)) =
        node (node (node (node nil ⟨10001, 0, 0⟩ 0 nil) ⟨10002, 0, 0⟩ 1 nil)
            ⟨10003, 0, 0⟩ 2 nil) ⟨10004, 0, 0⟩ 3 (node nil ⟨10005, 0, 0⟩ 0 nil) ∧
      imbalance (node (node (node (node nil ⟨10001, 0, 0⟩ 0 nil) ⟨10002, 0, 0⟩ 1 nil)
            ⟨10003, 0, 0⟩ 2 nil) ⟨10004, 0, 0⟩ 3 (node nil ⟨10005, 0, 0⟩ 0 nil)) = some [] ∧
      isImbalanced (subtreeAt (node (node (node (node nil ⟨10001, 0, 0⟩ 0 nil) ⟨10002, 0, 0⟩ 1
            nil) ⟨10003, 0, 0⟩ 2 nil) ⟨10004, 0, 0⟩ 3 (node nil ⟨10005, 0, 0⟩ 0 nil)) [L]) =
        true ∧
      rotationAVLPass (node (node (node (node nil ⟨10001, 0, 0⟩ 0 nil) ⟨10002, 0, 0⟩ 1 nil)
            ⟨10003, 0, 0⟩ 2 nil) ⟨10004, 0, 0⟩ 3 (node nil ⟨10005, 0, 0⟩ 0 nil)) [] =
        some (node (node (node nil ⟨10001, 0, 0⟩ 0 nil) ⟨10002, 0, 0⟩ 1 nil) ⟨10003, 0, 0⟩ 2
          (node nil ⟨10004, 0, 0⟩ 3 (node nil ⟨10005, 0, 0⟩ 0 nil))) := by
  refine ⟨by decide, by decide, by decide, rfl, rfl, rfl, rfl, rfl⟩

/-- C22, amended: each pass of the rebalancing loop locates and rotates the first node in
pre-order that violates the balance invariant: the node selected for rotation is imbalanced,
has no imbalanced node among its proper ancestors (the proper prefixes of its path), and is
the node at which the pass of `rotationAVL` is made. -/
theorem avl_pass_selects_first (t : Tree) (p : Path) (h : imbalance t = some p) :
    isImbalanced (subtreeAt t p) = true ∧
      (∀ q : Path, q <+: p → q ≠ p → isImbalanced (subtreeAt t q) = false) ∧
      (preorder t).find? (fun q => isImbalanced (subtreeAt t q)) = some p ∧
      ∀ fuel, rotationAVL (fuel + 1) t =
        (rotationAVLPass t p).bind (fun v =>
          if (imbalance (updateHeights v)).isSome then rotationAVL fuel (updateHeights v)
          else some (updateHeights v)) := by
  refine ⟨(imbalance_ancestors h).1, (imbalance_ancestors h).2, ?_, ?_⟩
  · rw [← imbalance_eq_find, h]
  · intro fuel
    cases hp : rotationAVLPass t p with
    | none => simp only [Option.none_bind]; exact rotationAVL_succ_none h hp
    | some v => simp only [Option.some_bind]; exact rotationAVL_succ_some h hp

theorem avl_pass_selects_first_witness :
    isImbalanced (subtreeAt (node (node (node (node nil ⟨10001, 0, 0⟩ 0 nil) ⟨10002, 0, 0⟩ 1
        nil) ⟨10003, 0, 0⟩ 2 nil) ⟨10004, 0, 0⟩ 3 (node nil ⟨10005, 0, 0⟩ 1
        (node nil ⟨10006, 0, 0⟩ 0 nil))) [L]) = true ∧
      isImbalanced (subtreeAt (node (node (node (node nil ⟨10001, 0, 0⟩ 0 nil) ⟨10002, 0, 0⟩ 1
        nil) ⟨10003, 0, 0⟩ 2 nil) ⟨10004, 0, 0⟩ 3 (node nil ⟨10005, 0, 0⟩ 1
        (node nil ⟨10006, 0, 0⟩ 0 nil))) []) = false :=
  ⟨(avl_pass_selects_first _ [L] (by decide)).1,
    (avl_pass_selects_first _ [L] (by decide)).2.1 [] (by decide) (by decide)⟩


/-- C23 as stated fails: the tree 10004(10002(10001, 10003), -) has exact heights, its root
is the node the loop selects (balance factor 2), the two subtrees of the left child have
the same height, so the pass makes the single rotation, and the rotated subtree
10002(10001, 10004(10003, -)) has height 2, the height the subtree had before. -/
theorem rotation_height_counterexample :
    HeightInv (node (node (node nil ⟨10001, 0, 0⟩ 0 nil) ⟨10002, 0, 0⟩ 1
        (node nil ⟨10003, 0, 0⟩ 0 nil)) ⟨10004, 0, 0⟩ 2 nil) ∧
      BSTOrder (node (node (node nil ⟨10001, 0, 0⟩ 0 nil) ⟨10002, 0, 0⟩ 1
        (node nil ⟨10003, 0, 0⟩ 0 nil)) ⟨10004, 0, 0⟩ 2 nil) ∧
      imbalance (node (node (node nil ⟨10001, 0, 0⟩ 0 nil) ⟨10002, 0, 0⟩ 1
        (node nil ⟨10003, 0, 0⟩ 0 nil)) ⟨10004, 0, 0⟩ 2 nil) = some [] ∧
      rotationAVLPass (node (node (node nil ⟨10001, 0, 0⟩ 0 nil) ⟨10002, 0, 0⟩ 1
          (node nil ⟨10003, 0, 0⟩ 0 nil)) ⟨10004, 0, 0⟩ 2 nil) [] =
        some (node (node nil ⟨10001, 0, 0⟩ 0 nil) ⟨10002, 0, 0⟩ 1
          (node (node nil ⟨10003, 0, 0⟩ 0 nil) ⟨10004, 0, 0⟩ 2 nil)) ∧
      height (node (node (node nil ⟨10001, 0, 0⟩ 0 nil) ⟨10002, 0, 0⟩ 1
        (node nil ⟨10003, 0, 0⟩ 0 nil)) ⟨10004, 0, 0⟩ 2 nil) = 2 ∧
      height (node (node nil ⟨10001, 0, 0⟩ 0 nil) ⟨10002, 0, 0⟩ 1
        (node (node nil ⟨10003, 0, 0⟩ 0 nil) ⟨10004, 0, 0⟩ 2 nil)) = 2 := by
  refine ⟨by decide, by decide, rfl, rfl, by decide, by decide⟩

/-- C23, amended: for every tree satisfying the height invariant and every imbalanced node
selected by the AVL rebalancing loop, the rotation of that pass promotes an existing child
and does not increase the height of the rotated subtree: the height of the subtree now
rooted at the promoted node is strictly less than the height the subtree rooted at the
imbalanced node had before the pass exactly when the two subtrees of the taller child of
the imbalanced node differ in height, and is equal to it when they have the same height.
In an ordered tree the pass puts the rotated subtree in the place of the imbalanced node. -/
theorem rotation_height (t : Tree) (p : Path) (hh : HeightInv t) (hi : imbalance t = some p) :
    ∃ l s c r, subtreeAt t p = node l s c r ∧
      (height l - height r > 1 ∨ height l - height r < -1) ∧
      (height l - height r > 1 → ∃ ll ls lh lr sub, l = node ll ls lh lr ∧
        rotateLeftHeavy l s c r = some sub ∧
        (BSTOrder t → rotationAVLPass t p = some (replaceAt sub t p)) ∧
        height sub ≤ height (node l s c r) ∧
        (height sub < height (node l s c r) ↔ height ll ≠ height lr)) ∧
      (height l - height r < -1 → ∃ rl rs rh rr sub, r = node rl rs rh rr ∧
        rotateRightHeavy l s c r = some sub ∧
        (BSTOrder t → rotationAVLPass t p = some (replaceAt sub t p)) ∧
        height sub ≤ height (node l s c r) ∧
        (height sub < height (node l s c r) ↔ height rl ≠ height rr)) := by
  obtain ⟨l, s, c, r, hs, hbf⟩ := imbalance_some hi
  have hn : HeightInv (node l s c r) := hs ▸ heightInv_subtreeAt hh p
  have hl : cachedHeight l = height l := cachedHeight_eq_height hn.2.1
  have hr : cachedHeight r = height r := cachedHeight_eq_height hn.2.2
  have him : isImbalanced (node l s c r) = true := by
    simp only [isImbalanced, decide_eq_true_eq]; exact hbf
  rw [hl, hr] at hbf
  refine ⟨l, s, c, r, hs, by omega, ?_, ?_⟩
  · intro h1
    obtain ⟨ll, ls, lh, lr, sub, e, hrot, hne, heq⟩ := rotateLeftHeavy_height (s := s) (c := c)
      hn.2.1 h1
    refine ⟨ll, ls, lh, lr, sub, e, hrot, ?_, ?_, ?_⟩
    · intro hb
      have h2 : cachedHeight l - cachedHeight r > 1 := by rw [hl, hr]; exact h1
      rw [rotationAVLPass_eq hb hs him]
      simp only [rotateAtNode, if_pos h2, hrot, Option.map_some']
    · by_cases hq : height ll = height lr
      · exact le_of_eq (heq hq)
      · exact le_of_lt (hne hq)
    · constructor
      · intro hlt hq
        have := heq hq
        omega
      · exact hne
  · intro h1
    obtain ⟨rl, rs, rh, rr, sub, e, hrot, hne, heq⟩ := rotateRightHeavy_height (s := s) (c := c)
      hn.2.2 h1
    refine ⟨rl, rs, rh, rr, sub, e, hrot, ?_, ?_, ?_⟩
    · intro hb
      have h2 : cachedHeight l - cachedHeight r < -1 := by rw [hl, hr]; exact h1
      have h3 : ¬ cachedHeight l - cachedHeight r > 1 := by omega
      rw [rotationAVLPass_eq hb hs him]
      simp only [rotateAtNode, if_neg h3, if_pos h2, hrot, Option.map_some']
    · by_cases hq : height rl = height rr
      · exact le_of_eq (heq hq)
      · exact le_of_lt (hne hq)
    · constructor
      · intro hlt hq
        have := heq hq
        omega
      · exact hne

theorem rotation_height_witness :
    HeightInv (node (node (node nil ⟨10001, 0, 0⟩ 0 nil) ⟨10002, 0, 0⟩ 1 nil)
        ⟨10003, 0, 0⟩ 2 nil) ∧
      imbalance (node (node (node nil ⟨10001, 0, 0⟩ 0 nil) ⟨10002, 0, 0⟩ 1 nil)
        ⟨10003, 0, 0⟩ 2 nil) = some [] ∧
      ∃ l s c r, subtreeAt (node (node (node nil ⟨10001, 0, 0⟩ 0 nil) ⟨10002, 0, 0⟩ 1 nil)
          ⟨10003, 0, 0⟩ 2 nil) [] = node l s c r ∧
        (height l - height r > 1 ∨ height l - height r < -1) :=
  ⟨by decide, rfl,
    (rotation_height (node (node (node nil ⟨10001, 0, 0⟩ 0 nil) ⟨10002, 0, 0⟩ 1 nil)
      ⟨10003, 0, 0⟩ 2 nil) [] (by decide) rfl).elim
      fun l h => h.elim fun s h => h.elim fun c h => h.elim fun r h => ⟨l, s, c, r, h.1, h.2.1⟩⟩

/-- C24: for every tree satisfying the BST order and height invariants, the loop of
`rotationAVL` terminates: there is a number of passes from which on the loop returns, and in
the tree it returns `imbalance` finds no node, every node being balanced; the entries in
order are those of the tree the loop started from. -/
theorem avl_loop_terminates (t : Tree) (hb : BSTOrder t) (hh : HeightInv t) :
    ∃ n u, (∀ fuel, n ≤ fuel → rotationAVL fuel t = some u) ∧ imbalance u = none ∧
      (∀ p : Path, isImbalanced (subtreeAt u p) = false) ∧ Balanced u ∧
      inorder u = inorder t := by
  obtain ⟨n, u, h1, h2, _, h4, h5⟩ := rotationAVL_spec hb hh
  have h6 : imbalance u = none := (imbalance_none_iff h4).2 h5
  exact ⟨n, u, h1, h6, (imbalance_none_iff_all u).1 h6, h5, h2⟩

theorem avl_loop_terminates_witness :
    ∃ n u, (∀ fuel, n ≤ fuel →
        rotationAVL fuel (node nil ⟨10001, 0, 0⟩ 3 (node nil ⟨10002, 0, 0⟩ 2
          (node nil ⟨10003, 0, 0⟩ 1 (node nil ⟨10004, 0, 0⟩ 0 nil)))) = some u) ∧
      imbalance u = none ∧ (∀ p : Path, isImbalanced (subtreeAt u p) = false) ∧ Balanced u ∧
      inorder u = inorder (node nil ⟨10001, 0, 0⟩ 3 (node nil ⟨10002, 0, 0⟩ 2
          (node nil ⟨10003, 0, 0⟩ 1 (node nil ⟨10004, 0, 0⟩ 0 nil)))) :=
  avl_loop_terminates _ (by decide) (by decide)

/-- C25: for one pass of AVL rebalancing, on any tree `t` the loop runs a pass on, at a
node N with subtrees L = (LL, LR) and R and balance factor above 1: if LR is non-empty and
strictly taller than LL, with LR = (LRL, LRR), the subtree becomes
LR(L(LL, LRL), N(LRR, R)); otherwise, including when LL and LR have equal height, it
becomes L(LL, N(LR, R)).  The mirror image holds for a balance factor below -1.  In each
case the new subtree replaces N at its place in the tree, under the former parent of N or
as root, and the in-order sequence of the whole tree is unchanged.  The heights the code
compares, the cached ones, are the heights of the subtrees. -/
theorem avl_pass_rotation (MINID MAXID : Int) (t : Tree) (p : Path) (l r : Tree) (s : Ship)
    (h : Int) (ht : PassTree MINID MAXID t) (hs : subtreeAt t p = node l s h r) :
    (∀ ll ls lh lrl lrs lrh lrr, l = node ll ls lh (node lrl lrs lrh lrr) →
      height l - height r > 1 → height (node lrl lrs lrh lrr) > height ll →
      rotationAVLPass t p =
          some (replaceAt (node (node ll ls lh lrl) lrs lrh (node lrr s h r)) t p) ∧
        inorder (replaceAt (node (node ll ls lh lrl) lrs lrh (node lrr s h r)) t p) =
          inorder t) ∧
    (∀ ll ls lh lr, l = node ll ls lh lr → height l - height r > 1 →
      (lr = nil ∨ ¬ height lr > height ll) →
      rotationAVLPass t p = some (replaceAt (node ll ls lh (node lr s h r)) t p) ∧
        inorder (replaceAt (node ll ls lh (node lr s h r)) t p) = inorder t) ∧
    (∀ rll rls rlh rlr rs rh rr, r = node (node rll rls rlh rlr) rs rh rr →
      height l - height r < -1 → height (node rll rls rlh rlr) > height rr →
      rotationAVLPass t p =
          some (replaceAt (node (node l s h rll) rls rlh (node rlr rs rh rr)) t p) ∧
        inorder (replaceAt (node (node l s h rll) rls rlh (node rlr rs rh rr)) t p) =
          inorder t) ∧
    (∀ rl rs rh rr, r = node rl rs rh rr → height l - height r < -1 →
      (rl = nil ∨ ¬ height rl > height rr) →
      rotationAVLPass t p = some (replaceAt (node (node l s h rl) rs rh rr) t p) ∧
        inorder (replaceAt (node (node l s h rl) rs rh rr) t p) = inorder t) ∧
    (∀ q : Path, cachedHeight (subtreeAt t q) = height (subtreeAt t q)) := by
  obtain ⟨hb, hh⟩ := passTree_inv ht
  have hn : HeightInv (node l s h r) := hs ▸ heightInv_subtreeAt hh p
  have el : cachedHeight l = height l := cachedHeight_eq_height hn.2.1
  have er : cachedHeight r = height r := cachedHeight_eq_height hn.2.2
  obtain ⟨k1, k2, k3, k4, _⟩ := rotationAVLPass_shapes t p l r s h hb hs
  refine ⟨?_, ?_, ?_, ?_, fun q => cachedHeight_subtreeAt hh q⟩
  · intro ll ls lh lrl lrs lrh lrr e hbf hgt
    have hl : HeightInv (node ll ls lh (node lrl lrs lrh lrr)) := e ▸ hn.2.1
    refine k1 ll ls lh lrl lrs lrh lrr e (by rw [el, er]; exact hbf) ?_
    rw [cachedHeight_eq_height hl.2.2, cachedHeight_eq_height hl.2.1]
    exact hgt
  · intro ll ls lh lr e hbf hc
    have hl : HeightInv (node ll ls lh lr) := e ▸ hn.2.1
    refine k2 ll ls lh lr e (by rw [el, er]; exact hbf) ?_
    rw [cachedHeight_eq_height hl.2.2, cachedHeight_eq_height hl.2.1]
    exact hc
  · intro rll rls rlh rlr rs rh rr e hbf hgt
    have hr : HeightInv (node (node rll rls rlh rlr) rs rh rr) := e ▸ hn.2.2
    refine k3 rll rls rlh rlr rs rh rr e (by rw [el, er]; exact hbf) ?_
    rw [cachedHeight_eq_height hr.2.1, cachedHeight_eq_height hr.2.2]
    exact hgt
  · intro rl rs rh rr e hbf hc
    have hr : HeightInv (node rl rs rh rr) := e ▸ hn.2.2
    refine k4 rl rs rh rr e (by rw [el, er]; exact hbf) ?_
    rw [cachedHeight_eq_height hr.2.1, cachedHeight_eq_height hr.2.2]
    exact hc

theorem avl_pass_rotation_witness :
    imbalance (node (node nil ⟨10001, 0, 0⟩ 1 (node nil ⟨10002, 0, 0⟩ 0 nil))
        ⟨10003, 0, 0⟩ 2 nil) = some [] ∧
      rotationAVLPass (node (node nil ⟨10001, 0, 0⟩ 1 (node nil ⟨10002, 0, 0⟩ 0 nil))
          ⟨10003, 0, 0⟩ 2 nil) [] =
        some (node (node nil ⟨10001, 0, 0⟩ 1 nil) ⟨10002, 0, 0⟩ 0
          (node nil ⟨10003, 0, 0⟩ 2 nil)) ∧
      inorder (node (node nil ⟨10001, 0, 0⟩ 1 nil) ⟨10002, 0, 0⟩ 0
          (node nil ⟨10003, 0, 0⟩ 2 nil)) =
        inorder (node (node nil ⟨10001, 0, 0⟩ 1 (node nil ⟨10002, 0, 0⟩ 0 nil))
          ⟨10003, 0, 0⟩ 2 nil) :=
  ⟨rfl, (avl_pass_rotation 10000 99999
      (node (node nil ⟨10001, 0, 0⟩ 1 (node nil ⟨10002, 0, 0⟩ 0 nil)) ⟨10003, 0, 0⟩ 2 nil)
      [] _ _ _ _
      (PassTree.setType
        (f := ⟨node (node nil ⟨10001, 0, 0⟩ 1 (node nil ⟨10002, 0, 0⟩ 0 nil)) ⟨10003, 0, 0⟩ 2
          nil, BST⟩)
        (Reachable.insert 0 ⟨10002, 0, 0⟩
          (Reachable.insert 0 ⟨10001, 0, 0⟩
            (Reachable.insert 0 ⟨10003, 0, 0⟩ (Reachable.create BST) rfl) rfl) rfl))
      rfl).1
    nil ⟨10001, 0, 0⟩ 1 nil ⟨10002, 0, 0⟩ 0 nil rfl (by decide) (by decide)⟩


/-- C26: in a tree satisfying the BST order invariant, for a target at depth at least 1 (the
length of its path `p`), one iteration of the splay loop brings the target to the root when
its parent is the root (zig or zag), and otherwise puts the promoted target in the place of
its former grandparent, two levels up, under the former great-grandparent or as root; both
keep the in-order sequence and the BST order.  The loop returns with the target at the root
after `(p.length + 1) / 2` iterations, the ceiling of half the depth, and after no fewer. -/
theorem splay_iteration (t : Tree) (p : Path) (a b : Tree) (x : Ship) (hx : Int)
    (hb : BSTOrder t) (hs : subtreeAt t p = node a x hx b) (_hd : 1 ≤ p.length) :
    (∀ d, p = [d] → ∃ a1 b1, zig x.m_id t d = some (node a1 x hx b1) ∧
      (∀ fuel, splayLoop x.m_id (fuel + 1) t p = some (node a1 x hx b1)) ∧
      inorder (node a1 x hx b1) = inorder t ∧ BSTOrder (node a1 x hx b1)) ∧
    (2 ≤ p.length → ∃ a1 b1,
      splayDouble x.m_id t p = some (replaceAt (node a1 x hx b1) t p.dropLast.dropLast) ∧
      (∀ fuel, splayLoop x.m_id (fuel + 1) t p =
        splayLoop x.m_id fuel (replaceAt (node a1 x hx b1) t p.dropLast.dropLast)
          p.dropLast.dropLast) ∧
      subtreeAt (replaceAt (node a1 x hx b1) t p.dropLast.dropLast) p.dropLast.dropLast =
        node a1 x hx b1 ∧
      p.dropLast.dropLast.length + 2 = p.length ∧
      inorder (replaceAt (node a1 x hx b1) t p.dropLast.dropLast) = inorder t ∧
      BSTOrder (replaceAt (node a1 x hx b1) t p.dropLast.dropLast)) ∧
    (∃ a1 b1, splayLoop x.m_id ((p.length + 1) / 2) t p = some (node a1 x hx b1) ∧
      inorder (node a1 x hx b1) = inorder t ∧ BSTOrder (node a1 x hx b1)) ∧
    (∀ fuel, fuel < (p.length + 1) / 2 → splayLoop x.m_id fuel t p = none) := by
  have hf : Follows x.m_id t p := follows_of_bstOrder hb hs
  refine ⟨?_, ?_, ?_, ?_⟩
  · intro d e
    subst e
    obtain ⟨a1, b1, h1, h2⟩ := zig_spec hf hs
    refine ⟨a1, b1, h1, ?_, h2, bstOrder_of_inorder h2.symm hb⟩
    intro fuel
    simp only [splayLoop, h1]
  · intro hlen
    match p, hs, hf, hlen with
    | d1 :: d2 :: q, hs, hf, _ =>
      obtain ⟨a1, b1, h1, g, hg, hgne, hin⟩ := splayDouble_frame q t d1 d2 hf hs
      cases g with
      | nil => exact absurd rfl hgne
      | node gl gs gh gr =>
        have hio : inorder (replaceAt (node a1 x hx b1) t (d1 :: d2 :: q).dropLast.dropLast) =
            inorder t := replaceAt_inorder hg hin
        refine ⟨a1, b1, h1, ?_, subtreeAt_replaceAt hg, ?_, hio,
          bstOrder_of_inorder hio.symm hb⟩
        · intro fuel
          simp only [splayLoop, h1]
        · simp only [List.length_dropLast, List.length_cons]
          omega
  · obtain ⟨a1, b1, h1, h2⟩ := @splayLoop_exact x.m_id x hx ((p.length + 1) / 2) t p a b
      (Nat.le_refl _) hf hs
    exact ⟨a1, b1, h1, h2, bstOrder_of_inorder h2.symm hb⟩
  · intro fuel hlt
    exact @splayLoop_short x.m_id x hx fuel t p a b hlt hf hs

theorem splay_iteration_witness :
    ∃ a1 b1, splayLoop 10003 1 (node (node (node nil ⟨10001, 0, 0⟩ 0 nil) ⟨10002, 0, 0⟩ 1
          (node nil ⟨10003, 0, 0⟩ 0 nil)) ⟨10004, 0, 0⟩ 2 nil) [L, R] =
        some (node a1 ⟨10003, 0, 0⟩ 0 b1) ∧
      inorder (node a1 ⟨10003, 0, 0⟩ 0 b1) =
        inorder (node (node (node nil ⟨10001, 0, 0⟩ 0 nil) ⟨10002, 0, 0⟩ 1
          (node nil ⟨10003, 0, 0⟩ 0 nil)) ⟨10004, 0, 0⟩ 2 nil) ∧
      BSTOrder (node a1 ⟨10003, 0, 0⟩ 0 b1) :=
  (splay_iteration (node (node (node nil ⟨10001, 0, 0⟩ 0 nil) ⟨10002, 0, 0⟩ 1
      (node nil ⟨10003, 0, 0⟩ 0 nil)) ⟨10004, 0, 0⟩ 2 nil) [L, R] nil nil ⟨10003, 0, 0⟩ 0
    (by decide) rfl (by decide)).2.2.1

/-- C27: in a tree satisfying the BST order and height invariants no rotation operates on a
missing node.  In the AVL loop the node that `imbalance` selects exists, the parent search
from the root runs along the path to it, the child promoted exists (the left child for a
balance factor above 1, the right child below -1), the pass returns a tree, and so does the
whole loop.  In the splay loop, for a target present in the tree, the descent from the root
runs along the path to the target, every node on that path exists, the grandparent exists
whenever the parent of the target is not the root, and the loop returns a tree. -/
theorem rotations_meet_no_missing_node (t : Tree) (hb : BSTOrder t) (hh : HeightInv t) :
    (∀ p, imbalance t = some p → ∃ l s c r, subtreeAt t p = node l s c r ∧
      Follows s.m_id t p ∧
      (cachedHeight l - cachedHeight r > 1 ∨ cachedHeight l - cachedHeight r < -1) ∧
      (cachedHeight l - cachedHeight r > 1 → l ≠ nil ∧
        ∃ sub, rotateLeftHeavy l s c r = some sub) ∧
      (cachedHeight l - cachedHeight r < -1 → r ≠ nil ∧
        ∃ sub, rotateRightHeavy l s c r = some sub) ∧
      ∃ u, rotationAVLPass t p = some u) ∧
    (∃ n u, ∀ fuel, n ≤ fuel → rotationAVL fuel t = some u) ∧
    (∀ p a x hx b, subtreeAt t p = node a x hx b →
      Follows x.m_id t p ∧ (∀ q : Path, q <+: p → subtreeAt t q ≠ nil) ∧
      (2 ≤ p.length → ∃ gl gs gh gr, subtreeAt t p.dropLast.dropLast = node gl gs gh gr) ∧
      (∃ u, splayLoop x.m_id p.length t p = some u) ∧
      ∃ u, rotationSPLAY x.m_id t p = some u) := by
  refine ⟨?_, ?_, ?_⟩
  · intro p hi
    obtain ⟨l, s, c, r, hs, hbf⟩ := imbalance_some hi
    have hn : HeightInv (node l s c r) := hs ▸ heightInv_subtreeAt hh p
    have hl : cachedHeight l = height l := cachedHeight_eq_height hn.2.1
    have hr : cachedHeight r = height r := cachedHeight_eq_height hn.2.2
    have him : isImbalanced (node l s c r) = true := by
      simp only [isImbalanced, decide_eq_true_eq]; exact hbf
    have hL : cachedHeight l - cachedHeight r > 1 →
        l ≠ nil ∧ ∃ sub, rotateLeftHeavy l s c r = some sub := by
      intro h1
      have h2 : height l - height r > 1 := by rw [← hl, ← hr]; exact h1
      obtain ⟨ll, ls, lh, lr, sub, e, hrot, _⟩ := rotateLeftHeavy_height (s := s) (c := c)
        hn.2.1 h2
      exact ⟨by rw [e]; exact fun h0 => Tree.noConfusion h0, sub, hrot⟩
    have hR : cachedHeight l - cachedHeight r < -1 →
        r ≠ nil ∧ ∃ sub, rotateRightHeavy l s c r = some sub := by
      intro h1
      have h2 : height l - height r < -1 := by rw [← hl, ← hr]; exact h1
      obtain ⟨rl, rs, rh, rr, sub, e, hrot, _⟩ := rotateRightHeavy_height (s := s) (c := c)
        hn.2.2 h2
      exact ⟨by rw [e]; exact fun h0 => Tree.noConfusion h0, sub, hrot⟩
    have hcase : cachedHeight l - cachedHeight r > 1 ∨
        cachedHeight l - cachedHeight r < -1 := by
      omega
    refine ⟨l, s, c, r, hs, follows_of_bstOrder hb hs, hcase, hL, hR, ?_⟩
    rw [rotationAVLPass_eq hb hs him]
    rcases hcase with h1 | h1
    · obtain ⟨_, sub, hrot⟩ := hL h1
      exact ⟨replaceAt sub t p, by simp only [rotateAtNode, if_pos h1, hrot, Option.map_some']⟩
    · obtain ⟨_, sub, hrot⟩ := hR h1
      have h3 : ¬ cachedHeight l - cachedHeight r > 1 := by omega
      exact ⟨replaceAt sub t p,
        by simp only [rotateAtNode, if_neg h3, if_pos h1, hrot, Option.map_some']⟩
  · obtain ⟨n, u, h1, _⟩ := rotationAVL_spec hb hh
    exact ⟨n, u, h1⟩
  · intro p a x hx b hs
    have hf : Follows x.m_id t p := follows_of_bstOrder hb hs
    refine ⟨hf, fun q hq => subtreeAt_prefix_ne_nil hs hq, ?_, ?_, ?_⟩
    · intro _
      have hq : p.dropLast.dropLast <+: p :=
        (List.dropLast_prefix _).trans (List.dropLast_prefix _)
      have hne := subtreeAt_prefix_ne_nil hs hq
      cases hg : subtreeAt t p.dropLast.dropLast with
      | nil => exact absurd hg hne
      | node gl gs gh gr => exact ⟨gl, gs, gh, gr, rfl⟩
    · obtain ⟨a1, b1, h1, _⟩ :=
        @splayLoop_spec x.m_id x hx p.length t p a b (Nat.le_refl _) hf hs
      exact ⟨_, h1⟩
    · obtain ⟨a1, c1, b1, h1, _⟩ := rotationSPLAY_spec hh hf hs
      exact ⟨_, h1⟩

theorem rotations_meet_no_missing_node_witness :
    ∃ n u, ∀ fuel, n ≤ fuel →
      rotationAVL fuel (node (node (node nil ⟨10001, 0, 0⟩ 0 nil) ⟨10002, 0, 0⟩ 1 nil)
        ⟨10003, 0, 0⟩ 2 nil) = some u :=
  (rotations_meet_no_missing_node (node (node (node nil ⟨10001, 0, 0⟩ 0 nil) ⟨10002, 0, 0⟩ 1
    nil) ⟨10003, 0, 0⟩ 2 nil) (by decide) (by decide)).2.1


/-- C28: for every tree the text that `dump` writes is the text written so far followed by
the recursively defined text: nothing for the empty tree, and for a node an opening
parenthesis, the text of the left subtree, the identifier, a colon, the cached height, the
text of the right subtree, a closing parenthesis.  The identifiers among the pieces of that
text are the identifiers of the tree in order, and the dump of an empty container is
empty. -/
theorem dump_is_text (t : Tree) (out : String) (ty : TREETYPE) :
    dump t out = out ++ dumpText t ∧
      Fleet.dumpTree ⟨t, ty⟩ "" = dumpText t ∧
      dumpText nil = "" ∧
      (∀ l s h r, dumpText (node l s h r) =
        "(" ++ dumpText l ++ toString s.m_id ++ ":" ++ toString h ++ dumpText r ++ ")") ∧
      dumpText t = piecesText (dumpPieces t) ∧
      (dumpPieces t).filterMap Piece.ident? = ids t ∧
      Fleet.dumpTree ⟨nil, ty⟩ "" = "" := by
  refine ⟨dump_eq t out, ?_, rfl, fun _ _ _ _ => rfl, dumpText_eq_pieces t, dumpPieces_ids t,
    rfl⟩
  show dump t "" = dumpText t
  rw [dump_eq t ""]
  exact String.empty_append _

/-- C29: for a container of type BST, AVL or SPLAY whose tree satisfies the BST order and
height invariants and an entry `e` whose identifier lies in `[MINID, MAXID]` and is not
stored, `insert` returns, and the in-order sequence of entries afterwards is the old one
with `e` (identifier, category, status) put at its sorted position: one entry more, no
other entry lost, doubled or altered; the type is kept and both invariants hold again. -/
theorem insert_inorder_sorted (MINID MAXID : Int) (f : Fleet) (e : Ship)
    (ht : f.m_type = BST ∨ f.m_type = AVL ∨ f.m_type = SPLAY)
    (hb : BSTOrder f.m_root) (hh : HeightInv f.m_root)
    (hr : MINID ≤ e.m_id ∧ e.m_id ≤ MAXID) (hn : e.m_id ∉ ids f.m_root) :
    ∃ n g, (∀ fuel, n ≤ fuel → Fleet.insert MINID MAXID fuel f e = some g) ∧
      g.m_type = f.m_type ∧
      inorder g.m_root = insertSorted e (inorder f.m_root) ∧
      (inorder g.m_root).length = (inorder f.m_root).length + 1 ∧
      BSTOrder g.m_root ∧ HeightInv g.m_root := by
  have hg : ¬ (f.m_type = NONE ∨ e.m_id < MINID ∨ e.m_id > MAXID) := by
    intro h
    rcases h with h | h | h
    · rcases ht with h2 | h2 | h2 <;> rw [h] at h2 <;> cases h2
    · omega
    · omega
  obtain ⟨u, p, hw, _⟩ := @insertWalk_reference e f.m_root hn
  obtain ⟨n1, g1, h1, hty, hio⟩ := @insert_inorder MINID MAXID f e u p hg hw hb
  obtain ⟨n2, g2, h2, _, hb2, hh2, _⟩ := insert_spec MINID MAXID f e hb hh
  have e12 : g2 = g1 := by
    have a1 := h1 (max n1 n2) (Nat.le_max_left _ _)
    have a2 := h2 (max n1 n2) (Nat.le_max_right _ _)
    rw [a1] at a2
    exact (Option.some.inj a2).symm
  subst e12
  have hs : inorder g2.m_root = insertSorted e (inorder f.m_root) :=
    hio.trans (insertWalk_inorder hb hw)
  refine ⟨n1, g2, h1, hty, hs, ?_, hb2, hh2⟩
  rw [hs, insertSorted_length]

theorem insert_inorder_sorted_witness :
    ∃ n g, (∀ fuel, n ≤ fuel →
        Fleet.insert 10000 99999 fuel
          ⟨node (node nil ⟨10001, 1, 0⟩ 0 nil) ⟨10003, 2, 1⟩ 1 nil, AVL⟩ ⟨10002, 3, 2⟩ =
          some g) ∧
      g.m_type = AVL ∧
      inorder g.m_root = insertSorted ⟨10002, 3, 2⟩
        (inorder (node (node nil ⟨10001, 1, 0⟩ 0 nil) ⟨10003, 2, 1⟩ 1 nil)) ∧
      (inorder g.m_root).length =
        (inorder (node (node nil ⟨10001, 1, 0⟩ 0 nil) ⟨10003, 2, 1⟩ 1 nil)).length + 1 ∧
      BSTOrder g.m_root ∧ HeightInv g.m_root :=
  insert_inorder_sorted 10000 99999
    ⟨node (node nil ⟨10001, 1, 0⟩ 0 nil) ⟨10003, 2, 1⟩ 1 nil, AVL⟩ ⟨10002, 3, 2⟩
    (Or.inr (Or.inl rfl)) (by decide) (by decide) (by decide) (by decide)

/-- C30: for a container whose tree satisfies the height invariant and is balanced at every
node, `setType(AVL)` returns the same tree with type AVL, for every bound on the passes (no
pass is made); and for a container satisfying the BST order and height invariants,
`setType(AVL)` returns a container on which a second `setType(AVL)` returns that same
container. -/
theorem setType_AVL_idempotent (f : Fleet) :
    (HeightInv f.m_root → Balanced f.m_root →
      ∀ fuel, Fleet.setType fuel f AVL = some ⟨f.m_root, AVL⟩) ∧
    (BSTOrder f.m_root → HeightInv f.m_root →
      ∃ n g, (∀ fuel, n ≤ fuel → Fleet.setType fuel f AVL = some g) ∧
        (∀ fuel, Fleet.setType fuel g AVL = some g) ∧
        ∀ fuel1 fuel2, n ≤ fuel1 →
          (Fleet.setType fuel1 f AVL).bind (fun g1 => Fleet.setType fuel2 g1 AVL) =
            Fleet.setType fuel1 f AVL) := by
  have key : ∀ g : Fleet, HeightInv g.m_root → Balanced g.m_root →
      ∀ fuel, Fleet.setType fuel g AVL = some ⟨g.m_root, AVL⟩ := by
    intro g hh hbal fuel
    have hi : imbalance g.m_root = none := (imbalance_none_iff hh).2 hbal
    simp [Fleet.setType, rotationAVL_of_none hi]
  refine ⟨key f, ?_⟩
  intro hb hh
  obtain ⟨n, g, h1, hty, _, hhg, hbal⟩ := setType_spec f AVL hb hh
  have h2 : ∀ fuel, Fleet.setType fuel g AVL = some g := by
    intro fuel
    rw [key g hhg (hbal rfl).1 fuel]
    cases g with
    | mk root ty =>
      simp only at hty
      rw [hty]
  refine ⟨n, g, h1, h2, ?_⟩
  intro fuel1 fuel2 hle
  rw [h1 fuel1 hle, Option.some_bind, h2 fuel2]

theorem setType_AVL_idempotent_witness :
    (∀ fuel, Fleet.setType fuel
        ⟨node (node nil ⟨10001, 0, 0⟩ 0 nil) ⟨10002, 0, 0⟩ 1 nil, BST⟩ AVL =
      some ⟨node (node nil ⟨10001, 0, 0⟩ 0 nil) ⟨10002, 0, 0⟩ 1 nil, AVL⟩) ∧
    ∃ n g, (∀ fuel, n ≤ fuel → Fleet.setType fuel
        ⟨node (node (node nil ⟨10001, 0, 0⟩ 0 nil) ⟨10002, 0, 0⟩ 1 nil) ⟨10003, 0, 0⟩ 2 nil,
          BST⟩ AVL = some g) ∧
      ∀ fuel, Fleet.setType fuel g AVL = some g :=
  ⟨(setType_AVL_idempotent
      ⟨node (node nil ⟨10001, 0, 0⟩ 0 nil) ⟨10002, 0, 0⟩ 1 nil, BST⟩).1 (by decide) (by decide),
    ((setType_AVL_idempotent
      ⟨node (node (node nil ⟨10001, 0, 0⟩ 0 nil) ⟨10002, 0, 0⟩ 1 nil) ⟨10003, 0, 0⟩ 2 nil,
        BST⟩).2 (by decide) (by decide)).elim
      fun n h => h.elim fun g h => ⟨n, g, h.1, h.2.1⟩⟩

end FleetTree
